import Mathlib

/-!
Verification development for a TypeScript planar-graph engine
(random planar straight-line graph generation, pruning, half-edge (DCEL)
face extraction, face-topology queries, and serialization).

The embedding is a shallow one over exact arithmetic:

* JavaScript `number` coordinates are modelled as `ℚ` (exact rationals);
  all the arithmetic the algorithms perform on coordinates is
  field arithmetic, so the idealized model replaces floating point by `ℚ`.
* `Number.isFinite (x / d)` over exact arithmetic holds iff `d ≠ 0`
  (division by zero is the only source of `Infinity`/`NaN` in the code);
  the predicates below test the denominator directly.
* `Math.atan2` is modelled by `Complex.arg` (the real-valued angle in
  `(-π, π]`, with `atan2 0 0 = 0` matching JavaScript).  The pipeline
  itself uses decidable rational comparators which are *proved*
  equivalent to the `atan2` comparisons (`argLE_iff`, `gapLtSixth_iff`),
  keeping the whole construction executable.
* Object identity is modelled arena-style: vertices and edges carry
  never-reused numeric ids, half-edges of the edge with id `e` are the
  numbers `2*e` and `2*e+1`, and the mutable `next` / `face` pointers of
  half-edges are explicit finite maps threaded through the construction.
* JavaScript `Array.prototype.sort` (stable since ES2019) is modelled by
  a stable insertion sort.
* The `while` fix-point loops of the source are modelled with an explicit
  fuel argument; sufficiency of the fuel supplied at each call site is
  proved separately, so the modelled loops reach the same fix-points the
  source loops do.
-/

namespace Higharc

/-! ### Vector primitives (vec2.ts) -/
/-- 2D vector/point over exact rationals; models `vec2`. -/
abbrev Q2 := ℚ × ℚ

/-- Models `vec2.sub`. -/
def vsub (a b : Q2) : Q2 := (a.1 - b.1, a.2 - b.2)

/-- Models `vec2.add`. -/
def vadd (a b : Q2) : Q2 := (a.1 + b.1, a.2 + b.2)

/-- Models `vec2.scale`. -/
def vscale (a : Q2) (s : ℚ) : Q2 := (a.1 * s, a.2 * s)

/-- Models `vec2.cross`: `ax * by - ay * bx`. -/
def vcross (a b : Q2) : ℚ := a.1 * b.2 - a.2 * b.1

/-- Dot product, used to express the exact angle comparators. -/
def vdot (a b : Q2) : ℚ := a.1 * b.1 + a.2 * b.2

/-! ### Geometry predicates (util.ts) -/
/-- Models `rayLineSegmentIntersect`.  The parametric solution divides by
`denominator = rayDirection × segment`; under exact arithmetic the
`Number.isFinite` guards of the source fail exactly when that denominator
is zero. Returns the intersection point on success. -/
def rayLineSegmentIntersect (rayOrigin rayDirection v0 v1 : Q2) : Option Q2 :=
  let segment := vsub v1 v0
  let denominator := vcross rayDirection segment
  let originToSegment := vsub v0 rayOrigin
  let tRay := vcross originToSegment segment / denominator
  let tSegment := vcross originToSegment rayDirection / denominator
  if denominator = 0 ∨ tRay < 0 ∨ tSegment < 0 ∨ 1 < tSegment then none
  else some (rayOrigin.1 + rayDirection.1 * tRay, rayOrigin.2 + rayDirection.2 * tRay)

/-- Models `lineSegmentIntersect`: solves for the two parametric
coordinates `ta`, `tb` and reports an intersection iff both are finite
(denominator nonzero, under exact arithmetic) and lie in `[0,1]`. -/
def lineSegmentIntersect (a0 a1 b0 b1 : Q2) : Bool :=
  let r := vsub a1 a0
  let s := vsub b1 b0
  let denominator := vcross r s
  let q := vsub b0 a0
  let ta := vcross q s / denominator
  let tb := vcross q r / denominator
  decide (denominator ≠ 0) && !(decide (ta < 0) || decide (1 < ta)
    || decide (tb < 0) || decide (1 < tb))

/-! ### Exact angle comparators

`Math.atan2` returns the angle of a vector in `(-π, π]` (with
`atan2 0 0 = 0`).  The source compares such angles (for the CCW sort of
incident edges) and tests whether a wrapped angle difference is below
`π/6` (for sliver pruning).  Both comparisons are decidable over `ℚ`:
the order on angles is classification into lower half plane / positive
x-axis / upper half plane-plus-negative-x-axis, refined by the cross
product, and the `< π/6` test is a sign-plus-tangent comparison.  The
equivalence with the real `atan2` comparisons is proved below
(`argLE_iff`, `gapLtSixth_iff`). -/
/-- Angle class of a vector: `0` for the open lower half plane
(angles in `(-π, 0)`), `1` for the nonnegative x-axis including the
origin (angle `0`), `2` for the open upper half plane and the negative
x-axis (angles in `(0, π]`). -/
def argClass (v : Q2) : ℕ :=
  if v.2 < 0 then 0 else if v.2 = 0 ∧ 0 ≤ v.1 then 1 else 2

/-- Decidable comparison `atan2 u ≤ atan2 v` (see `argLE_iff`). -/
def argLE (u v : Q2) : Bool :=
  if argClass u = argClass v then decide (0 ≤ vcross u v)
  else decide (argClass u < argClass v)

/-- Decidable test for "the CCW angle from `u` to `v`, wrapped into
`(0, 2π]` the way `removeSmallAngles` wraps it, is `< π/6`"
(see `gapLtSixth_iff`).  A zero vector has `atan2` angle `0`, the same
as `(1, 0)`, so it is replaced by `(1, 0)` before the sign tests. -/
def gapLtSixth (u v : Q2) : Bool :=
  let u' := if u = ((0 : ℚ), (0 : ℚ)) then ((1 : ℚ), (0 : ℚ)) else u
  let v' := if v = ((0 : ℚ), (0 : ℚ)) then ((1 : ℚ), (0 : ℚ)) else v
  decide (0 < vcross u' v') && decide (0 < vdot u' v') &&
    decide (3 * vcross u' v' ^ 2 < vdot u' v' ^ 2)

/-! ### Graph data model (graph.ts)

Arena-style embedding of the mutable object graph: vertices and edges
carry unique numeric ids (never reused), object identity is id equality.
The two half-edges of the edge with id `e` are `2*e`
(`halfEdgeFromVertex0`) and `2*e + 1` (`halfEdgeFromVertex1`); the twin
of a half-edge is therefore determined by its number.  The mutable
`next` and `face` pointers of half-edges are finite maps on the graph.
Face display colors (random strings) are not modelled; no claim
mentions them. -/
/-- Models `GraphVertex`: position plus the mutable incident-edge list
(edge ids, kept in insertion order until `sortEdgesCCW`). -/
structure GVertex where
  vid : ℕ
  pos : Q2
  edges : List ℕ
deriving DecidableEq, Repr

/-- Models `GraphEdge`: an immutable record of its two endpoint ids. -/
structure GEdge where
  eid : ℕ
  v0 : ℕ
  v1 : ℕ
deriving DecidableEq, Repr

/-- Models `GraphFace`: the ordered boundary list of half-edge ids. -/
structure GFace where
  halfEdges : List ℕ
deriving DecidableEq, Repr

/-- Models `Graph`: the vertex/edge/half-edge/face collections, the
fresh-id counter, and the mutable `next`/`face` half-edge pointers. -/
structure Graph where
  vertices : List GVertex := []
  edges : List GEdge := []
  halfEdges : List ℕ := []
  faces : List GFace := []
  nextEid : ℕ := 0
  nextMap : ℕ → Option ℕ := fun _ => none
  faceMap : ℕ → Option ℕ := fun _ => none

/-- The serialized exchange format `GraphSerialized`: vertex coordinate
pairs plus edge index pairs (JavaScript numbers used as indices are
modelled as integers, so out-of-range includes negative indices). -/
structure SerializedG where
  vertices : List Q2
  edges : List (ℤ × ℤ)
deriving DecidableEq, Repr

/-- The empty graph every construction starts from. -/
def emptyGraph : Graph := {}

/-- Graph-space width (`readonly width = 2`). -/
def graphWidth : ℚ := 2

/-- Graph-space height (`readonly height = 2`). -/
def graphHeight : ℚ := 2

/-- Graph-space padding (`readonly padding = 0.1`). -/
def graphPadding : ℚ := 1 / 10

/-- Twin of a half-edge: the other half of the same edge. -/
def twinH (h : ℕ) : ℕ := if h % 2 = 0 then h + 1 else h - 1

/-- Half-edge `2*e + s` belongs to edge `e`. -/
def hedgeEid (h : ℕ) : ℕ := h / 2

/-- Look up a vertex object by id (JavaScript object references are ids;
the lookup fails only in states the invariants exclude). -/
def lookupVertex (g : Graph) (vid : ℕ) : Option GVertex :=
  g.vertices.find? (fun v => v.vid = vid)

/-- Look up an edge object by id. -/
def lookupEdge (g : Graph) (eid : ℕ) : Option GEdge :=
  g.edges.find? (fun e => e.eid = eid)

/-- Position of the vertex with the given id, `(0,0)` if absent
(the absent case is unreachable in the modelled flows). -/
def posOf (g : Graph) (vid : ℕ) : Q2 :=
  match lookupVertex g vid with
  | some v => v.pos
  | none => ((0 : ℚ), (0 : ℚ))

/-- Remove the first list element satisfying `p`; models
`indexOf` + `splice(i, 1)`. -/
def removeFirstBy (p : α → Bool) : List α → List α
  | [] => []
  | x :: xs => if p x then xs else x :: removeFirstBy p xs

/-- Append an edge id to the incident list of the vertex with id `vid`;
models `vertex.edges.push(edge)`. -/
def pushEdgeToVertex (vs : List GVertex) (vid eid : ℕ) : List GVertex :=
  vs.map (fun v => if v.vid = vid then { v with edges := v.edges ++ [eid] } else v)

/-- Remove the first occurrence of an edge id from the incident list of
the vertex with id `vid`; models `GraphVertex.removeEdge`. -/
def removeEdgeFromVertex (vs : List GVertex) (vid eid : ℕ) : List GVertex :=
  vs.map (fun v =>
    if v.vid = vid then { v with edges := removeFirstBy (fun x => x = eid) v.edges } else v)

/-- Models `Graph.registerEdge` applied to `new GraphEdge(a, b)`: append
the edge and its two half-edges and push it onto both endpoints'
incident lists (twice onto the same vertex for a self-loop, as in the
source). -/
def registerEdge (g : Graph) (a b : ℕ) : Graph :=
  let e : GEdge := ⟨g.nextEid, a, b⟩
  { g with
    edges := g.edges ++ [e]
    halfEdges := g.halfEdges ++ [2 * g.nextEid, 2 * g.nextEid + 1]
    nextEid := g.nextEid + 1
    vertices := pushEdgeToVertex (pushEdgeToVertex g.vertices a g.nextEid) b g.nextEid }

/-- Models `Graph.removeEdge`: splice the edge out of the edge list,
remove both its half-edges, and detach it from both endpoints. -/
def removeEdge (g : Graph) (e : GEdge) : Graph :=
  { g with
    edges := removeFirstBy (fun x => x.eid = e.eid) g.edges
    halfEdges := removeFirstBy (fun h => h = 2 * e.eid + 1)
      (removeFirstBy (fun h => h = 2 * e.eid) g.halfEdges)
    vertices := removeEdgeFromVertex (removeEdgeFromVertex g.vertices e.v0 e.eid) e.v1 e.eid }

/-- Direction of an edge as seen from vertex `v`
(`GraphVertex.edgeAngle`'s `direction`): the other endpoint's position
minus `v`'s position; for a self-loop the source's
`(v0 === this) ? v1 : v0` also yields `this`, so the direction is `0`. -/
def edgeDirFrom (g : Graph) (v : GVertex) (e : GEdge) : Q2 :=
  let u := if e.v0 = v.vid then e.v1 else e.v0
  vsub (posOf g u) v.pos

/-- Direction of the edge with the given id from vertex `v`; zero if the
id has no record (unreachable under the incidence invariant). -/
def edgeDirId (g : Graph) (v : GVertex) (eid : ℕ) : Q2 :=
  match lookupEdge g eid with
  | some e => edgeDirFrom g v e
  | none => ((0 : ℚ), (0 : ℚ))

/-- Stable insertion into a list sorted by `le`; the new element goes
after every element that compares `le` to it, matching the stable
`Array.prototype.sort`. -/
def insertOrd (le : α → α → Bool) (x : α) : List α → List α
  | [] => [x]
  | y :: ys => if le y x then y :: insertOrd le x ys else x :: y :: ys

/-- Stable insertion sort (JavaScript `sort` is stable and its result on
a consistent comparator is the unique stable order). -/
def insertSort (le : α → α → Bool) (l : List α) : List α :=
  l.foldl (fun acc x => insertOrd le x acc) []

/-- Models `sortEdgesCCW` applied to every vertex (as both construction
flows do): sort each incident list by the `atan2` direction angle. -/
def sortAllCCW (g : Graph) : Graph :=
  { g with
    vertices := g.vertices.map (fun v =>
      { v with edges := insertSort (fun a b => argLE (edgeDirId g v a) (edgeDirId g v b)) v.edges }) }

/-! ### Normalization and (de)serialization -/
/-- Minimum of a list of rationals, seeded from the first element: the
source folds `Math.min` starting from `Infinity`, which for a nonempty
list equals this (the empty case is guarded out by the caller). -/
def qminL : List ℚ → ℚ
  | [] => 0
  | x :: xs => xs.foldl min x

/-- Maximum of a list of rationals, seeded from the first element. -/
def qmaxL : List ℚ → ℚ
  | [] => 0
  | x :: xs => xs.foldl max x

/-- Minimum of two "possibly infinite" scale factors (`none` stands for
`Number.POSITIVE_INFINITY`, the value the source uses for a zero-extent
axis). -/
def optMin : Option ℚ → Option ℚ → Option ℚ
  | none, b => b
  | some a, none => some a
  | some a, some b => some (min a b)

/-- Bounding-box minimum x over the position list (`min.x`). -/
def bbMinX (ps : List Q2) : ℚ := qminL (ps.map Prod.fst)

/-- Bounding-box maximum x (`max.x`). -/
def bbMaxX (ps : List Q2) : ℚ := qmaxL (ps.map Prod.fst)

/-- Bounding-box minimum y (`min.y`). -/
def bbMinY (ps : List Q2) : ℚ := qminL (ps.map Prod.snd)

/-- Bounding-box maximum y (`max.y`). -/
def bbMaxY (ps : List Q2) : ℚ := qmaxL (ps.map Prod.snd)

/-- Source-extent width `max.x - min.x`. -/
def bbW (ps : List Q2) : ℚ := bbMaxX ps - bbMinX ps

/-- Source-extent height `max.y - min.y`. -/
def bbH (ps : List Q2) : ℚ := bbMaxY ps - bbMinY ps

/-- Bounding-box center x (`center = min.add(max).scale(0.5)`). -/
def bbCX (ps : List Q2) : ℚ := (bbMinX ps + bbMaxX ps) / 2

/-- Bounding-box center y. -/
def bbCY (ps : List Q2) : ℚ := (bbMinY ps + bbMaxY ps) / 2

/-- The available width `Math.max(this.width - 2 * this.padding, 0)`. -/
def availableW : ℚ := max (graphWidth - 2 * graphPadding) 0

/-- The available height. -/
def availableH : ℚ := max (graphHeight - 2 * graphPadding) 0

/-- The uniform scale `min(scale.x, scale.y)` where a zero-extent axis
contributes `Number.POSITIVE_INFINITY` (modelled as `none`). -/
def uniformScaleOf (ps : List Q2) : Option ℚ :=
  optMin (if 0 < bbW ps then some (availableW / bbW ps) else none)
    (if 0 < bbH ps then some (availableH / bbH ps) else none)

/-- Models `Graph.normalizeVerticesToGraphSpace` on the position list:
recenter the bounding box at the origin and rescale uniformly into the
padded graph square; collapse everything to the origin when both extents
are zero or when no positive finite uniform scale exists. -/
def normalizePositions (ps : List Q2) : List Q2 :=
  if ps = [] then []
  else if bbW ps = 0 ∧ bbH ps = 0 then ps.map (fun _ => ((0 : ℚ), (0 : ℚ)))
  else
    match uniformScaleOf ps with
    | none => ps.map (fun _ => ((0 : ℚ), (0 : ℚ)))
    | some s =>
      if s ≤ 0 then ps.map (fun _ => ((0 : ℚ), (0 : ℚ)))
      else ps.map (fun p => ((p.1 - bbCX ps) * s, (p.2 - bbCY ps) * s))

/-- Normalization lifted to the graph's vertex list (positions change,
ids and incident lists do not). -/
def normalizeG (g : Graph) : Graph :=
  { g with
    vertices := (g.vertices.zip (normalizePositions (g.vertices.map GVertex.pos))).map
      (fun vp => { vp.1 with pos := vp.2 }) }

/-- Vertex lookup by serialized index (`this.vertices[index]`):
fails for negative or too-large indices. -/
def vertexAtIdx (g : Graph) (i : ℤ) : Option GVertex :=
  if 0 ≤ i then g.vertices.get? i.toNat else none

/-- One iteration of the edge-loading loop of `loadFromSerialized`:
resolve both indices, silently skip the entry if either lookup fails. -/
def loadEdgeStep (g : Graph) (p : ℤ × ℤ) : Graph :=
  match vertexAtIdx g p.1, vertexAtIdx g p.2 with
  | some v0, some v1 => registerEdge g v0.vid v1.vid
  | _, _ => g

/-- Models `Graph.loadFromSerialized`: instantiate the vertices in list
order (ids are positions), normalize, register every edge whose two
indices resolve to vertices (silently skipping the others), then sort
all incident lists CCW. -/
def loadFromSerializedG (g0 : Graph) (data : SerializedG) : Graph :=
  let g1 := { g0 with
    vertices := g0.vertices ++ data.vertices.enum.map (fun ip => ⟨ip.1, ip.2, []⟩) }
  let g2 := normalizeG g1
  let g3 := data.edges.foldl loadEdgeStep g2
  sortAllCCW g3

/-- Index of the vertex with the given id in the current vertex list
(`Map<GraphVertex, number>` built by `serialize`). -/
def idxOfVid (g : Graph) (vid : ℕ) : Option ℕ :=
  g.vertices.findIdx? (fun v => v.vid = vid)

/-- Models `Graph.serialize`: positions in vertex order plus the index
pair of every edge both of whose endpoints are present. -/
def serializeG (g : Graph) : SerializedG :=
  { vertices := g.vertices.map GVertex.pos
    edges := g.edges.filterMap (fun e =>
      match idxOfVid g e.v0, idxOfVid g e.v1 with
      | some i0, some i1 => some ((i0 : ℤ), (i1 : ℤ))
      | _, _ => none) }

/-! ### Random graph generation

`Math.random` is modelled as a stream of rationals consumed in call
order (an empty stream yields `0`; the claims quantify over all
streams). -/
/-- Pop the next random value. -/
def randNext : List ℚ → ℚ × List ℚ
  | [] => (0, [])
  | r :: rest => (r, rest)

/-- Models `addRandomVertices`: `n` vertices at
`(-1 + padding + (width - 2*padding) * random(), ...)`, ids in creation
order. -/
def addRandomVertices (g : Graph) (rng : List ℚ) : ℕ → Graph × List ℚ
  | 0 => (g, rng)
  | n + 1 =>
    let (rx, rng1) := randNext rng
    let (ry, rng2) := randNext rng1
    let pos : Q2 := (-1 + graphPadding + (graphWidth - 2 * graphPadding) * rx,
                     -1 + graphPadding + (graphHeight - 2 * graphPadding) * ry)
    addRandomVertices
      { g with vertices := g.vertices ++ [⟨g.vertices.length, pos, []⟩] } rng2 n

/-- Swap two list positions (both in range in every modelled run, since
`Math.random` is in `[0, 1)`); out-of-range indices leave the list
unchanged. -/
def swapL (l : List α) (i j : ℕ) : List α :=
  match l.get? i, l.get? j with
  | some a, some b => (l.set i b).set j a
  | _, _ => l

/-- Fisher–Yates shuffle main loop, `i` descending to `1`. -/
def shuffleGo (rng : List ℚ) (l : List α) : ℕ → List α × List ℚ
  | 0 => (l, rng)
  | i + 1 =>
    let (r, rng') := randNext rng
    let j := (⌊r * ((i + 1 : ℕ) + 1 : ℚ)⌋).toNat
    shuffleGo rng' (swapL l (i + 1) j) i

/-- Models `shuffle`. -/
def shuffleL (l : List α) (rng : List ℚ) : List α × List ℚ :=
  shuffleGo rng l (l.length - 1)

/-- All vertex-id pairs `(i, j)` with `i < j` in vertex-list order
(`createEdges`' candidate enumeration). -/
def allPairs (vs : List GVertex) : List (ℕ × ℕ) :=
  (List.range vs.length).flatMap (fun i =>
    (List.range vs.length).filterMap (fun j =>
      if i < j then
        match vs.get? i, vs.get? j with
        | some a, some b => some (a.vid, b.vid)
        | _, _ => none
      else none))

/-- Models `GraphEdge.sharesVertexWithEdge` between an existing edge and
the candidate with endpoints `a`, `b` (object identity is id equality). -/
def sharesVtx (e : GEdge) (a b : ℕ) : Bool :=
  decide (e.v0 = a) || decide (e.v0 = b) || decide (e.v1 = a) || decide (e.v1 = b)

/-- One admission step of `createEdges`: reject the candidate iff some
already-admitted edge not sharing an endpoint with it intersects it. -/
def admitEdge (g : Graph) (p : ℕ × ℕ) : Graph :=
  if g.edges.any (fun e =>
      !sharesVtx e p.1 p.2 &&
        lineSegmentIntersect (posOf g p.1) (posOf g p.2) (posOf g e.v0) (posOf g e.v1))
  then g
  else registerEdge g p.1 p.2

/-- Models `createEdges`: shuffle the candidate pairs, then greedily
admit the crossing-free ones. -/
def createEdges (g : Graph) (rng : List ℚ) : Graph × List ℚ :=
  let (ps, rng') := shuffleL (allPairs g.vertices) rng
  (ps.foldl admitEdge g, rng')

/-! ### Pruning passes -/
/-- Squared length of an edge.  The source compares
`edgeA.length() >= edgeB.length()` with `length = hypot`; squaring is
order-preserving, so the comparison is modelled exactly on squares. -/
def edgeLenSq (g : Graph) (e : GEdge) : ℚ :=
  let d := vsub (posOf g e.v1) (posOf g e.v0)
  d.1 ^ 2 + d.2 ^ 2

/-- One (i, i+1 mod n) pair check of `removeSmallAngles` at the vertex
with id `vid`, over the snapshot `snap` of its incident edges: skip if
either edge has been removed meanwhile or the two are the same object;
otherwise remove the longer one when the CCW gap from the first to the
second is below `π/6`. -/
def smallAngleStep (vid : ℕ) (snap : List GEdge) (acc : Graph × Bool) (i : ℕ) :
    Graph × Bool :=
  match lookupVertex acc.1 vid with
  | none => acc
  | some v =>
    if (snap.getD i ⟨0, 0, 0⟩).eid ∈ v.edges ∧
        (snap.getD ((i + 1) % snap.length) ⟨0, 0, 0⟩).eid ∈ v.edges then
      if (snap.getD i ⟨0, 0, 0⟩).eid = (snap.getD ((i + 1) % snap.length) ⟨0, 0, 0⟩).eid then
        acc
      else if gapLtSixth (edgeDirFrom acc.1 v (snap.getD i ⟨0, 0, 0⟩))
          (edgeDirFrom acc.1 v (snap.getD ((i + 1) % snap.length) ⟨0, 0, 0⟩)) then
        (removeEdge acc.1
          (if edgeLenSq acc.1 (snap.getD ((i + 1) % snap.length) ⟨0, 0, 0⟩) ≤
              edgeLenSq acc.1 (snap.getD i ⟨0, 0, 0⟩) then
            snap.getD i ⟨0, 0, 0⟩
          else snap.getD ((i + 1) % snap.length) ⟨0, 0, 0⟩), true)
      else acc
    else acc

/-- The per-vertex body of one `removeSmallAngles` pass: look the vertex
up in the current state, skip degree < 2, snapshot the incident edge
records, and run the adjacent-pair scan over the snapshot. -/
def smallAngleVertexStep (acc : Graph × Bool) (vid : ℕ) : Graph × Bool :=
  match lookupVertex acc.1 vid with
  | none => acc
  | some v =>
    if v.edges.length < 2 then acc
    else
      let snap := v.edges.filterMap (lookupEdge acc.1)
      (List.range snap.length).foldl (smallAngleStep vid snap) acc

/-- One full pass of `removeSmallAngles(π/6)` over all vertices. -/
def smallAnglePass (g0 : Graph) : Graph × Bool :=
  (g0.vertices.map GVertex.vid).foldl smallAngleVertexStep (g0, false)

/-- The `while(removeSmallAngles(π/6))` loop, with explicit fuel; the
fuel supplied by `generateRandomGraph` is proved sufficient. -/
def smallAngleLoop : ℕ → Graph → Graph
  | 0, g => g
  | fuel + 1, g =>
    if (smallAnglePass g).2 then smallAngleLoop fuel (smallAnglePass g).1
    else (smallAnglePass g).1

/-- The per-vertex body of the scan phase of `removeSparseVertices`. -/
def sparseScanStep (acc : Graph × List ℕ) (vid : ℕ) : Graph × List ℕ :=
  match lookupVertex acc.1 vid with
  | none => acc
  | some v =>
    if v.edges.length = 0 then (acc.1, acc.2 ++ [vid])
    else if v.edges.length = 1 then
      match v.edges.head? with
      | some eid =>
        match lookupEdge acc.1 eid with
        | some e => (removeEdge acc.1 e, acc.2 ++ [vid])
        | none => (acc.1, acc.2 ++ [vid])
      | none => acc
    else acc

/-- The scan phase of `removeSparseVertices`: collect isolated vertices,
and for degree-1 vertices remove their single edge on the spot. -/
def sparseScan (g0 : Graph) : Graph × List ℕ :=
  (g0.vertices.map GVertex.vid).foldl sparseScanStep (g0, [])

/-- Remove the edge with the given id if it still exists
(`this.removeEdge(edge)` on a stale snapshot reference). -/
def removeEdgeById (g : Graph) (eid : ℕ) : Graph :=
  match lookupEdge g eid with
  | some e => removeEdge g e
  | none => g

/-- The removal phase of `removeSparseVertices` for one collected
vertex: remove its remaining incident edges, then splice it out of the
vertex list. -/
def removeVertexAndEdges (g : Graph) (vid : ℕ) : Graph :=
  match lookupVertex g vid with
  | none => g
  | some v =>
    { v.edges.foldl removeEdgeById g with
      vertices := removeFirstBy (fun x => x.vid = vid)
        (v.edges.foldl removeEdgeById g).vertices }

/-- One full pass of `removeSparseVertices`. -/
def sparsePass (g0 : Graph) : Graph × Bool :=
  if (sparseScan g0).2 = [] then ((sparseScan g0).1, false)
  else ((sparseScan g0).2.foldl removeVertexAndEdges (sparseScan g0).1, true)

/-- The `while(removeSparseVertices())` loop with explicit fuel. -/
def sparseLoop : ℕ → Graph → Graph
  | 0, g => g
  | fuel + 1, g =>
    if (sparsePass g).2 then sparseLoop fuel (sparsePass g).1
    else (sparsePass g).1

/-- Models `generateRandomGraph`: place vertices, admit edges, sort
incident lists CCW, then run both pruning loops to their fix-points. -/
def generateRandomGraph (n : ℕ) (rng : List ℚ) : Graph :=
  let ar := addRandomVertices emptyGraph rng n
  let ce := createEdges ar.1 ar.2
  let g3 := sortAllCCW ce.1
  let g4 := smallAngleLoop (g3.edges.length + 1) g3
  sparseLoop (g4.vertices.length + 1) g4

/-! ### Half-edge linking and face extraction -/
/-- Point update of a finite map. -/
def updateMap (m : ℕ → Option ℕ) (k v : ℕ) : ℕ → Option ℕ :=
  fun x => if x = k then some v else m x

/-- The outgoing half-edges of a vertex, in incident-list (CCW) order:
for each incident edge, the half-edge originating at this vertex. -/
def outgoingAt (g : Graph) (v : GVertex) : List ℕ :=
  v.edges.filterMap (fun eid =>
    (lookupEdge g eid).map (fun e => if e.v0 = v.vid then 2 * e.eid else 2 * e.eid + 1))

/-- Models `linkHalfEdgesAroundVertices`: at every vertex of degree ≥ 2,
for each outgoing half-edge `current` (cyclically preceded by `prev`),
set `current.twin.next := prev`. -/
def linkHalfEdges (g : Graph) : Graph :=
  { g with
    nextMap := g.vertices.foldl (fun nm v =>
      let out := outgoingAt g v
      let d := out.length
      if d < 2 then nm
      else (List.range d).foldl (fun nm i =>
        let cur := out.getD i 0
        let prv := out.getD ((i + d - 1) % d) 0
        updateMap nm (twinH cur) prv) nm) g.nextMap }

/-- Origin vertex id of a half-edge (`halfEdge.origin`): endpoint 0 of
its edge for the even half, endpoint 1 for the odd half. -/
def originVid (g : Graph) (h : ℕ) : ℕ :=
  match lookupEdge g (hedgeEid h) with
  | some e => if h % 2 = 0 then e.v0 else e.v1
  | none => 0

/-- Models `computeFaceArea`: twice the shoelace sum over
`origin × next.origin`, aborting to `0` when a `next` pointer is
missing; the final value is halved. -/
def faceAreaTwice (g : Graph) (hs : List ℕ) : Option ℚ :=
  hs.foldl (fun acc h =>
    match acc with
    | none => none
    | some s =>
      match g.nextMap h with
      | none => none
      | some nh => some (s + vcross (posOf g (originVid g h)) (posOf g (originVid g nh))))
    (some 0)

/-- The signed face area (`computeFaceArea` proper). -/
def computeFaceArea (g : Graph) (hs : List ℕ) : ℚ :=
  match faceAreaTwice g hs with
  | none => 0
  | some s => s / 2

/-- The half-edge walk of `buildFaces`: follow `next` from `start`,
collecting unassigned half-edges, until the walk closes on `start`
(closed cycle), revisits a collected half-edge, hits an assigned one, or
runs off a missing `next` pointer.  Fuel bounds the walk; the supplied
fuel exceeds the number of half-edges, which the walk cannot exhaust
without revisiting. -/
def traceFace (g : Graph) (fm : ℕ → Option ℕ) (start : ℕ) :
    ℕ → List ℕ → ℕ → Bool × List ℕ
  | 0, visited, _ => (false, visited)
  | fuel + 1, visited, current =>
    if current ∈ visited then (decide (current = start), visited)
    else if (fm current).isSome then (false, visited)
    else
      let visited' := visited ++ [current]
      match g.nextMap current with
      | none => (false, visited')
      | some nxt =>
        if nxt = start then (true, visited')
        else traceFace g fm start fuel visited' nxt

/-- Stamp every member of `hs` with face index `idx`. -/
def stampFace (fm : ℕ → Option ℕ) (hs : List ℕ) (idx : ℕ) : ℕ → Option ℕ :=
  fun x => if x ∈ hs then some idx else fm x

/-- One step of the face-extraction scan. -/
def buildFacesStep (g : Graph) (acc : (ℕ → Option ℕ) × List GFace) (h : ℕ) :
    (ℕ → Option ℕ) × List GFace :=
  if (acc.1 h).isSome then acc
  else
    if (traceFace g acc.1 h (g.halfEdges.length + 1) [] h).1 then
      if 0 < computeFaceArea g (traceFace g acc.1 h (g.halfEdges.length + 1) [] h).2 then
        (stampFace acc.1 (traceFace g acc.1 h (g.halfEdges.length + 1) [] h).2 acc.2.length,
          acc.2 ++ [⟨(traceFace g acc.1 h (g.halfEdges.length + 1) [] h).2⟩])
      else acc
    else acc

/-- Models `buildFaces`: link the half-edges, then scan every half-edge,
accepting each closed cycle of strictly positive signed area as a face. -/
def buildFaces (g : Graph) : Graph :=
  let g1 := linkHalfEdges g
  let res := g1.halfEdges.foldl (buildFacesStep g1) (g1.faceMap, g1.faces)
  { g1 with faceMap := res.1, faces := res.2 }

/-- Models `Graph.fromSerialized` (constructor + `buildFaces`). -/
def fromSerializedG (data : SerializedG) : Graph :=
  buildFaces (loadFromSerializedG emptyGraph data)

/-- Models `Graph.randomizedWithVertexCount` (constructor +
`buildFaces`). -/
def randomizedGraph (n : ℕ) (rng : List ℚ) : Graph :=
  buildFaces (generateRandomGraph n rng)

/-! ### Face topology queries -/
/-- Models `GraphFace.pointIsInside`: cast a `+x` ray from the query
point and count ray/segment intersections with the underlying edge of
every boundary half-edge; inside iff the count is odd. -/
def pointIsInside (g : Graph) (f : GFace) (point : Q2) : Bool :=
  decide ((f.halfEdges.countP (fun h =>
    match lookupEdge g (hedgeEid h) with
    | some e =>
      (rayLineSegmentIntersect point ((1 : ℚ), (0 : ℚ)) (posOf g e.v0) (posOf g e.v1)).isSome
    | none => false)) % 2 = 1)

/-- Models `GraphFace.neighboringFaces` for the face at index `fi`:
collect, in first-encounter order without duplicates, the faces of the
twins of the half-edges this face owns. -/
def neighboringFaces (g : Graph) (fi : ℕ) : List ℕ :=
  (g.faces.getD fi ⟨[]⟩).halfEdges.foldl (fun acc h =>
    if g.faceMap h ≠ some fi then acc
    else
      match g.faceMap (twinH h) with
      | some j => if j = fi then acc else if j ∈ acc then acc else acc ++ [j]
      | none => acc) []

/-- The next BFS frontier: all not-yet-visited neighbors of the current
frontier, in discovery order without duplicates. -/
def nextFrontierOf (g : Graph) (visited frontier : List ℕ) : List ℕ :=
  frontier.foldl (fun nf f =>
    (neighboringFaces g f).foldl (fun nf nb =>
      if nb ∈ visited then nf else if nb ∈ nf then nf else nf ++ [nb]) nf) []

/-- Models the `shellLayers` BFS loop with explicit fuel (the fuel
supplied below is proved sufficient: every layer visits at least one new
face). -/
def shellAux (g : Graph) : ℕ → List ℕ → List ℕ → List (List ℕ)
  | 0, _, _ => []
  | fuel + 1, visited, frontier =>
    if frontier = [] then []
    else
      frontier ::
        shellAux g fuel (visited ++ frontier) (nextFrontierOf g (visited ++ frontier) frontier)

/-- Models `GraphFace.shellLayers` started from the face at index `fi`. -/
def shellLayers (g : Graph) (fi : ℕ) : List (List ℕ) :=
  shellAux g (g.faces.length + 1) [] [fi]

/-! ### Shape of the deserialized graph -/
/-- Endpoint index pair of an edge record, as serialized integers. -/
def pairZ (e : GEdge) : ℤ × ℤ := ((e.v0 : ℤ), (e.v1 : ℤ))

/-- An edge entry is in the valid vertex-index range. -/
def inRangeZ (n : ℕ) (p : ℤ × ℤ) : Bool :=
  decide (0 ≤ p.1) && decide (p.1 < (n : ℤ)) && decide (0 ≤ p.2) && decide (p.2 < (n : ℤ))

/-! ### Well-formedness invariant of graph states

The arena embedding replaces JavaScript object identity by ids; these
are the structural facts (unique ids, incidence-list consistency) that
hold of every state the source can reach, and that the object-reference
semantics gives for free. -/
/-- Well-formedness of a graph state. -/
structure GInv (g : Graph) : Prop where
  vidsNodup : (g.vertices.map GVertex.vid).Nodup
  eidsNodup : (g.edges.map GEdge.eid).Nodup
  eidsLt : ∀ e ∈ g.edges, e.eid < g.nextEid
  vEdgesNodup : ∀ v ∈ g.vertices, v.edges.Nodup
  fwd : ∀ v ∈ g.vertices, ∀ eid ∈ v.edges,
    ∃ e ∈ g.edges, e.eid = eid ∧ (e.v0 = v.vid ∨ e.v1 = v.vid)
  link : ∀ e ∈ g.edges,
    (∃ v ∈ g.vertices, v.vid = e.v0 ∧ e.eid ∈ v.edges) ∧
    (∃ v ∈ g.vertices, v.vid = e.v1 ∧ e.eid ∈ v.edges)
  halves : g.halfEdges = g.edges.flatMap (fun e => [2 * e.eid, 2 * e.eid + 1])

/-- Vertex descent: every vertex of `g'` matches a vertex of `g` with
the same id and position (the pipeline never moves or re-ids a vertex
after placement). -/
def VDescend (g g' : Graph) : Prop :=
  ∀ v' ∈ g'.vertices, ∃ v ∈ g.vertices, v.vid = v'.vid ∧ v.pos = v'.pos

/-- Crossing freedom as established by `createEdges`: any two admitted
edges either share an endpoint or fail the intersection test. -/
def NoCross (g : Graph) : Prop :=
  ∀ e1 ∈ g.edges, ∀ e2 ∈ g.edges, sharesVtx e1 e2.v0 e2.v1 = false →
    lineSegmentIntersect (posOf g e1.v0) (posOf g e1.v1)
      (posOf g e2.v0) (posOf g e2.v1) = false

/-- A random stream that places four vertices at the corners of a
centered square; the generator then admits five edges (four sides and
one diagonal), two of which share no endpoint. -/
def squareRng : List ℚ := [2/9, 2/9, 7/9, 2/9, 7/9, 7/9, 2/9, 7/9, 0, 0, 0, 0, 0]

/-- The fresh auxiliary fields every construction starts from: no `next`
pointers, no face assignment, no faces. -/
def FreshMaps (g : Graph) : Prop :=
  g.nextMap = (fun _ => none) ∧ g.faceMap = (fun _ => none) ∧ g.faces = []

/-- The partition invariant of the face-extraction scan: every face
boundary lies in the collection, every assignment targets an existing
face, and membership in face `i` is exactly assignment to `i`. -/
def PartInv (g1 : Graph) (acc : (ℕ → Option ℕ) × List GFace) : Prop :=
  (∀ f ∈ acc.2, ∀ x ∈ f.halfEdges, x ∈ g1.halfEdges) ∧
  (∀ i x, acc.1 x = some i → i < acc.2.length) ∧
  (∀ i x, i < acc.2.length →
    (x ∈ (acc.2.getD i ⟨[]⟩).halfEdges ↔ acc.1 x = some i))

/-- The partition shape of a built graph's face data: face boundaries
lie in the half-edge collection, assignments target existing faces,
membership in face `i` is exactly assignment to `i`, and no half-edge
lies in two faces. -/
def facePartitionOf (g : Graph) : Prop :=
  (∀ f ∈ g.faces, ∀ x ∈ f.halfEdges, x ∈ g.halfEdges) ∧
  (∀ i x, g.faceMap x = some i → i < g.faces.length) ∧
  (∀ i x, i < g.faces.length →
    (x ∈ (g.faces.getD i ⟨[]⟩).halfEdges ↔ g.faceMap x = some i)) ∧
  (∀ x i j, i < g.faces.length → j < g.faces.length →
    x ∈ (g.faces.getD i ⟨[]⟩).halfEdges → x ∈ (g.faces.getD j ⟨[]⟩).halfEdges → i = j)

/-- The 2D square input used as a concrete probe for the face
theorems. -/
def sqData : SerializedG :=
  ⟨[(0, 0), (1, 0), (1, 1), (0, 1)], [(0, 1), (1, 2), (2, 3), (3, 0)]⟩

/-! ### Shell-layer BFS -/
/-- Concatenation of a list of layers, in order (the visited set of the
BFS as a list). -/
def flattenL (ls : List (List ℕ)) : List ℕ :=
  ls.foldl (fun x y => x ++ y) []

/-- The full invariant of the BFS loop. -/
def ShellSpec (g : Graph) (fuel : ℕ) (visited frontier : List ℕ)
    (L : List (List ℕ)) : Prop :=
  (frontier ≠ [] → 0 < fuel → L.getD 0 [] = frontier ∧ 0 < L.length) ∧
  (∀ k, k + 1 < L.length →
    L.getD (k + 1) [] =
      nextFrontierOf g (visited ++ flattenL (L.take (k + 1))) (L.getD k [])) ∧
  (flattenL L).Nodup ∧
  (∀ x ∈ flattenL L, x ∉ visited) ∧
  (∀ x ∈ flattenL L, x ∈ frontier ∨ ∃ y, g.faceMap y = some x) ∧
  (∀ l ∈ L, l ≠ []) ∧
  L.length ≤ (flattenL L).length ∧
  (∀ k, k < L.length → ∀ x ∈ L.getD k [], x ∈ flattenL L) ∧
  (∀ k l, k < l → l < L.length → ∀ x ∈ L.getD k [], x ∉ L.getD l []) ∧
  (∀ k, k < L.length → (L.getD k []).Nodup) ∧
  (L.length < fuel →
    L = [] ∨
    nextFrontierOf g (visited ++ flattenL L) (L.getD (L.length - 1) []) = [])

/-- The BFS contract of `shellLayers` from face index `fi`: layer 0 is
`[fi]`; no face appears in two layers; each layer is duplicate-free;
layer `k+1` consists exactly of the faces neighboring some face of
layer `k` that appear in no layer `0..k`; no returned layer is empty;
and after the last returned layer the next frontier is empty. -/
def shellSpecOf (g : Graph) (fi : ℕ) : Prop :=
  (shellLayers g fi).getD 0 [] = [fi] ∧
  (∀ k x, k < (shellLayers g fi).length → ∀ l, l < (shellLayers g fi).length →
    x ∈ (shellLayers g fi).getD k [] → x ∈ (shellLayers g fi).getD l [] → k = l) ∧
  (∀ k, k < (shellLayers g fi).length → ((shellLayers g fi).getD k []).Nodup) ∧
  (∀ k x, k + 1 < (shellLayers g fi).length →
    (x ∈ (shellLayers g fi).getD (k + 1) [] ↔
      ((∃ y ∈ (shellLayers g fi).getD k [], x ∈ neighboringFaces g y) ∧
        ∀ j, j ≤ k → x ∉ (shellLayers g fi).getD j []))) ∧
  ([] ∉ shellLayers g fi) ∧
  (0 < (shellLayers g fi).length →
    nextFrontierOf g (flattenL (shellLayers g fi))
      ((shellLayers g fi).getD ((shellLayers g fi).length - 1) []) = [])

/-! ### Point-in-face on the unit square -/
/-- A graph whose four edges are the sides of the unit square with
corners `(0,0)`, `(1,0)`, `(1,1)`, `(0,1)`. -/
def unitSquareGraph : Graph where
  vertices := [⟨0, (0, 0), [0, 3]⟩, ⟨1, (1, 0), [0, 1]⟩,
    ⟨2, (1, 1), [1, 2]⟩, ⟨3, (0, 1), [2, 3]⟩]
  edges := [⟨0, 0, 1⟩, ⟨1, 1, 2⟩, ⟨2, 2, 3⟩, ⟨3, 3, 0⟩]
  halfEdges := [0, 1, 2, 3, 4, 5, 6, 7]
  nextEid := 4

/-- The CCW boundary face of `unitSquareGraph`: one half-edge on each of
the four sides. -/
def unitSquareFace : GFace := ⟨[0, 2, 4, 6]⟩

/-! ### Real angle semantics of the comparators

`Math.atan2` is modelled by `Complex.arg`.  The decidable comparators
`argLE` and `gapLtSixth` used by the pipeline are proved equivalent to
the real `atan2` comparisons the source performs. -/
/-- The rational plane point as a complex number. -/
noncomputable def toC (d : Q2) : ℂ := ⟨(d.1 : ℝ), (d.2 : ℝ)⟩

/-- The `Math.atan2 d.2 d.1` angle of a vector, in `(-π, π]`
(with `atan2 0 0 = 0`, as in JavaScript). -/
noncomputable def dirAngle (d : Q2) : ℝ := Complex.arg (toC d)

/-- The CCW angle difference wrapped into `(0, 2π]` exactly the way
`removeSmallAngles` wraps it: an `angleDelta <= 0` gains `2π`. -/
noncomputable def ccwGapR (a b : ℝ) : ℝ :=
  if b - a ≤ 0 then b - a + 2 * Real.pi else b - a

/-- "The CCW gap from `a` to `b`, wrapped as the pruning pass wraps it,
is at least `π/6`": the pruning pass's survival condition for a pair of
adjacent directions. -/
def gapGE (a b : ℝ) : Prop := Real.pi / 6 ≤ ccwGapR a b

/-- All circularly adjacent pairs of an angle list survive the `π/6`
test: consecutive pairs via `Chain'`, plus the last-to-first pair. -/
def GapCirc (l : List ℝ) : Prop :=
  l.Chain' gapGE ∧ ∀ x ∈ l.getLast?, ∀ y ∈ l.head?, gapGE x y

/-- The `atan2` direction angles of a vertex's incident edges, in
incident-list order. -/
noncomputable def angListOf (g : Graph) (v : GVertex) : List ℝ :=
  v.edges.map (fun eid => dirAngle (edgeDirId g v eid))

/-- Every vertex's incident list is sorted by direction angle. -/
def VSorted (g : Graph) : Prop :=
  ∀ v ∈ g.vertices, (angListOf g v).Pairwise (fun a b => a ≤ b)

/-- Every vertex's incident list has all circularly adjacent wrapped
angle gaps at least `π/6`. -/
def VGaps (g : Graph) : Prop := ∀ v ∈ g.vertices, GapCirc (angListOf g v)

/-- A random stream placing three collinear vertices on the x-axis; the
generator admits all three pairwise edges and keeps the endpoint vertex
with two incident edges of identical direction angle. -/
def colRng : List ℚ := [0, 1/2, 1/2, 1/2, 3/4, 1/2, 0, 0]

/-- Characterization of the intersection test, shared by the claim
theorems: `true` iff the denominator is nonzero and both parameters lie
in `[0, 1]`. -/
theorem lsi_eq_true_iff (a0 a1 b0 b1 : Q2) :
    lineSegmentIntersect a0 a1 b0 b1 = true ↔
      (vcross (vsub a1 a0) (vsub b1 b0) ≠ 0 ∧
        0 ≤ vcross (vsub b0 a0) (vsub b1 b0) / vcross (vsub a1 a0) (vsub b1 b0) ∧
        vcross (vsub b0 a0) (vsub b1 b0) / vcross (vsub a1 a0) (vsub b1 b0) ≤ 1 ∧
        0 ≤ vcross (vsub b0 a0) (vsub a1 a0) / vcross (vsub a1 a0) (vsub b1 b0) ∧
        vcross (vsub b0 a0) (vsub a1 a0) / vcross (vsub a1 a0) (vsub b1 b0) ≤ 1) := by
  unfold lineSegmentIntersect
  simp only [Bool.and_eq_true, decide_eq_true_eq, Bool.not_eq_true',
    Bool.or_eq_false_iff, decide_eq_false_iff_not, not_lt]
  tauto

/-- The intersection predicate is symmetric in the two segments: swapping
them negates the denominator and the offset vector, exchanging `ta`/`tb`. -/
theorem lineSegmentIntersect_symm (a0 a1 b0 b1 : Q2) :
    lineSegmentIntersect a0 a1 b0 b1 = lineSegmentIntersect b0 b1 a0 a1 := by
  have hd : vcross (vsub b1 b0) (vsub a1 a0) = -vcross (vsub a1 a0) (vsub b1 b0) := by
    simp only [vcross, vsub]; ring
  have hq1 : vcross (vsub a0 b0) (vsub a1 a0) = -vcross (vsub b0 a0) (vsub a1 a0) := by
    simp only [vcross, vsub]; ring
  have hq2 : vcross (vsub a0 b0) (vsub b1 b0) = -vcross (vsub b0 a0) (vsub b1 b0) := by
    simp only [vcross, vsub]; ring
  have key : lineSegmentIntersect a0 a1 b0 b1 = true ↔
      lineSegmentIntersect b0 b1 a0 a1 = true := by
    rw [lsi_eq_true_iff, lsi_eq_true_iff, hd, hq1, hq2, neg_div_neg_eq, neg_div_neg_eq,
      neg_ne_zero]
    tauto
  cases ha : lineSegmentIntersect a0 a1 b0 b1 <;>
    cases hb : lineSegmentIntersect b0 b1 a0 a1 <;>
      simp_all

/-- C8: the segment intersection test returns `true` iff the denominator is
nonzero (the exact-arithmetic reading of "both parameters are finite") and
both parametric coordinates lie in `[0, 1]`; in particular a zero
denominator (parallel or collinear segments, `r × s = 0`) always yields
`false`, so collinear overlapping segments are classified as
non-intersecting. -/
theorem lineSegmentIntersect_spec (a0 a1 b0 b1 : Q2) :
    (lineSegmentIntersect a0 a1 b0 b1 = true ↔
      (vcross (vsub a1 a0) (vsub b1 b0) ≠ 0 ∧
        0 ≤ vcross (vsub b0 a0) (vsub b1 b0) / vcross (vsub a1 a0) (vsub b1 b0) ∧
        vcross (vsub b0 a0) (vsub b1 b0) / vcross (vsub a1 a0) (vsub b1 b0) ≤ 1 ∧
        0 ≤ vcross (vsub b0 a0) (vsub a1 a0) / vcross (vsub a1 a0) (vsub b1 b0) ∧
        vcross (vsub b0 a0) (vsub a1 a0) / vcross (vsub a1 a0) (vsub b1 b0) ≤ 1)) ∧
    (vcross (vsub a1 a0) (vsub b1 b0) = 0 →
      lineSegmentIntersect a0 a1 b0 b1 = false) := by
  refine ⟨lsi_eq_true_iff a0 a1 b0 b1, fun h => ?_⟩
  cases hv : lineSegmentIntersect a0 a1 b0 b1
  · rfl
  · exact absurd ((lsi_eq_true_iff a0 a1 b0 b1).mp hv).1 (not_not_intro h)

/-- Witness for `lineSegmentIntersect_spec`: the collinear overlapping
segments `(0,0)-(2,0)` and `(1,0)-(3,0)` have zero denominator and are
classified as non-intersecting. -/
theorem lineSegmentIntersect_spec_witness :
    vcross (vsub ((2:ℚ), (0:ℚ)) ((0:ℚ), (0:ℚ))) (vsub ((3:ℚ), (0:ℚ)) ((1:ℚ), (0:ℚ))) = 0 ∧
    lineSegmentIntersect ((0:ℚ), (0:ℚ)) ((2:ℚ), (0:ℚ)) ((1:ℚ), (0:ℚ)) ((3:ℚ), (0:ℚ)) = false :=
  ⟨by norm_num [vcross, vsub],
   (lineSegmentIntersect_spec ((0:ℚ), (0:ℚ)) ((2:ℚ), (0:ℚ)) ((1:ℚ), (0:ℚ)) ((3:ℚ), (0:ℚ))).2
     (by norm_num [vcross, vsub])⟩

/-! ### Fold min/max lemmas for the bounding box -/
theorem foldl_min_le_seed (l : List ℚ) (a : ℚ) : l.foldl min a ≤ a := by
  induction l generalizing a with
  | nil => simp
  | cons x xs ih => exact le_trans (ih (min a x)) (min_le_left a x)

theorem foldl_min_le_mem {l : List ℚ} {x : ℚ} (hx : x ∈ l) (a : ℚ) :
    l.foldl min a ≤ x := by
  induction l generalizing a with
  | nil => cases hx
  | cons y ys ih =>
    rcases List.mem_cons.mp hx with h | h
    · subst h
      exact le_trans (foldl_min_le_seed ys (min a x)) (min_le_right a x)
    · exact ih h (min a y)

theorem le_foldl_max_seed (l : List ℚ) (a : ℚ) : a ≤ l.foldl max a := by
  induction l generalizing a with
  | nil => simp
  | cons x xs ih => exact le_trans (le_max_left a x) (ih (max a x))

theorem le_foldl_max_mem {l : List ℚ} {x : ℚ} (hx : x ∈ l) (a : ℚ) :
    x ≤ l.foldl max a := by
  induction l generalizing a with
  | nil => cases hx
  | cons y ys ih =>
    rcases List.mem_cons.mp hx with h | h
    · subst h
      exact le_trans (le_max_right a x) (le_foldl_max_seed ys (max a x))
    · exact ih h (max a y)

theorem qminL_le {l : List ℚ} {x : ℚ} (hx : x ∈ l) : qminL l ≤ x := by
  cases l with
  | nil => cases hx
  | cons y ys =>
    rcases List.mem_cons.mp hx with h | h
    · subst h; exact foldl_min_le_seed ys x
    · exact foldl_min_le_mem h y

theorem le_qmaxL {l : List ℚ} {x : ℚ} (hx : x ∈ l) : x ≤ qmaxL l := by
  cases l with
  | nil => cases hx
  | cons y ys =>
    rcases List.mem_cons.mp hx with h | h
    · subst h; exact le_foldl_max_seed ys x
    · exact le_foldl_max_mem h y

theorem qminL_le_qmaxL {l : List ℚ} (h : l ≠ []) : qminL l ≤ qmaxL l := by
  cases l with
  | nil => exact absurd rfl h
  | cons y ys =>
    have h1 : qminL (y :: ys) ≤ y := qminL_le (List.mem_cons_self y ys)
    have h2 : y ≤ qmaxL (y :: ys) := le_qmaxL (List.mem_cons_self y ys)
    exact le_trans h1 h2

theorem foldl_min_map (f : ℚ → ℚ) (hf : ∀ x y, f (min x y) = min (f x) (f y))
    (l : List ℚ) (a : ℚ) : (l.map f).foldl min (f a) = f (l.foldl min a) := by
  induction l generalizing a with
  | nil => simp
  | cons x xs ih => simpa [hf] using ih (min a x)

theorem foldl_max_map (f : ℚ → ℚ) (hf : ∀ x y, f (max x y) = max (f x) (f y))
    (l : List ℚ) (a : ℚ) : (l.map f).foldl max (f a) = f (l.foldl max a) := by
  induction l generalizing a with
  | nil => simp
  | cons x xs ih => simpa [hf] using ih (max a x)

theorem qminL_map (f : ℚ → ℚ) (hf : ∀ x y, f (min x y) = min (f x) (f y))
    {l : List ℚ} (h : l ≠ []) : qminL (l.map f) = f (qminL l) := by
  cases l with
  | nil => exact absurd rfl h
  | cons x xs => simpa [qminL] using foldl_min_map f hf xs x

theorem qmaxL_map (f : ℚ → ℚ) (hf : ∀ x y, f (max x y) = max (f x) (f y))
    {l : List ℚ} (h : l ≠ []) : qmaxL (l.map f) = f (qmaxL l) := by
  cases l with
  | nil => exact absurd rfl h
  | cons x xs => simpa [qmaxL] using foldl_max_map f hf xs x

theorem affine_min_comm (c s : ℚ) (hs : 0 ≤ s) (x y : ℚ) :
    (min x y - c) * s = min ((x - c) * s) ((y - c) * s) := by
  rcases le_total x y with h | h
  · rw [min_eq_left h, min_eq_left (by nlinarith)]
  · rw [min_eq_right h, min_eq_right (by nlinarith)]

theorem affine_max_comm (c s : ℚ) (hs : 0 ≤ s) (x y : ℚ) :
    (max x y - c) * s = max ((x - c) * s) ((y - c) * s) := by
  rcases le_total x y with h | h
  · rw [max_eq_right h, max_eq_right (by nlinarith)]
  · rw [max_eq_left h, max_eq_left (by nlinarith)]

/-! ### Normalization lemmas -/
theorem normalizePositions_length (ps : List Q2) :
    (normalizePositions ps).length = ps.length := by
  unfold normalizePositions
  split
  · simp [*]
  · split
    · simp
    · split
      · simp
      · split <;> simp

theorem foldl_min_all_eq {m : List ℚ} {c : ℚ} (hm : ∀ y ∈ m, y = c) :
    m.foldl min c = c := by
  induction m with
  | nil => rfl
  | cons z zs ih =>
    have hz : z = c := hm z (List.mem_cons_self z zs)
    have := ih (fun y hy => hm y (List.mem_cons_of_mem z hy))
    simpa [hz] using this

theorem foldl_max_all_eq {m : List ℚ} {c : ℚ} (hm : ∀ y ∈ m, y = c) :
    m.foldl max c = c := by
  induction m with
  | nil => rfl
  | cons z zs ih =>
    have hz : z = c := hm z (List.mem_cons_self z zs)
    have := ih (fun y hy => hm y (List.mem_cons_of_mem z hy))
    simpa [hz] using this

theorem qminL_all_eq {m : List ℚ} {c : ℚ} (hne : m ≠ []) (hm : ∀ y ∈ m, y = c) :
    qminL m = c := by
  cases m with
  | nil => exact absurd rfl hne
  | cons z zs =>
    have hz : z = c := hm z (List.mem_cons_self z zs)
    subst hz
    exact foldl_min_all_eq (fun y hy => hm y (List.mem_cons_of_mem z hy))

theorem qmaxL_all_eq {m : List ℚ} {c : ℚ} (hne : m ≠ []) (hm : ∀ y ∈ m, y = c) :
    qmaxL m = c := by
  cases m with
  | nil => exact absurd rfl hne
  | cons z zs =>
    have hz : z = c := hm z (List.mem_cons_self z zs)
    subst hz
    exact foldl_max_all_eq (fun y hy => hm y (List.mem_cons_of_mem z hy))

/-- Lists collapsed to the origin are fixed by normalization. -/
theorem normalizePositions_of_all_zero {qs : List Q2} (h : qs ≠ [])
    (hz : ∀ y ∈ qs, y = ((0 : ℚ), (0 : ℚ))) : normalizePositions qs = qs := by
  have hfst : ∀ y ∈ qs.map Prod.fst, y = (0 : ℚ) := by
    intro y hy
    obtain ⟨a, ha, rfl⟩ := List.mem_map.mp hy
    rw [hz a ha]
  have hsnd : ∀ y ∈ qs.map Prod.snd, y = (0 : ℚ) := by
    intro y hy
    obtain ⟨a, ha, rfl⟩ := List.mem_map.mp hy
    rw [hz a ha]
  have hne1 : qs.map Prod.fst ≠ [] := by
    cases qs with
    | nil => exact absurd rfl h
    | cons q rest => simp
  have hne2 : qs.map Prod.snd ≠ [] := by
    cases qs with
    | nil => exact absurd rfl h
    | cons q rest => simp
  have hbw : bbW qs = 0 := by
    unfold bbW bbMaxX bbMinX
    rw [qminL_all_eq hne1 hfst, qmaxL_all_eq hne1 hfst, sub_zero]
  have hbh : bbH qs = 0 := by
    unfold bbH bbMaxY bbMinY
    rw [qminL_all_eq hne2 hsnd, qmaxL_all_eq hne2 hsnd, sub_zero]
  have hmap : qs.map (fun _ => ((0 : ℚ), (0 : ℚ))) = qs := by
    have := List.map_congr_left (l := qs)
      (f := fun _ => ((0 : ℚ), (0 : ℚ))) (g := id) (fun a ha => (hz a ha).symm)
    rw [this, List.map_id]
  unfold normalizePositions
  rw [if_neg h, if_pos ⟨hbw, hbh⟩, hmap]

/-- Normalization is idempotent: the affine branch of a first pass
recenters the bounding box at the origin with the binding extent scaled
onto the available extent, so a second pass computes center `0` and
uniform scale `1`; the collapse branches produce all-origin lists, which
are fixed points. -/
theorem normalizePositions_idem (ps : List Q2) :
    normalizePositions (normalizePositions ps) = normalizePositions ps := by
  by_cases hps : ps = []
  · subst hps; rfl
  have hzero : ∀ y ∈ ps.map (fun _ => ((0 : ℚ), (0 : ℚ))), y = ((0 : ℚ), (0 : ℚ)) := by
    intro y hy
    obtain ⟨a, _, rfl⟩ := List.mem_map.mp hy
    rfl
  have hzne : ps.map (fun _ => ((0 : ℚ), (0 : ℚ))) ≠ [] := by
    cases ps with
    | nil => exact absurd rfl hps
    | cons q rest => simp
  by_cases hwh : bbW ps = 0 ∧ bbH ps = 0
  · have h1 : normalizePositions ps = ps.map (fun _ => ((0 : ℚ), (0 : ℚ))) := by
      unfold normalizePositions
      rw [if_neg hps, if_pos hwh]
    rw [h1]
    exact normalizePositions_of_all_zero hzne hzero
  cases hsc : uniformScaleOf ps with
  | none =>
    have h1 : normalizePositions ps = ps.map (fun _ => ((0 : ℚ), (0 : ℚ))) := by
      unfold normalizePositions
      rw [if_neg hps, if_neg hwh, hsc]
    rw [h1]
    exact normalizePositions_of_all_zero hzne hzero
  | some s =>
    by_cases hs0 : s ≤ 0
    · have h1 : normalizePositions ps = ps.map (fun _ => ((0 : ℚ), (0 : ℚ))) := by
        unfold normalizePositions
        rw [if_neg hps, if_neg hwh, hsc]
        simp [hs0]
      rw [h1]
      exact normalizePositions_of_all_zero hzne hzero
    · have hspos : 0 < s := lt_of_not_le hs0
      have h1 : normalizePositions ps =
          ps.map (fun p => ((p.1 - bbCX ps) * s, (p.2 - bbCY ps) * s)) := by
        unfold normalizePositions
        rw [if_neg hps, if_neg hwh, hsc]
        simp [hs0]
      have hF : ps.map Prod.fst ≠ [] := by
        cases ps with
        | nil => exact absurd rfl hps
        | cons q rest => simp
      have hS : ps.map Prod.snd ≠ [] := by
        cases ps with
        | nil => exact absurd rfl hps
        | cons q rest => simp
      set M := ps.map (fun p => ((p.1 - bbCX ps) * s, (p.2 - bbCY ps) * s)) with hM
      have hMne : M ≠ [] := by
        rw [hM]
        cases ps with
        | nil => exact absurd rfl hps
        | cons q rest => simp
      have hcomp1 : M.map Prod.fst =
          (ps.map Prod.fst).map (fun x => (x - bbCX ps) * s) := by
        rw [hM, List.map_map, List.map_map]
        rfl
      have hcomp2 : M.map Prod.snd =
          (ps.map Prod.snd).map (fun x => (x - bbCY ps) * s) := by
        rw [hM, List.map_map, List.map_map]
        rfl
      have hminx : bbMinX M = (bbMinX ps - bbCX ps) * s := by
        unfold bbMinX
        rw [hcomp1]
        exact qminL_map _ (affine_min_comm (bbCX ps) s (le_of_lt hspos)) hF
      have hmaxx : bbMaxX M = (bbMaxX ps - bbCX ps) * s := by
        unfold bbMaxX
        rw [hcomp1]
        exact qmaxL_map _ (affine_max_comm (bbCX ps) s (le_of_lt hspos)) hF
      have hminy : bbMinY M = (bbMinY ps - bbCY ps) * s := by
        unfold bbMinY
        rw [hcomp2]
        exact qminL_map _ (affine_min_comm (bbCY ps) s (le_of_lt hspos)) hS
      have hmaxy : bbMaxY M = (bbMaxY ps - bbCY ps) * s := by
        unfold bbMaxY
        rw [hcomp2]
        exact qmaxL_map _ (affine_max_comm (bbCY ps) s (le_of_lt hspos)) hS
      have hw' : bbW M = bbW ps * s := by
        unfold bbW
        rw [hmaxx, hminx]
        ring
      have hh' : bbH M = bbH ps * s := by
        unfold bbH
        rw [hmaxy, hminy]
        ring
      have hcx' : bbCX M = 0 := by
        show (bbMinX M + bbMaxX M) / 2 = 0
        rw [hminx, hmaxx]
        unfold bbCX
        ring
      have hcy' : bbCY M = 0 := by
        show (bbMinY M + bbMaxY M) / 2 = 0
        rw [hminy, hmaxy]
        unfold bbCY
        ring
      have hcond' : ¬(bbW M = 0 ∧ bbH M = 0) := by
        rw [hw', hh']
        rintro ⟨hw0, hh0⟩
        exact hwh ⟨by
          rcases mul_eq_zero.mp hw0 with h | h
          · exact h
          · exact absurd h (ne_of_gt hspos), by
          rcases mul_eq_zero.mp hh0 with h | h
          · exact h
          · exact absurd h (ne_of_gt hspos)⟩
      have hiffW : (0 < bbW ps * s) ↔ (0 < bbW ps) := by
        constructor
        · intro hx; nlinarith
        · intro hx; exact mul_pos hx hspos
      have hiffH : (0 < bbH ps * s) ↔ (0 < bbH ps) := by
        constructor
        · intro hx; nlinarith
        · intro hx; exact mul_pos hx hspos
      have hsc' : uniformScaleOf ps = some s := hsc
      unfold uniformScaleOf at hsc'
      have hscale' : uniformScaleOf M = some 1 := by
        unfold uniformScaleOf
        rw [hw', hh']
        by_cases hw : 0 < bbW ps
        · by_cases hh : 0 < bbH ps
          · rw [if_pos hw, if_pos hh] at hsc'
            have hmin : min (availableW / bbW ps) (availableH / bbH ps) = s := by
              simpa [optMin] using hsc'
            rw [if_pos (hiffW.mpr hw), if_pos (hiffH.mpr hh)]
            show some (min (availableW / (bbW ps * s)) (availableH / (bbH ps * s))) = some 1
            rw [div_mul_eq_div_div, div_mul_eq_div_div]
            have hmindiv : min (availableW / bbW ps / s) (availableH / bbH ps / s) =
                min (availableW / bbW ps) (availableH / bbH ps) / s := by
              rcases le_total (availableW / bbW ps) (availableH / bbH ps) with hle | hle
              · rw [min_eq_left hle,
                  min_eq_left (div_le_div_of_nonneg_right hle (le_of_lt hspos))]
              · rw [min_eq_right hle,
                  min_eq_right (div_le_div_of_nonneg_right hle (le_of_lt hspos))]
            rw [hmindiv, hmin, div_self (ne_of_gt hspos)]
          · rw [if_pos hw, if_neg hh] at hsc'
            have hval : availableW / bbW ps = s := by simpa [optMin] using hsc'
            rw [if_pos (hiffW.mpr hw), if_neg (fun hx => hh (hiffH.mp hx))]
            show some (availableW / (bbW ps * s)) = some 1
            rw [div_mul_eq_div_div, hval, div_self (ne_of_gt hspos)]
        · by_cases hh : 0 < bbH ps
          · rw [if_neg hw, if_pos hh] at hsc'
            have hval : availableH / bbH ps = s := by simpa [optMin] using hsc'
            rw [if_neg (fun hx => hw (hiffW.mp hx)), if_pos (hiffH.mpr hh)]
            show some (availableH / (bbH ps * s)) = some 1
            rw [div_mul_eq_div_div, hval, div_self (ne_of_gt hspos)]
          · rw [if_neg hw, if_neg hh] at hsc'
            simp [optMin] at hsc'
      rw [h1]
      show normalizePositions M = M
      unfold normalizePositions
      rw [if_neg hMne, if_neg hcond', hscale']
      have hone : ¬(1 : ℚ) ≤ 0 := by norm_num
      simp only [hone, if_false, hcx', hcy', sub_zero, mul_one]
      have : M.map (fun p : Q2 => (p.1, p.2)) = M.map id :=
        List.map_congr_left (fun a _ => rfl)
      rw [this, List.map_id]

theorem pushEdgeToVertex_vids (vs : List GVertex) (vid eid : ℕ) :
    (pushEdgeToVertex vs vid eid).map GVertex.vid = vs.map GVertex.vid := by
  unfold pushEdgeToVertex
  rw [List.map_map]
  apply List.map_congr_left
  intro v _
  by_cases h : v.vid = vid <;> simp [h]

theorem pushEdgeToVertex_poss (vs : List GVertex) (vid eid : ℕ) :
    (pushEdgeToVertex vs vid eid).map GVertex.pos = vs.map GVertex.pos := by
  unfold pushEdgeToVertex
  rw [List.map_map]
  apply List.map_congr_left
  intro v _
  by_cases h : v.vid = vid <;> simp [h]

theorem registerEdge_vids (g : Graph) (a b : ℕ) :
    (registerEdge g a b).vertices.map GVertex.vid = g.vertices.map GVertex.vid := by
  show (pushEdgeToVertex (pushEdgeToVertex g.vertices a g.nextEid) b g.nextEid).map
      GVertex.vid = g.vertices.map GVertex.vid
  rw [pushEdgeToVertex_vids, pushEdgeToVertex_vids]

theorem registerEdge_poss (g : Graph) (a b : ℕ) :
    (registerEdge g a b).vertices.map GVertex.pos = g.vertices.map GVertex.pos := by
  show (pushEdgeToVertex (pushEdgeToVertex g.vertices a g.nextEid) b g.nextEid).map
      GVertex.pos = g.vertices.map GVertex.pos
  rw [pushEdgeToVertex_poss, pushEdgeToVertex_poss]

theorem registerEdge_edges (g : Graph) (a b : ℕ) :
    (registerEdge g a b).edges = g.edges ++ [⟨g.nextEid, a, b⟩] := rfl

theorem zip_repos_vids (vs : List GVertex) (qs : List Q2) (hlen : qs.length = vs.length) :
    ((vs.zip qs).map (fun vp => { vp.1 with pos := vp.2 })).map GVertex.vid =
      vs.map GVertex.vid := by
  induction vs generalizing qs with
  | nil => simp
  | cons v rest ih =>
    cases qs with
    | nil => simp at hlen
    | cons q qrest =>
      simp only [List.zip_cons_cons, List.map_cons]
      rw [ih qrest (by simpa using hlen)]

theorem zip_repos_poss (vs : List GVertex) (qs : List Q2) (hlen : qs.length = vs.length) :
    ((vs.zip qs).map (fun vp => { vp.1 with pos := vp.2 })).map GVertex.pos = qs := by
  induction vs generalizing qs with
  | nil =>
    cases qs with
    | nil => simp
    | cons q qrest => simp at hlen
  | cons v rest ih =>
    cases qs with
    | nil => simp at hlen
    | cons q qrest =>
      simp only [List.zip_cons_cons, List.map_cons]
      rw [ih qrest (by simpa using hlen)]

theorem normalizeG_vids (g : Graph) :
    (normalizeG g).vertices.map GVertex.vid = g.vertices.map GVertex.vid := by
  show ((g.vertices.zip (normalizePositions (g.vertices.map GVertex.pos))).map
      (fun vp => { vp.1 with pos := vp.2 })).map GVertex.vid = _
  exact zip_repos_vids _ _ (by rw [normalizePositions_length, List.length_map])

theorem normalizeG_poss (g : Graph) :
    (normalizeG g).vertices.map GVertex.pos =
      normalizePositions (g.vertices.map GVertex.pos) := by
  show ((g.vertices.zip (normalizePositions (g.vertices.map GVertex.pos))).map
      (fun vp => { vp.1 with pos := vp.2 })).map GVertex.pos = _
  exact zip_repos_poss _ _ (by rw [normalizePositions_length, List.length_map])

theorem normalizeG_edges (g : Graph) : (normalizeG g).edges = g.edges := rfl

theorem sortAllCCW_vids (g : Graph) :
    (sortAllCCW g).vertices.map GVertex.vid = g.vertices.map GVertex.vid := by
  show (g.vertices.map _).map GVertex.vid = _
  rw [List.map_map]
  apply List.map_congr_left
  intro v _
  rfl

theorem sortAllCCW_poss (g : Graph) :
    (sortAllCCW g).vertices.map GVertex.pos = g.vertices.map GVertex.pos := by
  show (g.vertices.map _).map GVertex.pos = _
  rw [List.map_map]
  apply List.map_congr_left
  intro v _
  rfl

theorem sortAllCCW_edges (g : Graph) : (sortAllCCW g).edges = g.edges := rfl

theorem buildFaces_vertices (g : Graph) : (buildFaces g).vertices = g.vertices := rfl

theorem buildFaces_edges (g : Graph) : (buildFaces g).edges = g.edges := rfl

theorem vertex_vid_of_get {g : Graph} {n : ℕ}
    (hvid : g.vertices.map GVertex.vid = List.range n) {k : ℕ} (hk : k < n) :
    ∃ v, g.vertices.get? k = some v ∧ v.vid = k := by
  have hlen : g.vertices.length = n := by
    have := congrArg List.length hvid
    simpa using this
  have hk' : k < g.vertices.length := by omega
  refine ⟨g.vertices.get ⟨k, hk'⟩, List.get?_eq_get hk', ?_⟩
  have h1 : (g.vertices.map GVertex.vid).get? k = some k := by
    rw [hvid]
    simpa using List.get?_range (show k < n by omega)
  rw [List.get?_map, List.get?_eq_get hk'] at h1
  simpa using h1

theorem vertexAtIdx_in_range {g : Graph} {n : ℕ}
    (hvid : g.vertices.map GVertex.vid = List.range n) {i : ℤ}
    (h0 : 0 ≤ i) (hn : i < (n : ℤ)) :
    ∃ v, vertexAtIdx g i = some v ∧ v.vid = i.toNat := by
  have hk : i.toNat < n := by omega
  obtain ⟨v, hv, hvv⟩ := vertex_vid_of_get hvid hk
  exact ⟨v, by rw [vertexAtIdx, if_pos h0, hv], hvv⟩

theorem vertexAtIdx_out_of_range {g : Graph} {n : ℕ}
    (hvid : g.vertices.map GVertex.vid = List.range n) {i : ℤ}
    (h : ¬(0 ≤ i ∧ i < (n : ℤ))) : vertexAtIdx g i = none := by
  have hlen : g.vertices.length = n := by
    have := congrArg List.length hvid
    simpa using this
  unfold vertexAtIdx
  by_cases h0 : 0 ≤ i
  · rw [if_pos h0]
    have : ¬ i < (n : ℤ) := fun hc => h ⟨h0, hc⟩
    apply List.get?_eq_none.mpr
    omega
  · rw [if_neg h0]

/-- Effect of one edge-loading step, split on validity of the entry. -/
theorem loadEdgeStep_shape {g : Graph} {n : ℕ}
    (hvid : g.vertices.map GVertex.vid = List.range n) (p : ℤ × ℤ) :
    (inRangeZ n p = true →
      loadEdgeStep g p = registerEdge g p.1.toNat p.2.toNat) ∧
    (inRangeZ n p = false → loadEdgeStep g p = g) := by
  constructor
  · intro hp
    have h1 : 0 ≤ p.1 ∧ p.1 < (n : ℤ) ∧ 0 ≤ p.2 ∧ p.2 < (n : ℤ) := by
      simpa [inRangeZ, and_assoc] using hp
    obtain ⟨v0, hv0, hvv0⟩ := vertexAtIdx_in_range hvid h1.1 h1.2.1
    obtain ⟨v1, hv1, hvv1⟩ := vertexAtIdx_in_range hvid h1.2.2.1 h1.2.2.2
    unfold loadEdgeStep
    rw [hv0, hv1]
    show registerEdge g v0.vid v1.vid = registerEdge g p.1.toNat p.2.toNat
    rw [hvv0, hvv1]
  · intro hp
    have h1 : ¬(0 ≤ p.1 ∧ p.1 < (n : ℤ) ∧ 0 ≤ p.2 ∧ p.2 < (n : ℤ)) := by
      intro hc
      rw [show inRangeZ n p = true by simp [inRangeZ, hc.1, hc.2.1, hc.2.2.1, hc.2.2.2]] at hp
      cases hp
    unfold loadEdgeStep
    by_cases ha : 0 ≤ p.1 ∧ p.1 < (n : ℤ)
    · have hb : ¬(0 ≤ p.2 ∧ p.2 < (n : ℤ)) := by tauto
      rw [vertexAtIdx_out_of_range hvid hb]
      obtain ⟨v0, hv0, _⟩ := vertexAtIdx_in_range hvid ha.1 ha.2
      rw [hv0]
    · rw [vertexAtIdx_out_of_range hvid ha]

/-- Invariant of the edge-loading fold: vertex ids and positions are
unchanged, and the registered edges are exactly the in-range entries in
order. -/
theorem load_fold_shape (es : List (ℤ × ℤ)) (g : Graph) (n : ℕ)
    (hvid : g.vertices.map GVertex.vid = List.range n) :
    (es.foldl loadEdgeStep g).vertices.map GVertex.vid = List.range n ∧
    (es.foldl loadEdgeStep g).vertices.map GVertex.pos = g.vertices.map GVertex.pos ∧
    (es.foldl loadEdgeStep g).edges.map pairZ =
      g.edges.map pairZ ++ es.filter (inRangeZ n) ∧
    (∀ e ∈ (es.foldl loadEdgeStep g).edges,
      e ∈ g.edges ∨ (e.v0 < n ∧ e.v1 < n)) := by
  induction es generalizing g with
  | nil => exact ⟨hvid, rfl, by simp, fun e he => Or.inl he⟩
  | cons p rest ih =>
    simp only [List.foldl_cons, List.filter_cons]
    cases hp : inRangeZ n p with
    | true =>
      have hstep : loadEdgeStep g p = registerEdge g p.1.toNat p.2.toNat :=
        (loadEdgeStep_shape hvid p).1 hp
      have hr : 0 ≤ p.1 ∧ p.1 < (n : ℤ) ∧ 0 ≤ p.2 ∧ p.2 < (n : ℤ) := by
        simpa [inRangeZ, and_assoc] using hp
      have hvid' : (loadEdgeStep g p).vertices.map GVertex.vid = List.range n := by
        rw [hstep, registerEdge_vids]; exact hvid
      obtain ⟨ih1, ih2, ih3, ih4⟩ := ih (loadEdgeStep g p) hvid'
      refine ⟨ih1, ?_, ?_, ?_⟩
      · rw [ih2, hstep, registerEdge_poss]
      · rw [ih3, hstep, registerEdge_edges]
        simp only [List.map_append, List.map_cons, List.map_nil]
        have hpz : pairZ ⟨g.nextEid, p.1.toNat, p.2.toNat⟩ = p := by
          unfold pairZ
          simp only
          rw [Int.toNat_of_nonneg hr.1, Int.toNat_of_nonneg hr.2.2.1]
        rw [hpz]
        simp
      · intro e he
        rcases ih4 e he with hmem | hb
        · rw [hstep, registerEdge_edges] at hmem
          rcases List.mem_append.mp hmem with h | h
          · exact Or.inl h
          · right
            simp only [List.mem_singleton] at h
            subst h
            constructor
            · show p.1.toNat < n; omega
            · show p.2.toNat < n; omega
        · exact Or.inr hb
    | false =>
      have hstep : loadEdgeStep g p = g := (loadEdgeStep_shape hvid p).2 hp
      rw [hstep]
      obtain ⟨ih1, ih2, ih3, ih4⟩ := ih g hvid
      refine ⟨ih1, ih2, ?_, ih4⟩
      rw [ih3]
      simp

/-- With vertex ids `0..n-1` in list order, the id-to-index map of
`serialize` sends id `k` to index `k`. -/
theorem findIdx_vid_range {vs : List GVertex} {off : ℕ}
    (h : ∀ j (hj : j < vs.length), (vs.get ⟨j, hj⟩).vid = off + j)
    {k : ℕ} (hk : k < vs.length) :
    ∀ s : ℕ, vs.findIdx? (fun v => v.vid = off + k) s = some (s + k) := by
  induction vs generalizing off k with
  | nil => cases hk
  | cons v rest ih =>
    intro s
    have hv : v.vid = off := by simpa using h 0 (by simp)
    rw [List.findIdx?_cons]
    cases k with
    | zero =>
      simp [hv]
    | succ k' =>
      have hne : ¬(v.vid = off + (k' + 1)) := by omega
      rw [if_neg (by simpa using hne)]
      have h' : ∀ j (hj : j < rest.length), (rest.get ⟨j, hj⟩).vid = (off + 1) + j := by
        intro j hj
        have := h (j + 1) (by simpa using Nat.succ_lt_succ hj)
        simpa [Nat.add_assoc, Nat.add_comm 1 j] using this
      have h2 : (off + 1) + k' = off + (k' + 1) := by omega
      have h3 := ih h' (k := k') (by simpa using Nat.lt_of_succ_lt_succ hk) (s + 1)
      rw [h2] at h3
      rw [h3]
      congr 1
      omega

theorem idxOfVid_range {g : Graph} {n : ℕ}
    (hvid : g.vertices.map GVertex.vid = List.range n) {k : ℕ} (hk : k < n) :
    idxOfVid g k = some k := by
  have hlen : g.vertices.length = n := by
    have := congrArg List.length hvid
    simpa using this
  have hget : ∀ j (hj : j < g.vertices.length), (g.vertices.get ⟨j, hj⟩).vid = 0 + j := by
    intro j hj
    have h1 : (g.vertices.map GVertex.vid).get? j = some j := by
      rw [hvid]
      simpa using List.getElem?_range (show j < n by omega)
    rw [List.get?_map, List.get?_eq_get hj] at h1
    simpa using h1
  have := findIdx_vid_range hget (k := k) (by omega) 0
  unfold idxOfVid
  simpa using this

theorem filterMap_eq_map_of_some {l : List α} {F : α → Option β} {G : α → β}
    (h : ∀ x ∈ l, F x = some (G x)) : l.filterMap F = l.map G := by
  induction l with
  | nil => rfl
  | cons x xs ih =>
    rw [List.filterMap_cons, h x (List.mem_cons_self x xs), List.map_cons,
      ih (fun y hy => h y (List.mem_cons_of_mem x hy))]

/-- The serializer on a graph whose vertex ids are `0..n-1` in order and
whose edges reference only present vertices. -/
theorem serializeG_shape {g : Graph} {n : ℕ}
    (hvid : g.vertices.map GVertex.vid = List.range n)
    (hb : ∀ e ∈ g.edges, e.v0 < n ∧ e.v1 < n) :
    serializeG g = ⟨g.vertices.map GVertex.pos, g.edges.map pairZ⟩ := by
  unfold serializeG
  congr 1
  apply filterMap_eq_map_of_some
  intro e he
  rw [idxOfVid_range hvid (hb e he).1, idxOfVid_range hvid (hb e he).2]
  rfl

/-- Shape of an imported graph: vertex ids are list positions, positions
are the normalized input coordinates, and the edge records are exactly
the in-range entries in order. -/
theorem fromSerializedG_shape (data : SerializedG) :
    (fromSerializedG data).vertices.map GVertex.vid =
      List.range data.vertices.length ∧
    (fromSerializedG data).vertices.map GVertex.pos =
      normalizePositions data.vertices ∧
    (fromSerializedG data).edges.map pairZ =
      data.edges.filter (inRangeZ data.vertices.length) ∧
    ∀ e ∈ (fromSerializedG data).edges,
      e.v0 < data.vertices.length ∧ e.v1 < data.vertices.length := by
  set n := data.vertices.length with hn
  set g1 : Graph := { emptyGraph with
    vertices := emptyGraph.vertices ++ data.vertices.enum.map (fun ip => ⟨ip.1, ip.2, []⟩) }
    with hg1
  have hg1v : g1.vertices.map GVertex.vid = List.range n := by
    rw [hg1]
    show (data.vertices.enum.map (fun ip => (⟨ip.1, ip.2, []⟩ : GVertex))).map
      GVertex.vid = List.range n
    rw [List.map_map]
    have : (GVertex.vid ∘ fun ip : ℕ × Q2 => (⟨ip.1, ip.2, []⟩ : GVertex)) = Prod.fst := rfl
    rw [this, List.enum_map_fst]
  have hg1p : g1.vertices.map GVertex.pos = data.vertices := by
    rw [hg1]
    show (data.vertices.enum.map (fun ip => (⟨ip.1, ip.2, []⟩ : GVertex))).map
      GVertex.pos = data.vertices
    rw [List.map_map]
    have : (GVertex.pos ∘ fun ip : ℕ × Q2 => (⟨ip.1, ip.2, []⟩ : GVertex)) = Prod.snd := rfl
    rw [this, List.enum_map_snd]
  have hg2v : (normalizeG g1).vertices.map GVertex.vid = List.range n := by
    rw [normalizeG_vids, hg1v]
  have hg2p : (normalizeG g1).vertices.map GVertex.pos =
      normalizePositions data.vertices := by
    rw [normalizeG_poss, hg1p]
  have hg2e : (normalizeG g1).edges = [] := rfl
  obtain ⟨h3v, h3p, h3e, h3b⟩ :=
    load_fold_shape data.edges (normalizeG g1) n hg2v
  have hfinal : fromSerializedG data =
      buildFaces (sortAllCCW (data.edges.foldl loadEdgeStep (normalizeG g1))) := rfl
  have hfv : (fromSerializedG data).vertices.map GVertex.vid = List.range n := by
    rw [hfinal, buildFaces_vertices, sortAllCCW_vids, h3v]
  have hfp : (fromSerializedG data).vertices.map GVertex.pos =
      normalizePositions data.vertices := by
    rw [hfinal, buildFaces_vertices, sortAllCCW_poss, h3p, hg2p]
  have hfe : (fromSerializedG data).edges.map pairZ =
      data.edges.filter (inRangeZ n) := by
    rw [hfinal, buildFaces_edges, sortAllCCW_edges, h3e, hg2e]
    simp
  have hfb : ∀ e ∈ (fromSerializedG data).edges, e.v0 < n ∧ e.v1 < n := by
    intro e he
    rw [hfinal, buildFaces_edges, sortAllCCW_edges] at he
    rcases h3b e he with h | h
    · rw [hg2e] at h; cases h
    · exact h
  exact ⟨hfv, hfp, hfe, hfb⟩

/-- Full characterization of export-after-import: vertices are the
normalized input positions, edges are exactly the in-range entries. -/
theorem serialize_fromSerializedG (data : SerializedG) :
    serializeG (fromSerializedG data) =
      ⟨normalizePositions data.vertices,
        data.edges.filter (inRangeZ data.vertices.length)⟩ := by
  obtain ⟨hfv, hfp, hfe, hfb⟩ := fromSerializedG_shape data
  rw [serializeG_shape hfv hfb, hfp, hfe]

/-- C10: `serialize ∘ Graph.fromSerialized` is idempotent: the
first import re-centers and uniformly rescales the vertices into the canonical
domain (or collapses them to the origin), a second import leaves those
normalized coordinates fixed, and no additional edges are dropped on the
second import (all surviving index pairs stay in range). -/
theorem serialize_fromSerialized_idem (S : SerializedG) :
    serializeG (fromSerializedG (serializeG (fromSerializedG S))) =
      serializeG (fromSerializedG S) := by
  rw [serialize_fromSerializedG S, serialize_fromSerializedG]
  have h1 : normalizePositions (normalizePositions S.vertices) =
      normalizePositions S.vertices := normalizePositions_idem S.vertices
  have h2 : ((S.edges.filter (inRangeZ S.vertices.length)).filter
      (inRangeZ (normalizePositions S.vertices).length)) =
      S.edges.filter (inRangeZ S.vertices.length) := by
    rw [normalizePositions_length, List.filter_filter]
    apply List.filter_congr
    intro x _
    exact Bool.and_self _
  simp only [h1, h2]

/-- C9: deserialization is total and silently drops every edge entry
whose index pair is out of the valid vertex-index range (the embedded
`loadFromSerializedG` is a total function, matching the source, which
throws on no input); in particular `vertices=[[0,0]], edges=[[0,5]]`
loads one vertex and zero edges. -/
theorem fromSerialized_tolerant :
    (∀ data : SerializedG,
      (fromSerializedG data).vertices.length = data.vertices.length ∧
      (fromSerializedG data).edges.map pairZ =
        data.edges.filter (inRangeZ data.vertices.length)) ∧
    (fromSerializedG ⟨[((0 : ℚ), (0 : ℚ))], [((0 : ℤ), (5 : ℤ))]⟩).vertices.length = 1 ∧
    (fromSerializedG ⟨[((0 : ℚ), (0 : ℚ))], [((0 : ℤ), (5 : ℤ))]⟩).edges = [] := by
  refine ⟨fun data => ⟨?_, (fromSerializedG_shape data).2.2.1⟩, ?_, ?_⟩
  · have h := (fromSerializedG_shape data).1
    have := congrArg List.length h
    simpa using this
  · with_unfolding_all decide
  · with_unfolding_all decide

/-! ### List helper lemmas for the mutation model -/
theorem removeFirstBy_sublist (p : α → Bool) (l : List α) :
    (removeFirstBy p l).Sublist l := by
  induction l with
  | nil => exact List.Sublist.refl []
  | cons x xs ih =>
    unfold removeFirstBy
    by_cases h : p x
    · simp only [h, if_true]
      exact List.sublist_cons_self x xs
    · simp only [h, if_false]
      exact List.Sublist.cons₂ x ih

theorem mem_of_mem_removeFirstBy {p : α → Bool} {l : List α} {x : α}
    (h : x ∈ removeFirstBy p l) : x ∈ l :=
  (removeFirstBy_sublist p l).mem h

theorem removeFirstBy_nodup {p : α → Bool} {l : List α} (h : l.Nodup) :
    (removeFirstBy p l).Nodup :=
  h.sublist (removeFirstBy_sublist p l)

theorem mem_removeFirstBy_of_not_p {p : α → Bool} {l : List α} {x : α}
    (hx : x ∈ l) (hpx : p x = false) : x ∈ removeFirstBy p l := by
  induction l with
  | nil => cases hx
  | cons y ys ih =>
    unfold removeFirstBy
    cases hpy : p y with
    | true =>
      simp only [if_pos rfl]
      rcases List.mem_cons.mp hx with rfl | hmem
      · rw [hpy] at hpx; cases hpx
      · exact hmem
    | false =>
      rw [if_neg Bool.false_ne_true]
      rcases List.mem_cons.mp hx with rfl | hmem
      · exact List.mem_cons_self x (removeFirstBy p ys)
      · exact List.mem_cons_of_mem y (ih hmem)

theorem not_mem_removeFirstBy_self {l : List ℕ} {a : ℕ} (h : l.Nodup) :
    a ∉ removeFirstBy (fun x => x = a) l := by
  induction l with
  | nil => simp [removeFirstBy]
  | cons y ys ih =>
    unfold removeFirstBy
    by_cases hy : y = a
    · rw [if_pos (by simp [hy])]
      subst hy
      exact (List.nodup_cons.mp h).1
    · rw [if_neg (by simp [hy])]
      intro hmem
      rcases List.mem_cons.mp hmem with h1 | h1
      · exact hy h1.symm
      · exact ih (List.nodup_cons.mp h).2 h1

theorem length_removeFirstBy_of_mem {p : α → Bool} {l : List α}
    (h : ∃ x ∈ l, p x = true) :
    (removeFirstBy p l).length < l.length := by
  induction l with
  | nil => obtain ⟨x, hx, _⟩ := h; cases hx
  | cons y ys ih =>
    unfold removeFirstBy
    cases hpy : p y with
    | true =>
      simp only [if_pos rfl]
      simp
    | false =>
      rw [if_neg Bool.false_ne_true]
      simp only [List.length_cons]
      have hys : ∃ x ∈ ys, p x = true := by
        obtain ⟨x, hx, hpx⟩ := h
        rcases List.mem_cons.mp hx with rfl | hmem
        · rw [hpy] at hpx; cases hpx
        · exact ⟨x, hmem, hpx⟩
      have := ih hys
      omega

theorem insertOrd_perm (le : α → α → Bool) (x : α) (l : List α) :
    (insertOrd le x l).Perm (x :: l) := by
  induction l with
  | nil => exact List.Perm.refl [x]
  | cons y ys ih =>
    unfold insertOrd
    by_cases h : le y x
    · simp only [h, if_true]
      exact (ih.cons y).trans (List.Perm.swap x y ys)
    · simp only [h, if_false]
      exact List.Perm.refl _

theorem insertSort_perm (le : α → α → Bool) (l : List α) :
    (insertSort le l).Perm l := by
  suffices h : ∀ (acc : List α), (l.foldl (fun acc x => insertOrd le x acc) acc).Perm
      (acc ++ l) by
    simpa using h []
  induction l with
  | nil => intro acc; simp
  | cons x xs ih =>
    intro acc
    simp only [List.foldl_cons]
    have h1 := ih (insertOrd le x acc)
    have h2 : (insertOrd le x acc ++ xs).Perm (acc ++ x :: xs) := by
      have h3 : (insertOrd le x acc).Perm (x :: acc) := insertOrd_perm le x acc
      have h4 : ((x :: acc) ++ xs).Perm (acc ++ x :: xs) := by
        simp only [List.cons_append]
        exact List.perm_middle.symm
      exact (h3.append_right xs).trans h4
    exact h1.trans h2

/-! ### Effect of the mutation primitives on vertex lookups

Every vertex-list mutation of the source is either a `map` by a
function preserving `vid` and `pos` (pushing or removing incident-edge
entries, re-sorting them) or the removal of a vertex; lookups by id are
therefore stable up to those maps. -/
theorem find?_vid_map {vs : List GVertex} {f : GVertex → GVertex}
    (hf : ∀ v, (f v).vid = v.vid) (vid : ℕ) :
    (vs.map f).find? (fun v => v.vid = vid) =
      (vs.find? (fun v => v.vid = vid)).map f := by
  have hpred : ((fun v : GVertex => decide (v.vid = vid)) ∘ f) =
      (fun v : GVertex => decide (v.vid = vid)) := by
    funext v
    simp [Function.comp, hf]
  rw [List.find?_map, hpred]

theorem posOf_vertices_map {g g' : Graph} {f : GVertex → GVertex}
    (hX : g'.vertices = g.vertices.map f) (hf : ∀ v, (f v).vid = v.vid)
    (hp : ∀ v, (f v).pos = v.pos) (vid : ℕ) : posOf g' vid = posOf g vid := by
  unfold posOf lookupVertex
  rw [hX, find?_vid_map hf]
  cases g.vertices.find? (fun v => v.vid = vid) with
  | none => rfl
  | some v => simp [hp]

theorem pushEdgeToVertex_is_map (vs : List GVertex) (vid eid : ℕ) :
    pushEdgeToVertex vs vid eid =
      vs.map (fun v => if v.vid = vid then { v with edges := v.edges ++ [eid] } else v) :=
  rfl

theorem posOf_pushEdgeToVertex (g : Graph) (a eid vid : ℕ)
    (g' : Graph) (hg' : g'.vertices = pushEdgeToVertex g.vertices a eid) :
    posOf g' vid = posOf g vid := by
  refine posOf_vertices_map (f := fun v =>
    if v.vid = a then { v with edges := v.edges ++ [eid] } else v) hg' ?_ ?_ vid
  · intro v; by_cases h : v.vid = a <;> simp [h]
  · intro v; by_cases h : v.vid = a <;> simp [h]

theorem posOf_registerEdge (g : Graph) (a b vid : ℕ) :
    posOf (registerEdge g a b) vid = posOf g vid := by
  have h1 : posOf (registerEdge g a b) vid =
      posOf { g with vertices := pushEdgeToVertex g.vertices a g.nextEid } vid :=
    posOf_pushEdgeToVertex _ b g.nextEid vid _ rfl
  rw [h1]
  exact posOf_pushEdgeToVertex g a g.nextEid vid _ rfl

theorem removeEdgeFromVertex_is_map (vs : List GVertex) (vid eid : ℕ) :
    removeEdgeFromVertex vs vid eid =
      vs.map (fun v => if v.vid = vid then
        { v with edges := removeFirstBy (fun x => x = eid) v.edges } else v) :=
  rfl

theorem posOf_removeEdgeFromVertex (g : Graph) (a eid vid : ℕ)
    (g' : Graph) (hg' : g'.vertices = removeEdgeFromVertex g.vertices a eid) :
    posOf g' vid = posOf g vid := by
  refine posOf_vertices_map (f := fun v =>
    if v.vid = a then { v with edges := removeFirstBy (fun x => x = eid) v.edges }
    else v) hg' ?_ ?_ vid
  · intro v; by_cases h : v.vid = a <;> simp [h]
  · intro v; by_cases h : v.vid = a <;> simp [h]

theorem posOf_removeEdge (g : Graph) (e : GEdge) (vid : ℕ) :
    posOf (removeEdge g e) vid = posOf g vid := by
  have h1 : posOf (removeEdge g e) vid =
      posOf { g with vertices := removeEdgeFromVertex g.vertices e.v0 e.eid } vid :=
    posOf_removeEdgeFromVertex _ e.v1 e.eid vid _ rfl
  rw [h1]
  exact posOf_removeEdgeFromVertex g e.v0 e.eid vid _ rfl

theorem posOf_sortAllCCW (g : Graph) (vid : ℕ) :
    posOf (sortAllCCW g) vid = posOf g vid :=
  posOf_vertices_map (f := fun v =>
    { v with edges := insertSort (fun a b => argLE (edgeDirId g v a) (edgeDirId g v b)) v.edges })
    rfl (fun v => rfl) (fun v => rfl) vid

theorem eid_mem_map {g : Graph} {e : GEdge} (he : e ∈ g.edges) :
    e.eid ∈ g.edges.map GEdge.eid := List.mem_map.mpr ⟨e, he, rfl⟩

/-- With distinct edge ids, records sharing an id are equal. -/
theorem eid_unique {g : Graph} (hg : (g.edges.map GEdge.eid).Nodup)
    {e1 e2 : GEdge} (h1 : e1 ∈ g.edges) (h2 : e2 ∈ g.edges)
    (he : e1.eid = e2.eid) : e1 = e2 :=
  List.inj_on_of_nodup_map hg h1 h2 he

/-- With distinct vertex ids, vertices sharing an id are equal. -/
theorem vid_unique {g : Graph} (hg : (g.vertices.map GVertex.vid).Nodup)
    {v1 v2 : GVertex} (h1 : v1 ∈ g.vertices) (h2 : v2 ∈ g.vertices)
    (hv : v1.vid = v2.vid) : v1 = v2 :=
  List.inj_on_of_nodup_map hg h1 h2 hv

/-- After removing the unique record with a given id, no record with
that id remains. -/
theorem eid_not_mem_removeFirstBy {l : List GEdge} (hnd : (l.map GEdge.eid).Nodup)
    (k : ℕ) : ∀ e' ∈ removeFirstBy (fun x => x.eid = k) l, e'.eid ≠ k := by
  induction l with
  | nil => intro e' he'; cases he'
  | cons e rest ih =>
    rw [List.map_cons, List.nodup_cons] at hnd
    intro e' he'
    unfold removeFirstBy at he'
    by_cases hek : e.eid = k
    · rw [if_pos (by simp [hek])] at he'
      intro hc
      have hmm : e'.eid ∈ rest.map GEdge.eid := List.mem_map.mpr ⟨e', he', rfl⟩
      rw [hc, ← hek] at hmm
      exact hnd.1 hmm
    · rw [if_neg (by simp [hek])] at he'
      rcases List.mem_cons.mp he' with rfl | hmem
      · exact hek
      · exact ih hnd.2 e' hmem

/-- Members of a push-image: same vertex with possibly one appended
incident edge. -/
theorem mem_pushEdgeToVertex {vs : List GVertex} {c n : ℕ} {v' : GVertex}
    (h : v' ∈ pushEdgeToVertex vs c n) :
    ∃ v ∈ vs, v' = (if v.vid = c then { v with edges := v.edges ++ [n] } else v) := by
  rw [pushEdgeToVertex_is_map] at h
  obtain ⟨v, hv, hfv⟩ := List.mem_map.mp h
  exact ⟨v, hv, hfv.symm⟩

theorem mem_removeEdgeFromVertex {vs : List GVertex} {c n : ℕ} {v' : GVertex}
    (h : v' ∈ removeEdgeFromVertex vs c n) :
    ∃ v ∈ vs, v' = (if v.vid = c then
      { v with edges := removeFirstBy (fun x => x = n) v.edges } else v) := by
  rw [removeEdgeFromVertex_is_map] at h
  obtain ⟨v, hv, hfv⟩ := List.mem_map.mp h
  exact ⟨v, hv, hfv.symm⟩

/-- The fresh id `nextEid` occurs in no incident list. -/
theorem nextEid_fresh {g : Graph} (hg : GInv g) {v : GVertex}
    (hv : v ∈ g.vertices) : g.nextEid ∉ v.edges := by
  intro hmem
  obtain ⟨e, he, heid, _⟩ := hg.fwd v hv g.nextEid hmem
  exact Nat.ne_of_lt (hg.eidsLt e he) heid

/-- `registerEdge` preserves the invariant when both endpoints exist and
are distinct (as in every candidate-admission and loading step of the
source where no self-loop is created). -/
theorem GInv_registerEdge {g : Graph} (hg : GInv g) {a b : ℕ}
    (ha : ∃ v ∈ g.vertices, v.vid = a) (hb : ∃ v ∈ g.vertices, v.vid = b)
    (hab : a ≠ b) : GInv (registerEdge g a b) := by
  have hfresh : ∀ v ∈ g.vertices, g.nextEid ∉ v.edges := fun v hv => nextEid_fresh hg hv
  have hmem2 : ∀ v' ∈ (registerEdge g a b).vertices,
      ∃ v ∈ g.vertices, v'.vid = v.vid ∧ v'.pos = v.pos ∧
        (v'.edges = v.edges ∨ (v'.edges = v.edges ++ [g.nextEid] ∧ (v.vid = a ∨ v.vid = b))) := by
    intro v' hv'
    obtain ⟨v1, hv1, hv1e⟩ := mem_pushEdgeToVertex hv'
    obtain ⟨v, hv, hve⟩ := mem_pushEdgeToVertex hv1
    subst hv1e hve
    by_cases hva : v.vid = a
    · rw [if_pos hva]
      have : ¬ ({ v with edges := v.edges ++ [g.nextEid] } : GVertex).vid = b := by
        simpa [hva] using hab
      rw [if_neg this]
      exact ⟨v, hv, rfl, rfl, Or.inr ⟨rfl, Or.inl hva⟩⟩
    · rw [if_neg hva]
      by_cases hvb : v.vid = b
      · rw [if_pos hvb]
        exact ⟨v, hv, rfl, rfl, Or.inr ⟨rfl, Or.inr hvb⟩⟩
      · rw [if_neg hvb]
        exact ⟨v, hv, rfl, rfl, Or.inl rfl⟩
  have hvids : (registerEdge g a b).vertices.map GVertex.vid =
      g.vertices.map GVertex.vid := registerEdge_vids g a b
  have hedges : (registerEdge g a b).edges = g.edges ++ [⟨g.nextEid, a, b⟩] := rfl
  have hnext : (registerEdge g a b).nextEid = g.nextEid + 1 := rfl
  refine ⟨?_, ?_, ?_, ?_, ?_, ?_, ?_⟩
  · rw [hvids]; exact hg.vidsNodup
  · rw [hedges, List.map_append]
    rw [List.nodup_append]
    refine ⟨hg.eidsNodup, by simp, ?_⟩
    intro x hx
    simp only [List.map_cons, List.map_nil, List.mem_singleton]
    obtain ⟨e, he, heid⟩ := List.mem_map.mp hx
    intro hc
    rw [hc] at heid
    exact absurd (heid ▸ hg.eidsLt e he) (by simp)
  · intro e he
    rw [hedges] at he
    rw [hnext]
    rcases List.mem_append.mp he with h | h
    · exact Nat.lt_succ_of_lt (hg.eidsLt e h)
    · simp only [List.mem_singleton] at h
      subst h
      exact Nat.lt_succ_self _
  · intro v' hv'
    obtain ⟨v, hv, _, _, hcase⟩ := hmem2 v' hv'
    rcases hcase with h | ⟨h, _⟩
    · rw [h]; exact hg.vEdgesNodup v hv
    · rw [h]
      have h1 := hg.vEdgesNodup v hv
      have h2 := hfresh v hv
      simp [List.nodup_append, h1, h2]
  · intro v' hv' eid heid
    obtain ⟨v, hv, hvid, _, hcase⟩ := hmem2 v' hv'
    have hold : eid ∈ v.edges →
        ∃ e ∈ (registerEdge g a b).edges, e.eid = eid ∧ (e.v0 = v'.vid ∨ e.v1 = v'.vid) := by
      intro hmem
      obtain ⟨e, he, h1, h2⟩ := hg.fwd v hv eid hmem
      exact ⟨e, by rw [hedges]; exact List.mem_append_left _ he, h1, by rw [hvid]; exact h2⟩
    rcases hcase with h | ⟨h, hab'⟩
    · exact hold (h ▸ heid)
    · rw [h] at heid
      rcases List.mem_append.mp heid with hmem | hmem
      · exact hold hmem
      · simp only [List.mem_singleton] at hmem
        subst hmem
        refine ⟨⟨g.nextEid, a, b⟩, by rw [hedges]; simp, rfl, ?_⟩
        rw [hvid]
        rcases hab' with h' | h'
        · exact Or.inl h'.symm
        · exact Or.inr h'.symm
  · intro e he
    rw [hedges] at he
    have himg : ∀ v ∈ g.vertices, ∃ v' ∈ (registerEdge g a b).vertices,
        v'.vid = v.vid ∧ (∀ x ∈ v.edges, x ∈ v'.edges) ∧
        ((v.vid = a ∨ v.vid = b) → g.nextEid ∈ v'.edges) := by
      intro v hv
      have h1 : (if v.vid = a then { v with edges := v.edges ++ [g.nextEid] } else v) ∈
          pushEdgeToVertex g.vertices a g.nextEid := by
        rw [pushEdgeToVertex_is_map]
        exact List.mem_map.mpr ⟨v, hv, rfl⟩
      set v1 := (if v.vid = a then { v with edges := v.edges ++ [g.nextEid] } else v)
        with hv1def
      have hv1vid : v1.vid = v.vid := by
        rw [hv1def]; by_cases h : v.vid = a <;> simp [h]
      have hv1sup : ∀ x ∈ v.edges, x ∈ v1.edges := by
        intro x hx
        rw [hv1def]; by_cases h : v.vid = a <;> simp [h, hx]
      have hv1a : v.vid = a → g.nextEid ∈ v1.edges := by
        intro h; rw [hv1def, if_pos h]; simp
      have h2 : (if v1.vid = b then { v1 with edges := v1.edges ++ [g.nextEid] } else v1) ∈
          (registerEdge g a b).vertices := by
        show _ ∈ pushEdgeToVertex (pushEdgeToVertex g.vertices a g.nextEid) b g.nextEid
        rw [pushEdgeToVertex_is_map (pushEdgeToVertex g.vertices a g.nextEid)]
        exact List.mem_map.mpr ⟨v1, h1, rfl⟩
      set v2 := (if v1.vid = b then { v1 with edges := v1.edges ++ [g.nextEid] } else v1)
        with hv2def
      have hv2vid : v2.vid = v.vid := by
        rw [hv2def]
        by_cases h : v1.vid = b
        · rw [if_pos h]; exact hv1vid
        · rw [if_neg h]; exact hv1vid
      have hv2sup : ∀ x ∈ v1.edges, x ∈ v2.edges := by
        intro x hx
        rw [hv2def]
        by_cases h : v1.vid = b
        · rw [if_pos h]; exact List.mem_append_left _ hx
        · rw [if_neg h]; exact hx
      have hv2b : v.vid = b → g.nextEid ∈ v2.edges := by
        intro h
        rw [hv2def, if_pos (by rw [hv1vid]; exact h)]
        simp
      refine ⟨v2, h2, hv2vid, fun x hx => hv2sup x (hv1sup x hx), ?_⟩
      rintro (h | h)
      · exact hv2sup _ (hv1a h)
      · exact hv2b h
    rcases List.mem_append.mp he with h | h
    · obtain ⟨⟨v0, hv0, hv0vid, hv0mem⟩, ⟨w1, hw1, hw1vid, hw1mem⟩⟩ := hg.link e h
      constructor
      · obtain ⟨v', hv', hvid', hsup, _⟩ := himg v0 hv0
        exact ⟨v', hv', by rw [hvid', hv0vid], hsup _ hv0mem⟩
      · obtain ⟨v', hv', hvid', hsup, _⟩ := himg w1 hw1
        exact ⟨v', hv', by rw [hvid', hw1vid], hsup _ hw1mem⟩
    · simp only [List.mem_singleton] at h
      subst h
      constructor
      · obtain ⟨v, hv, hvid⟩ := ha
        obtain ⟨v', hv', hvid', _, hnew⟩ := himg v hv
        exact ⟨v', hv', by rw [hvid', hvid], hnew (Or.inl hvid)⟩
      · obtain ⟨v, hv, hvid⟩ := hb
        obtain ⟨v', hv', hvid', _, hnew⟩ := himg v hv
        exact ⟨v', hv', by rw [hvid', hvid], hnew (Or.inr hvid)⟩
  · show g.halfEdges ++ [2 * g.nextEid, 2 * g.nextEid + 1] =
      (registerEdge g a b).edges.flatMap (fun e => [2 * e.eid, 2 * e.eid + 1])
    rw [hedges, List.flatMap_append, hg.halves]
    rfl

theorem removeEdgeFromVertex_vids (vs : List GVertex) (vid eid : ℕ) :
    (removeEdgeFromVertex vs vid eid).map GVertex.vid = vs.map GVertex.vid := by
  rw [removeEdgeFromVertex_is_map, List.map_map]
  apply List.map_congr_left
  intro v _
  by_cases h : v.vid = vid <;> simp [h]

theorem removeEdge_vids (g : Graph) (e : GEdge) :
    (removeEdge g e).vertices.map GVertex.vid = g.vertices.map GVertex.vid := by
  show (removeEdgeFromVertex (removeEdgeFromVertex g.vertices e.v0 e.eid) e.v1 e.eid).map
      GVertex.vid = g.vertices.map GVertex.vid
  rw [removeEdgeFromVertex_vids, removeEdgeFromVertex_vids]

theorem removeEdge_edges (g : Graph) (e : GEdge) :
    (removeEdge g e).edges = removeFirstBy (fun x => x.eid = e.eid) g.edges := rfl

theorem removeEdge_nextEid (g : Graph) (e : GEdge) :
    (removeEdge g e).nextEid = g.nextEid := rfl

/-- Backward transport along `removeEdge`: every resulting vertex is an
original vertex with the removed edge id struck from its incident list
(and nothing else), and the removed id survives in no incident list. -/
theorem removeEdge_vertex_shape {g : Graph} (hg : GInv g) (e : GEdge)
    (hU : ∀ e' ∈ g.edges, e'.eid = e.eid → e' = e) :
    ∀ v' ∈ (removeEdge g e).vertices, ∃ v ∈ g.vertices,
      v'.vid = v.vid ∧ v'.pos = v.pos ∧ v'.edges.Sublist v.edges ∧
      e.eid ∉ v'.edges := by
  intro v' hv'
  obtain ⟨v1, hv1, hv1e⟩ := mem_removeEdgeFromVertex hv'
  obtain ⟨v, hv, hve⟩ := mem_removeEdgeFromVertex hv1
  have hvnd := hg.vEdgesNodup v hv
  have hv1vid : v1.vid = v.vid := by
    rw [hve]; by_cases h : v.vid = e.v0 <;> simp [h]
  have hv1pos : v1.pos = v.pos := by
    rw [hve]; by_cases h : v.vid = e.v0 <;> simp [h]
  have hv1sub : v1.edges.Sublist v.edges := by
    rw [hve]
    by_cases h : v.vid = e.v0
    · rw [if_pos h]
      try exact removeFirstBy_sublist _ _
    · rw [if_neg h]
      try exact List.Sublist.refl _
  have hv2vid : v'.vid = v.vid := by
    rw [hv1e]
    by_cases h : v1.vid = e.v1
    · rw [if_pos h]; exact hv1vid
    · rw [if_neg h]; exact hv1vid
  have hv2pos : v'.pos = v.pos := by
    rw [hv1e]
    by_cases h : v1.vid = e.v1
    · rw [if_pos h]; exact hv1pos
    · rw [if_neg h]; exact hv1pos
  have hv2sub : v'.edges.Sublist v.edges := by
    rw [hv1e]
    by_cases h : v1.vid = e.v1
    · rw [if_pos h]
      exact List.Sublist.trans (removeFirstBy_sublist _ _) hv1sub
    · rw [if_neg h]; exact hv1sub
  refine ⟨v, hv, hv2vid, hv2pos, hv2sub, ?_⟩
  by_cases hvend : v.vid = e.v0 ∨ v.vid = e.v1
  · -- an endpoint vertex: the unique occurrence was struck
    have hnot1 : e.eid ∉ v1.edges ∨ (v1.edges = v.edges ∧ v.vid = e.v1) := by
      rcases hvend with h | h
      · left
        rw [hve, if_pos h]
        exact not_mem_removeFirstBy_self hvnd
      · by_cases h0 : v.vid = e.v0
        · left
          rw [hve, if_pos h0]
          exact not_mem_removeFirstBy_self hvnd
        · right
          rw [hve, if_neg h0]
          exact ⟨rfl, h⟩
    rcases hnot1 with hnot1 | ⟨heq1, hv1end⟩
    · intro hc
      have : e.eid ∈ v1.edges := by
        rw [hv1e] at hc
        by_cases h : v1.vid = e.v1
        · rw [if_pos h] at hc
          exact mem_of_mem_removeFirstBy hc
        · rw [if_neg h] at hc; exact hc
      exact hnot1 this
    · rw [hv1e, if_pos (by rw [hv1vid]; exact hv1end), heq1]
      exact not_mem_removeFirstBy_self hvnd
  · -- not an endpoint: the id was never in the list
    intro hc
    have hmem : e.eid ∈ v.edges := hv2sub.mem hc
    obtain ⟨e1, he1, he1id, he1end⟩ := hg.fwd v hv e.eid hmem
    have : e1 = e := hU e1 he1 he1id
    subst this
    exact hvend (by tauto)

/-- Forward transport along `removeEdge`: every original vertex survives
with the same id and position, keeping every incident id other than the
removed one. -/
theorem removeEdge_vertex_image {g : Graph} (e : GEdge) :
    ∀ v ∈ g.vertices, ∃ v' ∈ (removeEdge g e).vertices,
      v'.vid = v.vid ∧ v'.pos = v.pos ∧
      (∀ x ∈ v.edges, x ≠ e.eid → x ∈ v'.edges) := by
  intro v hv
  have h1 : (if v.vid = e.v0 then
      { v with edges := removeFirstBy (fun x => x = e.eid) v.edges } else v) ∈
      removeEdgeFromVertex g.vertices e.v0 e.eid := by
    rw [removeEdgeFromVertex_is_map]
    exact List.mem_map.mpr ⟨v, hv, rfl⟩
  set v1 := (if v.vid = e.v0 then
    { v with edges := removeFirstBy (fun x => x = e.eid) v.edges } else v) with hv1def
  have hv1vid : v1.vid = v.vid := by
    rw [hv1def]; by_cases h : v.vid = e.v0 <;> simp [h]
  have hv1pos : v1.pos = v.pos := by
    rw [hv1def]; by_cases h : v.vid = e.v0 <;> simp [h]
  have hv1mem : ∀ x ∈ v.edges, x ≠ e.eid → x ∈ v1.edges := by
    intro x hx hxne
    rw [hv1def]
    by_cases h : v.vid = e.v0
    · rw [if_pos h]
      exact mem_removeFirstBy_of_not_p hx (by simpa using hxne)
    · rw [if_neg h]; exact hx
  have h2 : (if v1.vid = e.v1 then
      { v1 with edges := removeFirstBy (fun x => x = e.eid) v1.edges } else v1) ∈
      (removeEdge g e).vertices := by
    show _ ∈ removeEdgeFromVertex (removeEdgeFromVertex g.vertices e.v0 e.eid) e.v1 e.eid
    rw [removeEdgeFromVertex_is_map (removeEdgeFromVertex g.vertices e.v0 e.eid)]
    exact List.mem_map.mpr ⟨v1, h1, rfl⟩
  refine ⟨_, h2, ?_, ?_, ?_⟩
  · by_cases h : v1.vid = e.v1
    · rw [if_pos h]; exact hv1vid
    · rw [if_neg h]; exact hv1vid
  · by_cases h : v1.vid = e.v1
    · rw [if_pos h]; exact hv1pos
    · rw [if_neg h]; exact hv1pos
  · intro x hx hxne
    by_cases h : v1.vid = e.v1
    · rw [if_pos h]
      exact mem_removeFirstBy_of_not_p (hv1mem x hx hxne) (by simpa using hxne)
    · rw [if_neg h]; exact hv1mem x hx hxne

theorem removeFirstBy_cons (p : α → Bool) (x : α) (xs : List α) :
    removeFirstBy p (x :: xs) = if p x then xs else x :: removeFirstBy p xs := rfl

/-- Removing an edge's two half-edges from the flattened pair list is
the flattening of the list with the edge record struck. -/
theorem removeFirstBy_flatMap_pair (k : ℕ) : ∀ (l : List GEdge),
    removeFirstBy (fun h => h = 2 * k + 1)
      (removeFirstBy (fun h => h = 2 * k)
        (l.flatMap (fun e => [2 * e.eid, 2 * e.eid + 1]))) =
    (removeFirstBy (fun x => x.eid = k) l).flatMap
      (fun e => [2 * e.eid, 2 * e.eid + 1]) := by
  intro l
  induction l with
  | nil => rfl
  | cons e rest ih =>
    simp only [List.flatMap_cons, List.cons_append, List.nil_append]
    by_cases hek : e.eid = k
    · rw [show removeFirstBy (fun x => x.eid = k) (e :: rest) = rest from by
        rw [removeFirstBy_cons, if_pos (by simp [hek])]]
      rw [show removeFirstBy (fun h => h = 2 * k)
          (2 * e.eid :: (2 * e.eid + 1) ::
            rest.flatMap (fun e => [2 * e.eid, 2 * e.eid + 1])) =
          (2 * e.eid + 1) :: rest.flatMap (fun e => [2 * e.eid, 2 * e.eid + 1]) from by
        rw [removeFirstBy_cons, if_pos (by simp [hek])]]
      rw [removeFirstBy_cons, if_pos (by simp [hek])]
    · rw [show removeFirstBy (fun x => x.eid = k) (e :: rest) =
          e :: removeFirstBy (fun x => x.eid = k) rest from by
        rw [removeFirstBy_cons, if_neg (by simp [hek])]]
      simp only [List.flatMap_cons, List.cons_append, List.nil_append]
      rw [show removeFirstBy (fun h => h = 2 * k)
          (2 * e.eid :: (2 * e.eid + 1) ::
            rest.flatMap (fun e => [2 * e.eid, 2 * e.eid + 1])) =
          2 * e.eid :: (2 * e.eid + 1) ::
            removeFirstBy (fun h => h = 2 * k)
              (rest.flatMap (fun e => [2 * e.eid, 2 * e.eid + 1])) from by
        rw [removeFirstBy_cons, if_neg (by simp only [decide_eq_true_eq]; omega)]
        rw [removeFirstBy_cons, if_neg (by simp only [decide_eq_true_eq]; omega)]]
      rw [show removeFirstBy (fun h => h = 2 * k + 1)
          (2 * e.eid :: (2 * e.eid + 1) ::
            removeFirstBy (fun h => h = 2 * k)
              (rest.flatMap (fun e => [2 * e.eid, 2 * e.eid + 1]))) =
          2 * e.eid :: (2 * e.eid + 1) ::
            removeFirstBy (fun h => h = 2 * k + 1)
              (removeFirstBy (fun h => h = 2 * k)
                (rest.flatMap (fun e => [2 * e.eid, 2 * e.eid + 1]))) from by
        rw [removeFirstBy_cons, if_neg (by simp only [decide_eq_true_eq]; omega)]
        rw [removeFirstBy_cons, if_neg (by simp only [decide_eq_true_eq]; omega)]]
      rw [ih]

/-- `removeEdge` preserves the invariant whenever the removed record is
the unique carrier of its id (true of every record the source removes,
which always holds the object itself). -/
theorem GInv_removeEdge {g : Graph} (hg : GInv g) (e : GEdge)
    (hU : ∀ e' ∈ g.edges, e'.eid = e.eid → e' = e) : GInv (removeEdge g e) := by
  have hshape := removeEdge_vertex_shape hg e hU
  have himg := removeEdge_vertex_image (g := g) e
  refine ⟨?_, ?_, ?_, ?_, ?_, ?_, ?_⟩
  · rw [removeEdge_vids]; exact hg.vidsNodup
  · rw [removeEdge_edges]
    exact ((removeFirstBy_sublist _ _).map GEdge.eid).nodup hg.eidsNodup
  · intro e' he'
    rw [removeEdge_edges] at he'
    rw [removeEdge_nextEid]
    exact hg.eidsLt e' (mem_of_mem_removeFirstBy he')
  · intro v' hv'
    obtain ⟨v, hv, _, _, hsub, _⟩ := hshape v' hv'
    exact (hg.vEdgesNodup v hv).sublist hsub
  · intro v' hv' eid heid
    obtain ⟨v, hv, hvid, _, hsub, hnotmem⟩ := hshape v' hv'
    obtain ⟨e1, he1, he1id, he1end⟩ := hg.fwd v hv eid (hsub.mem heid)
    have hne : e1.eid ≠ e.eid := by
      intro hc
      have : e1 = e := hU e1 he1 hc
      subst this
      rw [he1id] at hnotmem
      exact hnotmem heid
    refine ⟨e1, ?_, he1id, by rw [hvid]; exact he1end⟩
    rw [removeEdge_edges]
    exact mem_removeFirstBy_of_not_p he1 (by simpa using hne)
  · intro e' he'
    rw [removeEdge_edges] at he'
    have hne : e'.eid ≠ e.eid := eid_not_mem_removeFirstBy hg.eidsNodup e.eid e' he'
    have he'mem : e' ∈ g.edges := mem_of_mem_removeFirstBy he'
    obtain ⟨⟨v0, hv0, hv0vid, hv0mem⟩, ⟨w1, hw1, hw1vid, hw1mem⟩⟩ := hg.link e' he'mem
    constructor
    · obtain ⟨v', hv', hvid', _, hkeep⟩ := himg v0 hv0
      exact ⟨v', hv', by rw [hvid', hv0vid], hkeep _ hv0mem hne⟩
    · obtain ⟨v', hv', hvid', _, hkeep⟩ := himg w1 hw1
      exact ⟨v', hv', by rw [hvid', hw1vid], hkeep _ hw1mem hne⟩
  · rw [removeEdge_edges]
    show removeFirstBy (fun h => h = 2 * e.eid + 1)
        (removeFirstBy (fun h => h = 2 * e.eid) g.halfEdges) = _
    rw [hg.halves, removeFirstBy_flatMap_pair]

/-- `sortEdgesCCW` only permutes incidence lists. -/
theorem GInv_sortAllCCW {g : Graph} (hg : GInv g) : GInv (sortAllCCW g) := by
  have hmem2 : ∀ v' ∈ (sortAllCCW g).vertices, ∃ v ∈ g.vertices,
      v'.vid = v.vid ∧ v'.pos = v.pos ∧ v'.edges.Perm v.edges := by
    intro v' hv'
    obtain ⟨v, hv, hfv⟩ := List.mem_map.mp hv'
    exact ⟨v, hv, by rw [← hfv], by rw [← hfv], by rw [← hfv]; exact insertSort_perm _ _⟩
  have himg : ∀ v ∈ g.vertices, ∃ v' ∈ (sortAllCCW g).vertices,
      v'.vid = v.vid ∧ v'.edges.Perm v.edges := by
    intro v hv
    refine ⟨_, List.mem_map.mpr ⟨v, hv, rfl⟩, rfl, insertSort_perm _ _⟩
  refine ⟨?_, hg.eidsNodup, hg.eidsLt, ?_, ?_, ?_, hg.halves⟩
  · rw [sortAllCCW_vids]; exact hg.vidsNodup
  · intro v' hv'
    obtain ⟨v, hv, _, _, hperm⟩ := hmem2 v' hv'
    exact hperm.nodup_iff.mpr (hg.vEdgesNodup v hv)
  · intro v' hv' eid heid
    obtain ⟨v, hv, hvid, _, hperm⟩ := hmem2 v' hv'
    obtain ⟨e, he, h1, h2⟩ := hg.fwd v hv eid (hperm.mem_iff.mp heid)
    exact ⟨e, he, h1, by rw [hvid]; exact h2⟩
  · intro e he
    obtain ⟨⟨v0, hv0, h0a, h0b⟩, ⟨v1, hv1, h1a, h1b⟩⟩ := hg.link e he
    constructor
    · obtain ⟨v', hv', hvid, hperm⟩ := himg v0 hv0
      exact ⟨v', hv', by rw [hvid, h0a], hperm.mem_iff.mpr h0b⟩
    · obtain ⟨v', hv', hvid, hperm⟩ := himg v1 hv1
      exact ⟨v', hv', by rw [hvid, h1a], hperm.mem_iff.mpr h1b⟩

/-- Shape of the vertex-placement loop: it appends fresh vertices with
empty incidence lists and consecutive ids, and touches nothing else. -/
theorem addRandomVertices_shape (n : ℕ) : ∀ (g : Graph) (rng : List ℚ),
    ((addRandomVertices g rng n).1.vertices.map GVertex.vid =
      g.vertices.map GVertex.vid ++ List.range' g.vertices.length n) ∧
    (∀ v ∈ (addRandomVertices g rng n).1.vertices, v ∈ g.vertices ∨ v.edges = []) ∧
    (addRandomVertices g rng n).1.edges = g.edges ∧
    (addRandomVertices g rng n).1.nextEid = g.nextEid ∧
    (addRandomVertices g rng n).1.halfEdges = g.halfEdges := by
  induction n with
  | zero =>
    intro g rng
    exact ⟨by simp [addRandomVertices], fun v hv => Or.inl hv, rfl, rfl, rfl⟩
  | succ m ih =>
    intro g rng
    unfold addRandomVertices
    obtain ⟨ih1, ih2, ih3, ih4, ih5⟩ := ih
      { g with vertices := g.vertices ++
        [⟨g.vertices.length, (-1 + graphPadding + (graphWidth - 2 * graphPadding) * (randNext rng).1,
          -1 + graphPadding + (graphHeight - 2 * graphPadding) * (randNext (randNext rng).2).1), []⟩] }
      (randNext (randNext rng).2).2
    refine ⟨?_, ?_, ih3, ih4, ih5⟩
    · rw [ih1, List.range'_succ]
      simp [List.append_assoc]
    · intro v hv
      rcases ih2 v hv with h | h
      · rcases List.mem_append.mp h with h1 | h1
        · exact Or.inl h1
        · simp only [List.mem_singleton] at h1
          subst h1
          exact Or.inr rfl
      · exact Or.inr h

/-- The invariant holds after random vertex placement. -/
theorem GInv_addRandom (n : ℕ) (rng : List ℚ) :
    GInv (addRandomVertices emptyGraph rng n).1 := by
  obtain ⟨h1, h2, h3, h4, h5⟩ := addRandomVertices_shape n emptyGraph rng
  have hvids : (addRandomVertices emptyGraph rng n).1.vertices.map GVertex.vid =
      List.range' 0 n := by simpa [emptyGraph] using h1
  have hempty : ∀ v ∈ (addRandomVertices emptyGraph rng n).1.vertices, v.edges = [] := by
    intro v hv
    rcases h2 v hv with h | h
    · cases h
    · exact h
  have hedges : (addRandomVertices emptyGraph rng n).1.edges = [] := h3
  refine ⟨?_, ?_, ?_, ?_, ?_, ?_, ?_⟩
  · rw [hvids]; exact List.nodup_range' _ _
  · rw [hedges]; exact List.nodup_nil
  · intro e he; rw [hedges] at he; cases he
  · intro v hv; rw [hempty v hv]; exact List.nodup_nil
  · intro v hv eid heid; rw [hempty v hv] at heid; cases heid
  · intro e he; rw [hedges] at he; cases he
  · rw [hedges, h5]; rfl

/-- Identify "a vertex with this id exists" with membership in the
vid projection, the form stable under every vertex-list map. -/
theorem exists_vid_iff {g : Graph} {c : ℕ} :
    (∃ v ∈ g.vertices, v.vid = c) ↔ c ∈ g.vertices.map GVertex.vid := by
  constructor
  · rintro ⟨v, hv, rfl⟩; exact List.mem_map.mpr ⟨v, hv, rfl⟩
  · intro h
    obtain ⟨v, hv, hvc⟩ := List.mem_map.mp h
    exact ⟨v, hv, hvc⟩

theorem swapL_subset {l : List α} (i j : ℕ) : ∀ x ∈ swapL l i j, x ∈ l := by
  intro x hx
  unfold swapL at hx
  cases hi : l.get? i with
  | none => rw [hi] at hx; cases hj : l.get? j <;> rw [hj] at hx <;> exact hx
  | some a =>
    cases hj : l.get? j with
    | none => rw [hi, hj] at hx; exact hx
    | some b =>
      rw [hi, hj] at hx
      rcases List.mem_or_eq_of_mem_set hx with h1 | h1
      · rcases List.mem_or_eq_of_mem_set h1 with h2 | h2
        · exact h2
        · subst h2; exact List.get?_mem hj
      · subst h1; exact List.get?_mem hi

theorem shuffleGo_subset (rng : List ℚ) (l : List α) (k : ℕ) :
    ∀ x ∈ (shuffleGo rng l k).1, x ∈ l := by
  induction k generalizing rng l with
  | zero => intro x hx; exact hx
  | succ m ih =>
    intro x hx
    unfold shuffleGo at hx
    exact swapL_subset _ _ x (ih _ _ x hx)

theorem shuffleL_subset (l : List α) (rng : List ℚ) :
    ∀ x ∈ (shuffleL l rng).1, x ∈ l :=
  shuffleGo_subset rng l (l.length - 1)

/-- Every candidate pair of `createEdges` consists of two distinct
existing vertex ids. -/
theorem allPairs_mem {vs : List GVertex} (hnd : (vs.map GVertex.vid).Nodup) :
    ∀ p ∈ allPairs vs, p.1 ∈ vs.map GVertex.vid ∧ p.2 ∈ vs.map GVertex.vid ∧
      p.1 ≠ p.2 := by
  intro p hp
  unfold allPairs at hp
  obtain ⟨i, _, hfm⟩ := List.mem_flatMap.mp hp
  obtain ⟨j, _, hij⟩ := List.mem_filterMap.mp hfm
  by_cases hlt : i < j
  · rw [if_pos hlt] at hij
    cases hgi : vs.get? i with
    | none => rw [hgi] at hij; cases hij
    | some a =>
      cases hgj : vs.get? j with
      | none => rw [hgi, hgj] at hij; cases hij
      | some b =>
        rw [hgi, hgj] at hij
        have hpa : p = (a.vid, b.vid) := by
          have := hij
          simpa using this.symm
        have hia : i < vs.length := by
          by_contra hc
          rw [List.get?_eq_none.mpr (by omega)] at hgi
          cases hgi
        have hja : j < vs.length := by
          by_contra hc
          rw [List.get?_eq_none.mpr (by omega)] at hgj
          cases hgj
        have hga : vs[i] = a := by
          have h := hgi
          rw [List.get?_eq_getElem?, List.getElem?_eq_getElem hia] at h
          exact Option.some.inj h
        have hgb : vs[j] = b := by
          have h := hgj
          rw [List.get?_eq_getElem?, List.getElem?_eq_getElem hja] at h
          exact Option.some.inj h
        have hamem : a ∈ vs := hga ▸ List.getElem_mem hia
        have hbmem : b ∈ vs := hgb ▸ List.getElem_mem hja
        have hne : a.vid ≠ b.vid := by
          intro hc
          have hia' : i < (vs.map GVertex.vid).length := by simpa using hia
          have hja' : j < (vs.map GVertex.vid).length := by simpa using hja
          have h1 : (vs.map GVertex.vid).get ⟨i, hia'⟩ =
              (vs.map GVertex.vid).get ⟨j, hja'⟩ := by
            simp only [List.get_eq_getElem, List.getElem_map]
            rw [hga, hgb, hc]
          have h2 := (List.Nodup.get_inj_iff hnd).mp h1
          have : i = j := congrArg Fin.val h2
          omega
        rw [hpa]
        exact ⟨List.mem_map.mpr ⟨a, hamem, rfl⟩, List.mem_map.mpr ⟨b, hbmem, rfl⟩, hne⟩
  · rw [if_neg hlt] at hij
    cases hij

/-! ### Vertex descent, crossing freedom, and the pruning pipeline -/
theorem lookupEdge_mem {g : Graph} {eid : ℕ} {e : GEdge}
    (h : lookupEdge g eid = some e) : e ∈ g.edges :=
  List.mem_of_find?_eq_some h

theorem lookupEdge_eid {g : Graph} {eid : ℕ} {e : GEdge}
    (h : lookupEdge g eid = some e) : e.eid = eid := by
  have := List.find?_some h
  simpa using this

theorem lookupVertex_mem {g : Graph} {c : ℕ} {v : GVertex}
    (h : lookupVertex g c = some v) : v ∈ g.vertices :=
  List.mem_of_find?_eq_some h

theorem lookupVertex_vid {g : Graph} {c : ℕ} {v : GVertex}
    (h : lookupVertex g c = some v) : v.vid = c := by
  have := List.find?_some h
  simpa using this

/-- With distinct vertex ids, the position read through `posOf` is the
member's own position. -/
theorem posOf_eq_of_mem {g : Graph} (hg : (g.vertices.map GVertex.vid).Nodup)
    {v : GVertex} (hv : v ∈ g.vertices) : posOf g v.vid = v.pos := by
  unfold posOf
  cases hf : lookupVertex g v.vid with
  | none =>
    exfalso
    have := List.find?_eq_none.mp hf v hv
    simp at this
  | some w =>
    show w.pos = v.pos
    rw [vid_unique hg (lookupVertex_mem hf) hv (lookupVertex_vid hf)]

/-- Endpoint-sharing is symmetric between two edge records. -/
theorem sharesVtx_comm (e1 e2 : GEdge) :
    sharesVtx e1 e2.v0 e2.v1 = sharesVtx e2 e1.v0 e1.v1 := by
  unfold sharesVtx
  rw [Bool.eq_iff_iff]
  simp only [Bool.or_eq_true, decide_eq_true_eq]
  constructor <;> intro h <;> rcases h with ((h | h) | h) | h <;> simp [h]

theorem getD_mem_of_lt {l : List α} {i : ℕ} (h : i < l.length) (d : α) :
    l.getD i d ∈ l := by
  rw [List.getD_eq_getElem l d h]
  exact List.getElem_mem h

theorem VDescend_refl (g : Graph) : VDescend g g :=
  fun v hv => ⟨v, hv, rfl, rfl⟩

theorem VDescend_trans {g1 g2 g3 : Graph} (h12 : VDescend g1 g2)
    (h23 : VDescend g2 g3) : VDescend g1 g3 := by
  intro v3 hv3
  obtain ⟨v2, hv2, ha, hb⟩ := h23 v3 hv3
  obtain ⟨v1, hv1, hc, hd⟩ := h12 v2 hv2
  exact ⟨v1, hv1, hc.trans ha, hd.trans hb⟩

theorem mem_pushEdgeToVertex_vidpos {vs : List GVertex} {c n : ℕ} {v' : GVertex}
    (h : v' ∈ pushEdgeToVertex vs c n) :
    ∃ v ∈ vs, v.vid = v'.vid ∧ v.pos = v'.pos := by
  obtain ⟨v, hv, hfv⟩ := mem_pushEdgeToVertex h
  refine ⟨v, hv, ?_, ?_⟩ <;> rw [hfv] <;> by_cases h1 : v.vid = c <;> simp [h1]

theorem mem_removeEdgeFromVertex_vidpos {vs : List GVertex} {c n : ℕ} {v' : GVertex}
    (h : v' ∈ removeEdgeFromVertex vs c n) :
    ∃ v ∈ vs, v.vid = v'.vid ∧ v.pos = v'.pos := by
  obtain ⟨v, hv, hfv⟩ := mem_removeEdgeFromVertex h
  refine ⟨v, hv, ?_, ?_⟩ <;> rw [hfv] <;> by_cases h1 : v.vid = c <;> simp [h1]

theorem VDescend_registerEdge (g : Graph) (a b : ℕ) :
    VDescend g (registerEdge g a b) := by
  intro v' hv'
  obtain ⟨v1, hv1, h1a, h1b⟩ := mem_pushEdgeToVertex_vidpos hv'
  obtain ⟨v, hv, h2a, h2b⟩ := mem_pushEdgeToVertex_vidpos hv1
  exact ⟨v, hv, h2a.trans h1a, h2b.trans h1b⟩

theorem VDescend_removeEdge (g : Graph) (e : GEdge) :
    VDescend g (removeEdge g e) := by
  intro v' hv'
  obtain ⟨v1, hv1, h1a, h1b⟩ := mem_removeEdgeFromVertex_vidpos hv'
  obtain ⟨v, hv, h2a, h2b⟩ := mem_removeEdgeFromVertex_vidpos hv1
  exact ⟨v, hv, h2a.trans h1a, h2b.trans h1b⟩

theorem VDescend_sortAllCCW (g : Graph) : VDescend g (sortAllCCW g) := by
  intro v' hv'
  obtain ⟨v, hv, hfv⟩ := List.mem_map.mp hv'
  exact ⟨v, hv, by rw [← hfv], by rw [← hfv]⟩

theorem NoCross_of_no_edges {g : Graph} (h : g.edges = []) : NoCross g := by
  intro e1 he1
  rw [h] at he1
  cases he1

theorem admitEdge_vids (g : Graph) (p : ℕ × ℕ) :
    (admitEdge g p).vertices.map GVertex.vid = g.vertices.map GVertex.vid := by
  unfold admitEdge
  split
  · rfl
  · exact registerEdge_vids g p.1 p.2

theorem posOf_admitEdge (g : Graph) (p : ℕ × ℕ) (c : ℕ) :
    posOf (admitEdge g p) c = posOf g c := by
  unfold admitEdge
  split
  · rfl
  · exact posOf_registerEdge g p.1 p.2 c

theorem VDescend_admitEdge (g : Graph) (p : ℕ × ℕ) : VDescend g (admitEdge g p) := by
  unfold admitEdge
  split
  · exact VDescend_refl g
  · exact VDescend_registerEdge g p.1 p.2

/-- One admission step keeps both the well-formedness invariant and
crossing freedom. -/
theorem admit_step {g : Graph} (hg : GInv g) (hnc : NoCross g) {p : ℕ × ℕ}
    (hp1 : p.1 ∈ g.vertices.map GVertex.vid) (hp2 : p.2 ∈ g.vertices.map GVertex.vid)
    (hp12 : p.1 ≠ p.2) : GInv (admitEdge g p) ∧ NoCross (admitEdge g p) := by
  unfold admitEdge
  by_cases hany : (g.edges.any (fun e =>
      !sharesVtx e p.1 p.2 &&
        lineSegmentIntersect (posOf g p.1) (posOf g p.2)
          (posOf g e.v0) (posOf g e.v1))) = true
  · rw [if_pos hany]
    exact ⟨hg, hnc⟩
  · rw [if_neg hany]
    have hlsi : ∀ e ∈ g.edges, sharesVtx e p.1 p.2 = false →
        lineSegmentIntersect (posOf g p.1) (posOf g p.2)
          (posOf g e.v0) (posOf g e.v1) = false := by
      intro e he hse
      cases hB : lineSegmentIntersect (posOf g p.1) (posOf g p.2)
          (posOf g e.v0) (posOf g e.v1) with
      | false => rfl
      | true =>
        exfalso
        apply hany
        rw [List.any_eq_true]
        refine ⟨e, he, ?_⟩
        rw [hse, hB]
        rfl
    constructor
    · exact GInv_registerEdge hg (exists_vid_iff.mpr hp1) (exists_vid_iff.mpr hp2) hp12
    · intro e1 he1 e2 he2 hsh
      rw [registerEdge_edges] at he1 he2
      have hpos : ∀ c, posOf (registerEdge g p.1 p.2) c = posOf g c :=
        fun c => posOf_registerEdge g p.1 p.2 c
      rw [hpos, hpos, hpos, hpos]
      rcases List.mem_append.mp he1 with h1 | h1 <;>
        rcases List.mem_append.mp he2 with h2 | h2
      · exact hnc e1 h1 e2 h2 hsh
      · simp only [List.mem_singleton] at h2
        subst h2
        rw [lineSegmentIntersect_symm]
        exact hlsi e1 h1 hsh
      · simp only [List.mem_singleton] at h1
        subst h1
        have hsh' : sharesVtx e2 p.1 p.2 = false := by
          have hc := sharesVtx_comm e2 ⟨g.nextEid, p.1, p.2⟩
          rw [hc]
          exact hsh
        exact hlsi e2 h2 hsh'
      · simp only [List.mem_singleton] at h1 h2
        subst h1
        subst h2
        exfalso
        simp [sharesVtx] at hsh

/-- The greedy admission fold of `createEdges` keeps the invariant,
crossing freedom, the vertex-id list, and vertex descent. -/
theorem admit_fold (ps : List (ℕ × ℕ)) : ∀ (g : Graph), GInv g → NoCross g →
    (∀ p ∈ ps, p.1 ∈ g.vertices.map GVertex.vid ∧
      p.2 ∈ g.vertices.map GVertex.vid ∧ p.1 ≠ p.2) →
    GInv (ps.foldl admitEdge g) ∧ NoCross (ps.foldl admitEdge g) ∧
      (ps.foldl admitEdge g).vertices.map GVertex.vid = g.vertices.map GVertex.vid ∧
      VDescend g (ps.foldl admitEdge g) := by
  induction ps with
  | nil =>
    intro g hg hnc _
    exact ⟨hg, hnc, rfl, VDescend_refl g⟩
  | cons p rest ih =>
    intro g hg hnc hps
    rw [List.foldl_cons]
    have hp := hps p (List.mem_cons_self p rest)
    obtain ⟨hg', hnc'⟩ := admit_step hg hnc hp.1 hp.2.1 hp.2.2
    have hvids := admitEdge_vids g p
    obtain ⟨a1, a2, a3, a4⟩ := ih (admitEdge g p) hg' hnc' (by
      intro q hq
      have hq' := hps q (List.mem_cons_of_mem p hq)
      rw [hvids]
      exact hq')
    exact ⟨a1, a2, a3.trans hvids, VDescend_trans (VDescend_admitEdge g p) a4⟩

theorem createEdges_fst (g : Graph) (rng : List ℚ) :
    (createEdges g rng).1 = (shuffleL (allPairs g.vertices) rng).1.foldl admitEdge g := by
  unfold createEdges
  rcases shuffleL (allPairs g.vertices) rng with ⟨ps, rng'⟩
  rfl

/-- `createEdges` from an edge-free well-formed state produces a
well-formed, crossing-free graph over the same vertices. -/
theorem createEdges_inv {g : Graph} (hg : GInv g) (hne : g.edges = [])
    (rng : List ℚ) :
    GInv (createEdges g rng).1 ∧ NoCross (createEdges g rng).1 ∧
      VDescend g (createEdges g rng).1 := by
  rw [createEdges_fst]
  have hpairs : ∀ p ∈ (shuffleL (allPairs g.vertices) rng).1,
      p.1 ∈ g.vertices.map GVertex.vid ∧ p.2 ∈ g.vertices.map GVertex.vid ∧
        p.1 ≠ p.2 := by
    intro p hp
    exact allPairs_mem hg.vidsNodup p (shuffleL_subset _ _ p hp)
  obtain ⟨a1, a2, _, a4⟩ := admit_fold (shuffleL (allPairs g.vertices) rng).1 g hg
    (NoCross_of_no_edges hne) hpairs
  exact ⟨a1, a2, a4⟩

/-! #### The small-angle pruning pass -/
theorem mem_filterMap_lookupEdge {g : Graph} {l : List ℕ} :
    ∀ e ∈ l.filterMap (lookupEdge g), e ∈ g.edges := by
  intro e he
  obtain ⟨eid, _, h⟩ := List.mem_filterMap.mp he
  exact lookupEdge_mem h

/-- `smallAngleStep` either leaves the state alone or removes one edge
drawn from the snapshot. -/
theorem smallAngleStep_cases (vid : ℕ) (snap : List GEdge) (acc : Graph × Bool)
    (i : ℕ) :
    smallAngleStep vid snap acc i = acc ∨
    ∃ eR, (eR = snap.getD i ⟨0, 0, 0⟩ ∨ eR = snap.getD ((i + 1) % snap.length) ⟨0, 0, 0⟩) ∧
      smallAngleStep vid snap acc i = (removeEdge acc.1 eR, true) := by
  unfold smallAngleStep
  split
  · left; rfl
  · split
    · split
      · left; rfl
      · split
        · right
          refine ⟨_, ?_, rfl⟩
          split
          · left; rfl
          · right; rfl
        · left; rfl
    · left; rfl

/-- One snapshot-pair step preserves the invariant, removes edges only,
and keeps vertex data. -/
theorem smallAngleStep_inv {mid : Graph} (hmid : GInv mid) {vid : ℕ}
    {snap : List GEdge} (hsnap : ∀ e ∈ snap, e ∈ mid.edges) {acc : Graph × Bool}
    {i : ℕ} (hi : i < snap.length) (hg : GInv acc.1)
    (hsub : ∀ e ∈ acc.1.edges, e ∈ mid.edges) :
    GInv (smallAngleStep vid snap acc i).1 ∧
    (∀ e ∈ (smallAngleStep vid snap acc i).1.edges, e ∈ mid.edges) ∧
    VDescend acc.1 (smallAngleStep vid snap acc i).1 := by
  rcases smallAngleStep_cases vid snap acc i with h | ⟨eR, heR, h⟩
  · rw [h]
    exact ⟨hg, hsub, VDescend_refl _⟩
  · rw [h]
    have heRsnap : eR ∈ snap := by
      rcases heR with rfl | rfl
      · exact getD_mem_of_lt hi _
      · exact getD_mem_of_lt (Nat.mod_lt _ (by omega)) _
    have heRmid : eR ∈ mid.edges := hsnap _ heRsnap
    have hU : ∀ e' ∈ acc.1.edges, e'.eid = eR.eid → e' = eR := fun e' he' heq =>
      eid_unique hmid.eidsNodup (hsub e' he') heRmid heq
    exact ⟨GInv_removeEdge hg eR hU,
      fun e he => hsub e (mem_of_mem_removeFirstBy he),
      VDescend_removeEdge acc.1 eR⟩

/-- The inner scan over a fixed snapshot preserves the invariant. -/
theorem smallAngleInner_inv {mid : Graph} (hmid : GInv mid) {vid : ℕ}
    {snap : List GEdge} (hsnap : ∀ e ∈ snap, e ∈ mid.edges) :
    ∀ (idxs : List ℕ), (∀ j ∈ idxs, j < snap.length) → ∀ (acc : Graph × Bool),
      GInv acc.1 → (∀ e ∈ acc.1.edges, e ∈ mid.edges) →
      GInv (idxs.foldl (smallAngleStep vid snap) acc).1 ∧
      (∀ e ∈ (idxs.foldl (smallAngleStep vid snap) acc).1.edges, e ∈ mid.edges) ∧
      VDescend acc.1 (idxs.foldl (smallAngleStep vid snap) acc).1 := by
  intro idxs
  induction idxs with
  | nil =>
    intro _ acc hg hsub
    exact ⟨hg, hsub, VDescend_refl _⟩
  | cons j rest ih =>
    intro hjs acc hg hsub
    rw [List.foldl_cons]
    obtain ⟨h1, h2, h3⟩ :=
      smallAngleStep_inv hmid hsnap (hjs j (List.mem_cons_self j rest)) hg hsub
    obtain ⟨a1, a2, a3⟩ := ih (fun x hx => hjs x (List.mem_cons_of_mem j hx)) _ h1 h2
    exact ⟨a1, a2, VDescend_trans h3 a3⟩

theorem smallAngleVertexStep_inv {acc : Graph × Bool} (hg : GInv acc.1) (vid : ℕ) :
    GInv (smallAngleVertexStep acc vid).1 ∧
    (∀ e ∈ (smallAngleVertexStep acc vid).1.edges, e ∈ acc.1.edges) ∧
    VDescend acc.1 (smallAngleVertexStep acc vid).1 := by
  unfold smallAngleVertexStep
  split
  · exact ⟨hg, fun e he => he, VDescend_refl _⟩
  · rename_i v hlv
    split
    · exact ⟨hg, fun e he => he, VDescend_refl _⟩
    · exact smallAngleInner_inv hg (mem_filterMap_lookupEdge)
        (List.range (v.edges.filterMap (lookupEdge acc.1)).length)
        (fun j hj => List.mem_range.mp hj) acc hg (fun e he => he)

theorem smallAnglePass_fold_inv :
    ∀ (vids : List ℕ) (acc : Graph × Bool) (g0 : Graph),
      GInv acc.1 → (∀ e ∈ acc.1.edges, e ∈ g0.edges) → VDescend g0 acc.1 →
      GInv (vids.foldl smallAngleVertexStep acc).1 ∧
      (∀ e ∈ (vids.foldl smallAngleVertexStep acc).1.edges, e ∈ g0.edges) ∧
      VDescend g0 (vids.foldl smallAngleVertexStep acc).1 := by
  intro vids
  induction vids with
  | nil =>
    intro acc g0 hg hsub hd
    exact ⟨hg, hsub, hd⟩
  | cons c rest ih =>
    intro acc g0 hg hsub hd
    rw [List.foldl_cons]
    obtain ⟨h1, h2, h3⟩ := smallAngleVertexStep_inv hg c
    exact ih _ g0 h1 (fun e he => hsub e (h2 e he)) (VDescend_trans hd h3)

theorem smallAnglePass_inv {g0 : Graph} (hg : GInv g0) :
    GInv (smallAnglePass g0).1 ∧
    (∀ e ∈ (smallAnglePass g0).1.edges, e ∈ g0.edges) ∧
    VDescend g0 (smallAnglePass g0).1 :=
  smallAnglePass_fold_inv (g0.vertices.map GVertex.vid) (g0, false) g0 hg
    (fun _ he => he) (VDescend_refl g0)

theorem smallAngleLoop_inv : ∀ (fuel : ℕ) {g : Graph}, GInv g →
    GInv (smallAngleLoop fuel g) ∧
    (∀ e ∈ (smallAngleLoop fuel g).edges, e ∈ g.edges) ∧
    VDescend g (smallAngleLoop fuel g) := by
  intro fuel
  induction fuel with
  | zero =>
    intro g hg
    exact ⟨hg, fun e he => he, VDescend_refl g⟩
  | succ m ih =>
    intro g hg
    obtain ⟨h1, h2, h3⟩ := smallAnglePass_inv hg
    unfold smallAngleLoop
    by_cases hb : (smallAnglePass g).2 = true
    · rw [if_pos hb]
      obtain ⟨a1, a2, a3⟩ := ih h1
      exact ⟨a1, fun e he => h2 e (a2 e he), VDescend_trans h3 a3⟩
    · rw [if_neg hb]
      exact ⟨h1, h2, h3⟩

/-! #### The sparse-vertex pruning pass -/
theorem sparseScanStep_inv {acc : Graph × List ℕ} (hg : GInv acc.1) (c : ℕ) :
    GInv (sparseScanStep acc c).1 ∧
    (∀ e ∈ (sparseScanStep acc c).1.edges, e ∈ acc.1.edges) ∧
    VDescend acc.1 (sparseScanStep acc c).1 := by
  unfold sparseScanStep
  split
  · exact ⟨hg, fun e he => he, VDescend_refl _⟩
  · rename_i v hlv
    split
    · exact ⟨hg, fun e he => he, VDescend_refl _⟩
    · split
      · split
        · rename_i eid hhd
          split
          · rename_i e hle
            have hU : ∀ e' ∈ acc.1.edges, e'.eid = e.eid → e' = e := fun e' he' h =>
              eid_unique hg.eidsNodup he' (lookupEdge_mem hle) h
            exact ⟨GInv_removeEdge hg e hU,
              fun e' he' => mem_of_mem_removeFirstBy he',
              VDescend_removeEdge acc.1 e⟩
          · exact ⟨hg, fun e he => he, VDescend_refl _⟩
        · exact ⟨hg, fun e he => he, VDescend_refl _⟩
      · exact ⟨hg, fun e he => he, VDescend_refl _⟩

theorem sparseScan_fold_inv :
    ∀ (vids : List ℕ) (acc : Graph × List ℕ) (g0 : Graph),
      GInv acc.1 → (∀ e ∈ acc.1.edges, e ∈ g0.edges) → VDescend g0 acc.1 →
      GInv (vids.foldl sparseScanStep acc).1 ∧
      (∀ e ∈ (vids.foldl sparseScanStep acc).1.edges, e ∈ g0.edges) ∧
      VDescend g0 (vids.foldl sparseScanStep acc).1 := by
  intro vids
  induction vids with
  | nil =>
    intro acc g0 hg hsub hd
    exact ⟨hg, hsub, hd⟩
  | cons c rest ih =>
    intro acc g0 hg hsub hd
    rw [List.foldl_cons]
    obtain ⟨h1, h2, h3⟩ := sparseScanStep_inv hg c
    exact ih _ g0 h1 (fun e he => hsub e (h2 e he)) (VDescend_trans hd h3)

theorem sparseScan_inv {g0 : Graph} (hg : GInv g0) :
    GInv (sparseScan g0).1 ∧
    (∀ e ∈ (sparseScan g0).1.edges, e ∈ g0.edges) ∧
    VDescend g0 (sparseScan g0).1 :=
  sparseScan_fold_inv (g0.vertices.map GVertex.vid) (g0, []) g0 hg
    (fun _ he => he) (VDescend_refl g0)

/-- Removing a batch of edge ids: invariant preserved, edges only
shrink, each vertex's incident list only shrinks, and no surviving edge
carries any of the removed ids. -/
theorem removeEdgesFold_inv : ∀ (eids : List ℕ) (g : Graph), GInv g →
    GInv (eids.foldl removeEdgeById g) ∧
    (∀ e ∈ (eids.foldl removeEdgeById g).edges, e ∈ g.edges) ∧
    VDescend g (eids.foldl removeEdgeById g) ∧
    (∀ v' ∈ (eids.foldl removeEdgeById g).vertices, ∃ v ∈ g.vertices,
      v'.vid = v.vid ∧ v'.edges.Sublist v.edges) ∧
    (∀ x ∈ eids, ∀ e' ∈ (eids.foldl removeEdgeById g).edges, e'.eid ≠ x) := by
  intro eids
  induction eids with
  | nil =>
    intro g hg
    exact ⟨hg, fun e he => he, VDescend_refl g,
      fun v' hv' => ⟨v', hv', rfl, List.Sublist.refl _⟩,
      fun x hx => absurd hx (List.not_mem_nil x)⟩
  | cons c rest ih =>
    intro g hg
    rw [List.foldl_cons]
    cases hle : lookupEdge g c with
    | none =>
      have hstep : removeEdgeById g c = g := by
        unfold removeEdgeById
        rw [hle]
      rw [hstep]
      obtain ⟨a1, a2, a3, a4, a5⟩ := ih g hg
      refine ⟨a1, a2, a3, a4, ?_⟩
      intro x hx e' he'
      rcases List.mem_cons.mp hx with rfl | hx'
      · intro hc
        have hmem : e' ∈ g.edges := a2 e' he'
        have hnone := List.find?_eq_none.mp hle e' hmem
        simp only [decide_eq_true_eq] at hnone
        exact hnone hc
      · exact a5 x hx' e' he'
    | some e =>
      have hstep : removeEdgeById g c = removeEdge g e := by
        unfold removeEdgeById
        rw [hle]
      rw [hstep]
      have hU : ∀ e' ∈ g.edges, e'.eid = e.eid → e' = e := fun e' he' h =>
        eid_unique hg.eidsNodup he' (lookupEdge_mem hle) h
      have hginv' := GInv_removeEdge hg e hU
      obtain ⟨a1, a2, a3, a4, a5⟩ := ih (removeEdge g e) hginv'
      have hshape := removeEdge_vertex_shape hg e hU
      refine ⟨a1, fun e' he' => mem_of_mem_removeFirstBy (a2 e' he'),
        VDescend_trans (VDescend_removeEdge g e) a3, ?_, ?_⟩
      · intro v' hv'
        obtain ⟨v1, hv1, hvid1, hsub1⟩ := a4 v' hv'
        obtain ⟨v, hv, hvid2, _, hsub2, _⟩ := hshape v1 hv1
        exact ⟨v, hv, hvid1.trans hvid2, hsub1.trans hsub2⟩
      · intro x hx e' he'
        rcases List.mem_cons.mp hx with rfl | hx'
        · have hmem : e' ∈ (removeEdge g e).edges := a2 e' he'
          have hne := eid_not_mem_removeFirstBy hg.eidsNodup e.eid e' hmem
          rw [lookupEdge_eid hle] at hne
          exact hne
        · exact a5 x hx' e' he'

/-- `removeVertexAndEdges` preserves the invariant: all edges incident
to the spliced vertex are removed first, so no dangling endpoint
reference survives. -/
theorem removeVertexAndEdges_inv {g : Graph} (hg : GInv g) (c : ℕ) :
    GInv (removeVertexAndEdges g c) ∧
    (∀ e ∈ (removeVertexAndEdges g c).edges, e ∈ g.edges) ∧
    VDescend g (removeVertexAndEdges g c) := by
  unfold removeVertexAndEdges
  cases hlv : lookupVertex g c with
  | none => exact ⟨hg, fun e he => he, VDescend_refl g⟩
  | some v =>
    obtain ⟨a1, a2, a3, a4, a5⟩ := removeEdgesFold_inv v.edges g hg
    have hvsub : (removeFirstBy (fun x => x.vid = c)
        (v.edges.foldl removeEdgeById g).vertices).Sublist
        (v.edges.foldl removeEdgeById g).vertices :=
      removeFirstBy_sublist _ _
    have hnotref : ∀ e' ∈ (v.edges.foldl removeEdgeById g).edges,
        e'.v0 ≠ c ∧ e'.v1 ≠ c := by
      intro e' he'
      have hlink := a1.link e' he'
      constructor
      · intro hc
        obtain ⟨⟨w, hw, hwvid, hwmem⟩, _⟩ := hlink
        obtain ⟨v0, hv0, hvid0, hsub0⟩ := a4 w hw
        have hveq : v0 = v := vid_unique hg.vidsNodup hv0 (lookupVertex_mem hlv)
          (by rw [← hvid0, hwvid, hc, ← lookupVertex_vid hlv])
        rw [hveq] at hsub0
        exact a5 e'.eid (hsub0.subset hwmem) e' he' rfl
      · intro hc
        obtain ⟨_, ⟨w, hw, hwvid, hwmem⟩⟩ := hlink
        obtain ⟨v0, hv0, hvid0, hsub0⟩ := a4 w hw
        have hveq : v0 = v := vid_unique hg.vidsNodup hv0 (lookupVertex_mem hlv)
          (by rw [← hvid0, hwvid, hc, ← lookupVertex_vid hlv])
        rw [hveq] at hsub0
        exact a5 e'.eid (hsub0.subset hwmem) e' he' rfl
    refine ⟨⟨?_, a1.eidsNodup, a1.eidsLt, ?_, ?_, ?_, a1.halves⟩, a2, ?_⟩
    · exact ((hvsub.map GVertex.vid).nodup a1.vidsNodup)
    · intro v' hv'
      exact a1.vEdgesNodup v' (hvsub.subset hv')
    · intro v' hv' eid heid
      exact a1.fwd v' (hvsub.subset hv') eid heid
    · intro e' he'
      obtain ⟨⟨w0, hw0, hw0v, hw0m⟩, ⟨w1, hw1, hw1v, hw1m⟩⟩ := a1.link e' he'
      obtain ⟨hne0, hne1⟩ := hnotref e' he'
      constructor
      · refine ⟨w0, ?_, hw0v, hw0m⟩
        exact mem_removeFirstBy_of_not_p hw0 (by simp [hw0v, hne0])
      · refine ⟨w1, ?_, hw1v, hw1m⟩
        exact mem_removeFirstBy_of_not_p hw1 (by simp [hw1v, hne1])
    · exact VDescend_trans a3 (fun v' hv' => ⟨v', hvsub.subset hv', rfl, rfl⟩)

theorem removeVertexAndEdges_fold_inv :
    ∀ (cs : List ℕ) (g : Graph), GInv g →
      GInv (cs.foldl removeVertexAndEdges g) ∧
      (∀ e ∈ (cs.foldl removeVertexAndEdges g).edges, e ∈ g.edges) ∧
      VDescend g (cs.foldl removeVertexAndEdges g) := by
  intro cs
  induction cs with
  | nil =>
    intro g hg
    exact ⟨hg, fun e he => he, VDescend_refl g⟩
  | cons c rest ih =>
    intro g hg
    rw [List.foldl_cons]
    obtain ⟨h1, h2, h3⟩ := removeVertexAndEdges_inv hg c
    obtain ⟨a1, a2, a3⟩ := ih _ h1
    exact ⟨a1, fun e he => h2 e (a2 e he), VDescend_trans h3 a3⟩

theorem sparsePass_inv {g0 : Graph} (hg : GInv g0) :
    GInv (sparsePass g0).1 ∧
    (∀ e ∈ (sparsePass g0).1.edges, e ∈ g0.edges) ∧
    VDescend g0 (sparsePass g0).1 := by
  obtain ⟨h1, h2, h3⟩ := sparseScan_inv hg
  unfold sparsePass
  by_cases hnil : (sparseScan g0).2 = []
  · rw [if_pos hnil]
    exact ⟨h1, h2, h3⟩
  · rw [if_neg hnil]
    obtain ⟨a1, a2, a3⟩ := removeVertexAndEdges_fold_inv (sparseScan g0).2 (sparseScan g0).1 h1
    exact ⟨a1, fun e he => h2 e (a2 e he), VDescend_trans h3 a3⟩

theorem sparseLoop_inv : ∀ (fuel : ℕ) {g : Graph}, GInv g →
    GInv (sparseLoop fuel g) ∧
    (∀ e ∈ (sparseLoop fuel g).edges, e ∈ g.edges) ∧
    VDescend g (sparseLoop fuel g) := by
  intro fuel
  induction fuel with
  | zero =>
    intro g hg
    exact ⟨hg, fun e he => he, VDescend_refl g⟩
  | succ m ih =>
    intro g hg
    obtain ⟨h1, h2, h3⟩ := sparsePass_inv hg
    unfold sparseLoop
    by_cases hb : (sparsePass g).2 = true
    · rw [if_pos hb]
      obtain ⟨a1, a2, a3⟩ := ih h1
      exact ⟨a1, fun e he => h2 e (a2 e he), VDescend_trans h3 a3⟩
    · rw [if_neg hb]
      exact ⟨h1, h2, h3⟩

/-! #### Assembly through face building -/
theorem GInv_fields_only {g g' : Graph} (hv : g'.vertices = g.vertices)
    (he : g'.edges = g.edges) (hn : g'.nextEid = g.nextEid)
    (hh : g'.halfEdges = g.halfEdges) (hg : GInv g) :
    GInv g' :=
  ⟨by rw [hv]; exact hg.vidsNodup,
   by rw [he]; exact hg.eidsNodup,
   by rw [he, hn]; exact hg.eidsLt,
   by rw [hv]; exact hg.vEdgesNodup,
   by rw [hv, he]; exact hg.fwd,
   by rw [he, hv]; exact hg.link,
   by rw [hh, he]; exact hg.halves⟩

theorem GInv_buildFaces {g : Graph} (hg : GInv g) : GInv (buildFaces g) :=
  @GInv_fields_only g (buildFaces g) rfl rfl rfl rfl hg

/-- Read positions of vertices that survive descent at their original
values. -/
theorem posOf_eq_of_descend {g2 g : Graph} (h2 : (g2.vertices.map GVertex.vid).Nodup)
    (hgnd : (g.vertices.map GVertex.vid).Nodup) (hd : VDescend g2 g)
    {c : ℕ} (hex : ∃ v ∈ g.vertices, v.vid = c) : posOf g c = posOf g2 c := by
  obtain ⟨v, hv, hvc⟩ := hex
  obtain ⟨v2, hv2, hvid, hpos⟩ := hd v hv
  subst hvc
  rw [posOf_eq_of_mem hgnd hv, ← hvid, posOf_eq_of_mem h2 hv2, hpos]

/-- Crossing freedom transports along edge shrinking and vertex
descent. -/
theorem NoCross_final {g2 g : Graph} (hg2 : GInv g2) (hnc : NoCross g2)
    (hg : GInv g) (hsub : ∀ e ∈ g.edges, e ∈ g2.edges) (hd : VDescend g2 g) :
    NoCross g := by
  intro e1 he1 e2 he2 hsh
  have h := hnc e1 (hsub e1 he1) e2 (hsub e2 he2) hsh
  have hp : ∀ c, (∃ v ∈ g.vertices, v.vid = c) → posOf g c = posOf g2 c :=
    fun c hex => posOf_eq_of_descend hg2.vidsNodup hg.vidsNodup hd hex
  obtain ⟨⟨w0, hw0, hw0v, _⟩, ⟨w1, hw1, hw1v, _⟩⟩ := hg.link e1 he1
  obtain ⟨⟨u0, hu0, hu0v, _⟩, ⟨u1, hu1, hu1v, _⟩⟩ := hg.link e2 he2
  rw [hp e1.v0 ⟨w0, hw0, hw0v⟩, hp e1.v1 ⟨w1, hw1, hw1v⟩,
    hp e2.v0 ⟨u0, hu0, hu0v⟩, hp e2.v1 ⟨u1, hu1, hu1v⟩]
  exact h

/-- The generated graph before face building: well-formed and
crossing-free. -/
theorem generateRandomGraph_props (n : ℕ) (rng : List ℚ) :
    GInv (generateRandomGraph n rng) ∧ NoCross (generateRandomGraph n rng) := by
  obtain ⟨hg2, hnc2, hd2⟩ := createEdges_inv (GInv_addRandom n rng)
    ((addRandomVertices_shape n emptyGraph rng).2.2.1)
    (addRandomVertices emptyGraph rng n).2
  have hg3 := GInv_sortAllCCW hg2
  obtain ⟨hg4, hsub4, hd4⟩ := smallAngleLoop_inv
    ((sortAllCCW (createEdges (addRandomVertices emptyGraph rng n).1
      (addRandomVertices emptyGraph rng n).2).1).edges.length + 1) hg3
  obtain ⟨hg5, hsub5, hd5⟩ := sparseLoop_inv
    ((smallAngleLoop
      ((sortAllCCW (createEdges (addRandomVertices emptyGraph rng n).1
        (addRandomVertices emptyGraph rng n).2).1).edges.length + 1)
      (sortAllCCW (createEdges (addRandomVertices emptyGraph rng n).1
        (addRandomVertices emptyGraph rng n).2).1)).vertices.length + 1) hg4
  refine ⟨hg5, ?_⟩
  refine NoCross_final hg2 hnc2 hg5 ?_ ?_
  · intro e he
    have h1 := hsub4 e (hsub5 e he)
    rw [sortAllCCW_edges] at h1
    exact h1
  · exact VDescend_trans (VDescend_trans (VDescend_sortAllCCW _) hd4) hd5

theorem randomizedGraph_def (n : ℕ) (rng : List ℚ) :
    randomizedGraph n rng = buildFaces (generateRandomGraph n rng) := rfl

theorem posOf_buildFaces (g : Graph) (c : ℕ) :
    posOf (buildFaces g) c = posOf g c := rfl

theorem GInv_randomizedGraph (n : ℕ) (rng : List ℚ) :
    GInv (randomizedGraph n rng) :=
  GInv_buildFaces (generateRandomGraph_props n rng).1

theorem NoCross_randomizedGraph (n : ℕ) (rng : List ℚ) :
    NoCross (randomizedGraph n rng) := by
  have h := (generateRandomGraph_props n rng).2
  intro e1 he1 e2 he2 hsh
  rw [randomizedGraph_def] at he1 he2 ⊢
  rw [buildFaces_edges] at he1 he2
  simp only [posOf_buildFaces]
  exact h e1 he1 e2 he2 hsh

/-- C2. For every graph produced by randomized generation (any vertex
count and any outcomes of the random source), no two distinct edges of
the resulting graph properly intersect except at a shared endpoint: any
pair of edges that shares no endpoint fails the segment-intersection
test on the edges' endpoint positions. -/
theorem randomized_no_crossings (n : ℕ) (rng : List ℚ) :
    ∀ e1 ∈ (randomizedGraph n rng).edges, ∀ e2 ∈ (randomizedGraph n rng).edges,
      sharesVtx e1 e2.v0 e2.v1 = false →
      lineSegmentIntersect (posOf (randomizedGraph n rng) e1.v0)
        (posOf (randomizedGraph n rng) e1.v1)
        (posOf (randomizedGraph n rng) e2.v0)
        (posOf (randomizedGraph n rng) e2.v1) = false :=
  NoCross_randomizedGraph n rng

set_option maxRecDepth 100000 in
theorem randomized_no_crossings_witness :
    (⟨1, 0, 3⟩ : GEdge) ∈ (randomizedGraph 4 squareRng).edges ∧
    (⟨2, 1, 2⟩ : GEdge) ∈ (randomizedGraph 4 squareRng).edges ∧
    sharesVtx ⟨1, 0, 3⟩ (GEdge.v0 ⟨2, 1, 2⟩) (GEdge.v1 ⟨2, 1, 2⟩) = false ∧
    lineSegmentIntersect (posOf (randomizedGraph 4 squareRng) 0)
      (posOf (randomizedGraph 4 squareRng) 3)
      (posOf (randomizedGraph 4 squareRng) 1)
      (posOf (randomizedGraph 4 squareRng) 2) = false := by
  have hE : (randomizedGraph 4 squareRng).edges =
      [⟨0, 0, 2⟩, ⟨1, 0, 3⟩, ⟨2, 1, 2⟩, ⟨3, 2, 3⟩, ⟨4, 0, 1⟩] := by
    rw [randomizedGraph_def, buildFaces_edges]
    with_unfolding_all rfl
  have h1 : (⟨1, 0, 3⟩ : GEdge) ∈ (randomizedGraph 4 squareRng).edges := by
    rw [hE]
    decide
  have h2 : (⟨2, 1, 2⟩ : GEdge) ∈ (randomizedGraph 4 squareRng).edges := by
    rw [hE]
    decide
  have h3 : sharesVtx ⟨1, 0, 3⟩ (GEdge.v0 ⟨2, 1, 2⟩) (GEdge.v1 ⟨2, 1, 2⟩) = false := by
    decide
  exact ⟨h1, h2, h3,
    randomized_no_crossings 4 squareRng ⟨1, 0, 3⟩ h1 ⟨2, 1, 2⟩ h2 h3⟩

/-! ### The half-edge partition produced by face extraction -/
/-- Fold an invariant through `foldl`, using membership of the folded
elements. -/
theorem foldl_preserve_mem {P : α → Prop} (f : α → β → α) :
    ∀ (l : List β), (∀ a, ∀ b ∈ l, P a → P (f a b)) →
      ∀ (a : α), P a → P (l.foldl f a) := by
  intro l
  induction l with
  | nil =>
    intro _ a ha
    exact ha
  | cons b rest ih =>
    intro hf a ha
    rw [List.foldl_cons]
    exact ih (fun a' b' hb' ha' => hf a' b' (List.mem_cons_of_mem b hb') ha') _
      (hf a b (List.mem_cons_self b rest) ha)

theorem FreshMaps_emptyGraph : FreshMaps emptyGraph := ⟨rfl, rfl, rfl⟩

theorem FreshMaps_admitEdge {g : Graph} (h : FreshMaps g) (p : ℕ × ℕ) :
    FreshMaps (admitEdge g p) := by
  unfold admitEdge
  split
  · exact h
  · exact h

theorem FreshMaps_smallAngleStep {vid : ℕ} {snap : List GEdge} {acc : Graph × Bool}
    (h : FreshMaps acc.1) (i : ℕ) : FreshMaps (smallAngleStep vid snap acc i).1 := by
  rcases smallAngleStep_cases vid snap acc i with heq | ⟨eR, _, heq⟩
  · rw [heq]; exact h
  · rw [heq]; exact h

theorem FreshMaps_smallAngleVertexStep {acc : Graph × Bool} (h : FreshMaps acc.1)
    (c : ℕ) : FreshMaps (smallAngleVertexStep acc c).1 := by
  unfold smallAngleVertexStep
  split
  · exact h
  · split
    · exact h
    · exact foldl_preserve_mem (P := fun s : Graph × Bool => FreshMaps s.1)
        _ _ (fun a _ _ ha => FreshMaps_smallAngleStep ha _) acc h

theorem FreshMaps_smallAnglePass {g : Graph} (h : FreshMaps g) :
    FreshMaps (smallAnglePass g).1 :=
  foldl_preserve_mem (P := fun s : Graph × Bool => FreshMaps s.1) _ _
    (fun a _ _ ha => FreshMaps_smallAngleVertexStep ha _) (g, false) h

theorem FreshMaps_smallAngleLoop : ∀ (fuel : ℕ) {g : Graph}, FreshMaps g →
    FreshMaps (smallAngleLoop fuel g) := by
  intro fuel
  induction fuel with
  | zero => intro g h; exact h
  | succ m ih =>
    intro g h
    unfold smallAngleLoop
    split
    · exact ih (FreshMaps_smallAnglePass h)
    · exact FreshMaps_smallAnglePass h

theorem FreshMaps_sparseScanStep {acc : Graph × List ℕ} (h : FreshMaps acc.1)
    (c : ℕ) : FreshMaps (sparseScanStep acc c).1 := by
  unfold sparseScanStep
  split
  · exact h
  · split
    · exact h
    · split
      · split
        · split
          · exact h
          · exact h
        · exact h
      · exact h

theorem FreshMaps_sparseScan {g : Graph} (h : FreshMaps g) :
    FreshMaps (sparseScan g).1 :=
  foldl_preserve_mem (P := fun s : Graph × List ℕ => FreshMaps s.1) _ _
    (fun a _ _ ha => FreshMaps_sparseScanStep ha _) (g, []) h

theorem FreshMaps_removeEdgeById {g : Graph} (h : FreshMaps g) (eid : ℕ) :
    FreshMaps (removeEdgeById g eid) := by
  unfold removeEdgeById
  split
  · exact h
  · exact h

theorem FreshMaps_removeVertexAndEdges {g : Graph} (h : FreshMaps g) (c : ℕ) :
    FreshMaps (removeVertexAndEdges g c) := by
  unfold removeVertexAndEdges
  split
  · exact h
  · exact foldl_preserve_mem (P := FreshMaps) _ _
      (fun a _ _ ha => FreshMaps_removeEdgeById ha _) g h

theorem FreshMaps_sparsePass {g : Graph} (h : FreshMaps g) :
    FreshMaps (sparsePass g).1 := by
  unfold sparsePass
  split
  · exact FreshMaps_sparseScan h
  · exact foldl_preserve_mem (P := FreshMaps) _ _
      (fun a _ _ ha => FreshMaps_removeVertexAndEdges ha _) _ (FreshMaps_sparseScan h)

theorem FreshMaps_sparseLoop : ∀ (fuel : ℕ) {g : Graph}, FreshMaps g →
    FreshMaps (sparseLoop fuel g) := by
  intro fuel
  induction fuel with
  | zero => intro g h; exact h
  | succ m ih =>
    intro g h
    unfold sparseLoop
    split
    · exact ih (FreshMaps_sparsePass h)
    · exact FreshMaps_sparsePass h

theorem FreshMaps_addRandom (n : ℕ) : ∀ (g : Graph) (rng : List ℚ),
    FreshMaps g → FreshMaps (addRandomVertices g rng n).1 := by
  induction n with
  | zero => intro g rng h; exact h
  | succ m ih =>
    intro g rng h
    unfold addRandomVertices
    exact ih _ _ h

theorem FreshMaps_generate (n : ℕ) (rng : List ℚ) :
    FreshMaps (generateRandomGraph n rng) := by
  apply FreshMaps_sparseLoop
  apply FreshMaps_smallAngleLoop
  have h1 := FreshMaps_addRandom n emptyGraph rng FreshMaps_emptyGraph
  have h2 : FreshMaps (createEdges (addRandomVertices emptyGraph rng n).1
      (addRandomVertices emptyGraph rng n).2).1 := by
    rw [createEdges_fst]
    exact foldl_preserve_mem (P := FreshMaps) _ _
      (fun a p _ ha => FreshMaps_admitEdge ha p) _ h1
  exact h2

theorem FreshMaps_loadEdgeStep {g : Graph} (h : FreshMaps g) (p : ℤ × ℤ) :
    FreshMaps (loadEdgeStep g p) := by
  unfold loadEdgeStep
  split
  · exact h
  · exact h

theorem FreshMaps_loadFromSerializedG (data : SerializedG) :
    FreshMaps (loadFromSerializedG emptyGraph data) :=
  foldl_preserve_mem (P := FreshMaps) _ _
    (fun a p _ ha => FreshMaps_loadEdgeStep ha p) _ ⟨rfl, rfl, rfl⟩

/-- The half-edge pair equation holds after loading any serialized
input (it tolerates self-loop entries, unlike the full invariant). -/
theorem halves_loadFromSerializedG (data : SerializedG) :
    (loadFromSerializedG emptyGraph data).halfEdges =
      (loadFromSerializedG emptyGraph data).edges.flatMap
        (fun e => [2 * e.eid, 2 * e.eid + 1]) := by
  have hstep : ∀ (g : Graph) (p : ℤ × ℤ),
      g.halfEdges = g.edges.flatMap (fun e => [2 * e.eid, 2 * e.eid + 1]) →
      (loadEdgeStep g p).halfEdges =
        (loadEdgeStep g p).edges.flatMap (fun e => [2 * e.eid, 2 * e.eid + 1]) := by
    intro g p hg
    unfold loadEdgeStep
    split
    · show g.halfEdges ++ [2 * g.nextEid, 2 * g.nextEid + 1] = _
      rw [registerEdge_edges, List.flatMap_append, hg]
      rfl
    · exact hg
  exact foldl_preserve_mem
    (P := fun g : Graph =>
      g.halfEdges = g.edges.flatMap (fun e => [2 * e.eid, 2 * e.eid + 1])) _ _
    (fun a p _ ha => hstep a p ha) _ rfl

/-- Every outgoing half-edge at a vertex is in the half-edge
collection. -/
theorem outgoingAt_mem_halfEdges {g : Graph}
    (hh : g.halfEdges = g.edges.flatMap (fun e => [2 * e.eid, 2 * e.eid + 1]))
    (v : GVertex) : ∀ x ∈ outgoingAt g v, x ∈ g.halfEdges := by
  intro x hx
  obtain ⟨eid, _, hsome⟩ := List.mem_filterMap.mp hx
  rw [Option.map_eq_some'] at hsome
  obtain ⟨e, hle, hfx⟩ := hsome
  rw [hh]
  refine List.mem_flatMap.mpr ⟨e, lookupEdge_mem hle, ?_⟩
  rw [← hfx]
  by_cases h0 : e.v0 = v.vid
  · rw [if_pos h0]; simp
  · rw [if_neg h0]; simp

/-- All `next` pointers installed by `linkHalfEdges` target members of
the half-edge collection. -/
theorem linkHalfEdges_nextMap_mem {g : Graph}
    (hh : g.halfEdges = g.edges.flatMap (fun e => [2 * e.eid, 2 * e.eid + 1]))
    (hbase : g.nextMap = fun _ => none) :
    ∀ h v, (linkHalfEdges g).nextMap h = some v → v ∈ g.halfEdges := by
  show ∀ h v, (g.vertices.foldl _ g.nextMap) h = some v → v ∈ g.halfEdges
  refine foldl_preserve_mem
    (P := fun nm : ℕ → Option ℕ => ∀ h v, nm h = some v → v ∈ g.halfEdges) _ _
    ?_ _ (by rw [hbase]; intro h v hv; cases hv)
  intro nm w _ hnm
  by_cases hd2 : (outgoingAt g w).length < 2
  · intro h v hv
    rw [if_pos hd2] at hv
    exact hnm h v hv
  · have hstep : ∀ (nm' : ℕ → Option ℕ),
        ∀ i ∈ List.range (outgoingAt g w).length,
        (∀ h v, nm' h = some v → v ∈ g.halfEdges) →
        ∀ h v, updateMap nm' (twinH ((outgoingAt g w).getD i 0))
          ((outgoingAt g w).getD
            ((i + (outgoingAt g w).length - 1) % (outgoingAt g w).length) 0) h =
          some v → v ∈ g.halfEdges := by
      intro nm' i hi hnm' h v hv
      unfold updateMap at hv
      by_cases hk : h = twinH ((outgoingAt g w).getD i 0)
      · rw [if_pos hk] at hv
        have hvp : v = (outgoingAt g w).getD
            ((i + (outgoingAt g w).length - 1) % (outgoingAt g w).length) 0 :=
          (Option.some.inj hv).symm
        rw [hvp]
        have hd : 0 < (outgoingAt g w).length := by omega
        exact outgoingAt_mem_halfEdges hh w _
          (getD_mem_of_lt (Nat.mod_lt _ hd) 0)
      · rw [if_neg hk] at hv
        exact hnm' h v hv
    intro h v hv
    rw [if_neg hd2] at hv
    exact foldl_preserve_mem
      (P := fun nm : ℕ → Option ℕ => ∀ h v, nm h = some v → v ∈ g.halfEdges) _ _
      hstep _ hnm h v hv

/-- Elements collected by the face walk: every one was unassigned when
the walk started, and is the walk's start or the target of a `next`
pointer. -/
theorem traceFace_mem (g : Graph) (fm : ℕ → Option ℕ) (start : ℕ) :
    ∀ (fuel : ℕ) (visited : List ℕ) (current : ℕ),
      ∀ x ∈ (traceFace g fm start fuel visited current).2,
        x ∈ visited ∨ (fm x = none ∧ (x = current ∨ ∃ y, g.nextMap y = some x)) := by
  intro fuel
  induction fuel with
  | zero =>
    intro visited current x hx
    exact Or.inl hx
  | succ m ih =>
    intro visited current x hx
    unfold traceFace at hx
    by_cases h1 : current ∈ visited
    · rw [if_pos h1] at hx
      exact Or.inl hx
    · rw [if_neg h1] at hx
      by_cases h2 : (fm current).isSome = true
      · rw [if_pos h2] at hx
        exact Or.inl hx
      · rw [if_neg h2] at hx
        have hfmnone : fm current = none := Option.not_isSome_iff_eq_none.mp h2
        cases hnx : g.nextMap current with
        | none =>
          rw [hnx] at hx
          rcases List.mem_append.mp hx with h | h
          · exact Or.inl h
          · simp only [List.mem_singleton] at h
            subst h
            exact Or.inr ⟨hfmnone, Or.inl rfl⟩
        | some nxt =>
          rw [hnx] at hx
          have hx' : x ∈ (if nxt = start then ((true : Bool), visited ++ [current])
              else traceFace g fm start m (visited ++ [current]) nxt).2 := hx
          by_cases h3 : nxt = start
          · rw [if_pos h3] at hx'
            rcases List.mem_append.mp hx' with h | h
            · exact Or.inl h
            · simp only [List.mem_singleton] at h
              subst h
              exact Or.inr ⟨hfmnone, Or.inl rfl⟩
          · rw [if_neg h3] at hx'
            rcases ih (visited ++ [current]) nxt x hx' with h | ⟨ha, hb⟩
            · rcases List.mem_append.mp h with h | h
              · exact Or.inl h
              · simp only [List.mem_singleton] at h
                subst h
                exact Or.inr ⟨hfmnone, Or.inl rfl⟩
            · rcases hb with rfl | hb
              · exact Or.inr ⟨ha, Or.inr ⟨current, hnx⟩⟩
              · exact Or.inr ⟨ha, Or.inr hb⟩

theorem buildFacesStep_inv {g1 : Graph}
    (hclosure : ∀ h v, g1.nextMap h = some v → v ∈ g1.halfEdges)
    {acc : (ℕ → Option ℕ) × List GFace} (hacc : PartInv g1 acc) {h : ℕ}
    (hh : h ∈ g1.halfEdges) : PartInv g1 (buildFacesStep g1 acc h) := by
  obtain ⟨p1, p2, p3⟩ := hacc
  unfold buildFacesStep
  by_cases h1 : (acc.1 h).isSome = true
  · rw [if_pos h1]
    exact ⟨p1, p2, p3⟩
  · rw [if_neg h1]
    by_cases h2 : (traceFace g1 acc.1 h (g1.halfEdges.length + 1) [] h).1 = true
    · rw [if_pos h2]
      by_cases h3 : 0 < computeFaceArea g1
          (traceFace g1 acc.1 h (g1.halfEdges.length + 1) [] h).2
      · rw [if_pos h3]
        have htmem : ∀ x ∈ (traceFace g1 acc.1 h (g1.halfEdges.length + 1) [] h).2,
            acc.1 x = none ∧ x ∈ g1.halfEdges := by
          intro x hx
          rcases traceFace_mem g1 acc.1 h _ [] h x hx with hvis | ⟨hnone, hor⟩
          · cases hvis
          · refine ⟨hnone, ?_⟩
            rcases hor with rfl | ⟨y, hy⟩
            · exact hh
            · exact hclosure y x hy
        refine ⟨?_, ?_, ?_⟩
        · intro f hf x hx
          rcases List.mem_append.mp hf with hf | hf
          · exact p1 f hf x hx
          · simp only [List.mem_singleton] at hf
            subst hf
            exact (htmem x hx).2
        · intro i x hsome
          simp only [stampFace] at hsome
          simp only [List.length_append, List.length_singleton]
          by_cases hx : x ∈ (traceFace g1 acc.1 h (g1.halfEdges.length + 1) [] h).2
          · rw [if_pos hx] at hsome
            have : acc.2.length = i := Option.some.inj hsome
            omega
          · rw [if_neg hx] at hsome
            have := p2 i x hsome
            omega
        · intro i x hi
          simp only [List.length_append, List.length_singleton] at hi
          by_cases hilen : i < acc.2.length
          · rw [List.getD_append _ _ _ _ hilen]
            constructor
            · intro hxf
              have hold := (p3 i x hilen).mp hxf
              have hxnot : x ∉ (traceFace g1 acc.1 h (g1.halfEdges.length + 1) [] h).2 := by
                intro hx
                rw [(htmem x hx).1] at hold
                cases hold
              simp only [stampFace]
              rw [if_neg hxnot]
              exact hold
            · intro hnew
              simp only [stampFace] at hnew
              by_cases hx : x ∈ (traceFace g1 acc.1 h (g1.halfEdges.length + 1) [] h).2
              · rw [if_pos hx] at hnew
                have : acc.2.length = i := Option.some.inj hnew
                omega
              · rw [if_neg hx] at hnew
                exact (p3 i x hilen).mpr hnew
          · have hieq : i = acc.2.length := by omega
            subst hieq
            rw [List.getD_append_right _ _ _ _ (Nat.le_refl _)]
            simp only [Nat.sub_self]
            constructor
            · intro hxf
              have hxf' : x ∈ (traceFace g1 acc.1 h (g1.halfEdges.length + 1) [] h).2 := hxf
              simp only [stampFace]
              rw [if_pos hxf']
            · intro hnew
              simp only [stampFace] at hnew
              by_cases hx : x ∈ (traceFace g1 acc.1 h (g1.halfEdges.length + 1) [] h).2
              · exact hx
              · rw [if_neg hx] at hnew
                have := p2 _ x hnew
                omega
      · rw [if_neg h3]
        exact ⟨p1, p2, p3⟩
    · rw [if_neg h2]
      exact ⟨p1, p2, p3⟩

/-- Positive signed area of every accepted face, as a scan invariant. -/
theorem buildFacesStep_area {g1 : Graph}
    {acc : (ℕ → Option ℕ) × List GFace}
    (hacc : ∀ f ∈ acc.2, 0 < computeFaceArea g1 f.halfEdges) (h : ℕ) :
    ∀ f ∈ (buildFacesStep g1 acc h).2, 0 < computeFaceArea g1 f.halfEdges := by
  unfold buildFacesStep
  by_cases h1 : (acc.1 h).isSome = true
  · rw [if_pos h1]
    exact hacc
  · rw [if_neg h1]
    by_cases h2 : (traceFace g1 acc.1 h (g1.halfEdges.length + 1) [] h).1 = true
    · rw [if_pos h2]
      by_cases h3 : 0 < computeFaceArea g1
          (traceFace g1 acc.1 h (g1.halfEdges.length + 1) [] h).2
      · rw [if_pos h3]
        intro f hf
        rcases List.mem_append.mp hf with hf | hf
        · exact hacc f hf
        · simp only [List.mem_singleton] at hf
          subst hf
          exact h3
      · rw [if_neg h3]
        exact hacc
    · rw [if_neg h2]
      exact hacc

/-- `buildFaces` on a graph with fresh auxiliary fields and the
half-edge pair equation produces a partition with positive-area
faces. -/
theorem buildFaces_main {g : Graph}
    (hh : g.halfEdges = g.edges.flatMap (fun e => [2 * e.eid, 2 * e.eid + 1]))
    (hfresh : FreshMaps g) :
    PartInv (linkHalfEdges g) ((buildFaces g).faceMap, (buildFaces g).faces) ∧
    (∀ f ∈ (buildFaces g).faces, 0 < computeFaceArea (linkHalfEdges g) f.halfEdges) := by
  obtain ⟨hnm, hfm, hfaces⟩ := hfresh
  have hclosure : ∀ h v, (linkHalfEdges g).nextMap h = some v →
      v ∈ (linkHalfEdges g).halfEdges :=
    linkHalfEdges_nextMap_mem hh hnm
  have hbase : PartInv (linkHalfEdges g) ((linkHalfEdges g).faceMap, (linkHalfEdges g).faces) := by
    show PartInv (linkHalfEdges g) (g.faceMap, g.faces)
    rw [hfm, hfaces]
    exact ⟨fun f hf => absurd hf (List.not_mem_nil f),
      fun i x hx => absurd hx (by simp),
      fun i x hi => absurd hi (by simp)⟩
  have hbasea : ∀ f ∈ (linkHalfEdges g).faces,
      0 < computeFaceArea (linkHalfEdges g) f.halfEdges := by
    show ∀ f ∈ g.faces, _
    rw [hfaces]
    intro f hf
    cases hf
  constructor
  · exact foldl_preserve_mem (P := PartInv (linkHalfEdges g)) _ _
      (fun a x hx ha => buildFacesStep_inv hclosure ha hx) _ hbase
  · exact foldl_preserve_mem
      (P := fun acc : (ℕ → Option ℕ) × List GFace =>
        ∀ f ∈ acc.2, 0 < computeFaceArea (linkHalfEdges g) f.halfEdges) _ _
      (fun a x _ ha => buildFacesStep_area ha x) _ hbasea

theorem facePartitionOf_of_PartInv {base : Graph}
    (h : PartInv (linkHalfEdges base)
      ((buildFaces base).faceMap, (buildFaces base).faces)) :
    facePartitionOf (buildFaces base) := by
  obtain ⟨p1, p2, p3⟩ := h
  refine ⟨p1, p2, p3, ?_⟩
  intro x i j hi hj hxi hxj
  have h1 := (p3 i x hi).mp hxi
  have h2 := (p3 j x hj).mp hxj
  rw [h1] at h2
  exact Option.some.inj h2

/-- C4. After face extraction, every half-edge belongs to at most one
face (no half-edge appears in two different faces' boundary lists), and
the accepted faces' half-edges together with the unassigned half-edges
exactly partition the half-edge collection: membership in face `i` is
equivalent to `faceMap` assignment to `i`, every assignment targets an
existing face, and every face boundary lies inside the collection.
Holds for both construction paths (deserialization and randomized
generation). -/
theorem halfEdge_partition :
    (∀ (data : SerializedG), facePartitionOf (fromSerializedG data)) ∧
    (∀ (n : ℕ) (rng : List ℚ), facePartitionOf (randomizedGraph n rng)) := by
  constructor
  · intro data
    exact facePartitionOf_of_PartInv
      (buildFaces_main (halves_loadFromSerializedG data)
        (FreshMaps_loadFromSerializedG data)).1
  · intro n rng
    exact facePartitionOf_of_PartInv
      (buildFaces_main (generateRandomGraph_props n rng).1.halves
        (FreshMaps_generate n rng)).1

theorem fromSerializedG_def (data : SerializedG) :
    fromSerializedG data = buildFaces (loadFromSerializedG emptyGraph data) := rfl

set_option maxRecDepth 100000 in
set_option maxHeartbeats 2000000 in
theorem halfEdge_partition_witness :
    0 < (fromSerializedG sqData).faces.length ∧
    ((0 : ℕ) ∈ ((fromSerializedG sqData).faces.getD 0 ⟨[]⟩).halfEdges ↔
      (fromSerializedG sqData).faceMap 0 = some 0) := by
  have h0 : 0 < (fromSerializedG sqData).faces.length := by
    with_unfolding_all decide
  exact ⟨h0, (halfEdge_partition.1 sqData).2.2.1 0 0 h0⟩

theorem computeFaceArea_buildFaces (g : Graph) (hs : List ℕ) :
    computeFaceArea (buildFaces g) hs = computeFaceArea (linkHalfEdges g) hs := rfl

theorem mem_faces_getD {l : List GFace} {f : GFace} (h : f ∈ l) :
    ∃ i, i < l.length ∧ l.getD i ⟨[]⟩ = f := by
  obtain ⟨⟨i, hi⟩, hget⟩ := List.mem_iff_get.mp h
  refine ⟨i, hi, ?_⟩
  rw [List.getD_eq_getElem _ _ hi]
  simpa [List.get_eq_getElem] using hget

/-- C5. Every face accepted during face extraction has strictly
positive signed (shoelace) area, for both construction paths; and a
half-edge left unassigned by the scan belongs to no accepted face (the
rejected cycles' half-edges stay out of every face). -/
theorem faces_positive_area :
    (∀ (data : SerializedG), ∀ f ∈ (fromSerializedG data).faces,
      0 < computeFaceArea (fromSerializedG data) f.halfEdges) ∧
    (∀ (n : ℕ) (rng : List ℚ), ∀ f ∈ (randomizedGraph n rng).faces,
      0 < computeFaceArea (randomizedGraph n rng) f.halfEdges) ∧
    (∀ (data : SerializedG) (x : ℕ), (fromSerializedG data).faceMap x = none →
      ∀ f ∈ (fromSerializedG data).faces, x ∉ f.halfEdges) ∧
    (∀ (n : ℕ) (rng : List ℚ) (x : ℕ), (randomizedGraph n rng).faceMap x = none →
      ∀ f ∈ (randomizedGraph n rng).faces, x ∉ f.halfEdges) := by
  have hnone : ∀ (base : Graph),
      PartInv (linkHalfEdges base) ((buildFaces base).faceMap, (buildFaces base).faces) →
      ∀ x, (buildFaces base).faceMap x = none →
      ∀ f ∈ (buildFaces base).faces, x ∉ f.halfEdges := by
    intro base hp x hxnone f hf hxf
    obtain ⟨i, hi, hgd⟩ := mem_faces_getD hf
    have h2 : (buildFaces base).faceMap x = some i :=
      (hp.2.2 i x hi).mp (by rw [hgd]; exact hxf)
    rw [hxnone] at h2
    cases h2
  refine ⟨?_, ?_, ?_, ?_⟩
  · intro data f hf
    rw [fromSerializedG_def, computeFaceArea_buildFaces]
    exact (buildFaces_main (halves_loadFromSerializedG data)
      (FreshMaps_loadFromSerializedG data)).2 f hf
  · intro n rng f hf
    rw [randomizedGraph_def, computeFaceArea_buildFaces]
    exact (buildFaces_main (generateRandomGraph_props n rng).1.halves
      (FreshMaps_generate n rng)).2 f hf
  · intro data x hx
    exact hnone _ (buildFaces_main (halves_loadFromSerializedG data)
      (FreshMaps_loadFromSerializedG data)).1 x hx
  · intro n rng x hx
    exact hnone _ (buildFaces_main (generateRandomGraph_props n rng).1.halves
      (FreshMaps_generate n rng)).1 x hx

set_option maxRecDepth 100000 in
set_option maxHeartbeats 2000000 in
theorem faces_positive_area_witness :
    (⟨[0, 2, 4, 6]⟩ : GFace) ∈ (fromSerializedG sqData).faces ∧
    0 < computeFaceArea (fromSerializedG sqData) (GFace.halfEdges ⟨[0, 2, 4, 6]⟩) := by
  have hm : (⟨[0, 2, 4, 6]⟩ : GFace) ∈ (fromSerializedG sqData).faces := by
    with_unfolding_all decide
  exact ⟨hm, faces_positive_area.1 sqData ⟨[0, 2, 4, 6]⟩ hm⟩

theorem foldl_append_eq : ∀ (ls : List (List ℕ)) (a : List ℕ),
    ls.foldl (fun x y => x ++ y) a = a ++ flattenL ls := by
  intro ls
  induction ls with
  | nil => intro a; simp [flattenL]
  | cons l rest ih =>
    intro a
    rw [List.foldl_cons, ih]
    show a ++ l ++ flattenL rest = a ++ flattenL (l :: rest)
    have h2 : flattenL (l :: rest) = l ++ flattenL rest := by
      show List.foldl _ ([] ++ l) rest = _
      rw [ih]
      simp
    rw [h2, List.append_assoc]

theorem flattenL_cons (l : List ℕ) (ls : List (List ℕ)) :
    flattenL (l :: ls) = l ++ flattenL ls := by
  show List.foldl _ ([] ++ l) ls = _
  rw [foldl_append_eq]
  simp

theorem mem_flattenL_iff : ∀ (ls : List (List ℕ)) (x : ℕ),
    x ∈ flattenL ls ↔ ∃ j, j < ls.length ∧ x ∈ ls.getD j [] := by
  intro ls
  induction ls with
  | nil =>
    intro x
    constructor
    · intro h; cases h
    · rintro ⟨j, hj, _⟩; simp at hj
  | cons l rest ih =>
    intro x
    rw [flattenL_cons]
    constructor
    · intro h
      rcases List.mem_append.mp h with h | h
      · exact ⟨0, by simp, h⟩
      · obtain ⟨j, hj, hx⟩ := (ih x).mp h
        exact ⟨j + 1, by simpa using hj, hx⟩
    · rintro ⟨j, hj, hx⟩
      cases j with
      | zero => exact List.mem_append_left _ hx
      | succ m =>
        refine List.mem_append_right _ ((ih x).mpr ⟨m, ?_, hx⟩)
        simpa using hj

theorem getD_take_layers {L : List (List ℕ)} {j m : ℕ} (h : j < m) :
    (L.take m).getD j [] = L.getD j [] := by
  by_cases hj : j < L.length
  · rw [List.getD_eq_getElem _ _ (by rw [List.length_take]; omega),
      List.getD_eq_getElem _ _ hj]
    exact List.getElem_take _
  · rw [List.getD_eq_default _ _ (by rw [List.length_take]; omega),
      List.getD_eq_default _ _ (by omega)]

/-- Membership in the inner neighbor-collection fold of
`nextFrontierOf`. -/
theorem nf_inner_mem (g : Graph) (visited : List ℕ) :
    ∀ (nbs nf : List ℕ) (x : ℕ),
      x ∈ nbs.foldl (fun nf nb =>
        if nb ∈ visited then nf else if nb ∈ nf then nf else nf ++ [nb]) nf ↔
      (x ∈ nf ∨ (x ∉ visited ∧ x ∈ nbs)) := by
  intro nbs
  induction nbs with
  | nil =>
    intro nf x
    simp
  | cons nb rest ih =>
    intro nf x
    rw [List.foldl_cons]
    by_cases h1 : nb ∈ visited
    · rw [if_pos h1, ih]
      constructor
      · rintro (h | ⟨h2, h3⟩)
        · exact Or.inl h
        · exact Or.inr ⟨h2, List.mem_cons_of_mem nb h3⟩
      · rintro (h | ⟨h2, h3⟩)
        · exact Or.inl h
        · rcases List.mem_cons.mp h3 with rfl | h3
          · exact absurd h1 h2
          · exact Or.inr ⟨h2, h3⟩
    · rw [if_neg h1]
      by_cases h2 : nb ∈ nf
      · rw [if_pos h2, ih]
        constructor
        · rintro (h | ⟨h3, h4⟩)
          · exact Or.inl h
          · exact Or.inr ⟨h3, List.mem_cons_of_mem nb h4⟩
        · rintro (h | ⟨h3, h4⟩)
          · exact Or.inl h
          · rcases List.mem_cons.mp h4 with rfl | h4
            · exact Or.inl h2
            · exact Or.inr ⟨h3, h4⟩
      · rw [if_neg h2, ih]
        constructor
        · rintro (h | ⟨h3, h4⟩)
          · rcases List.mem_append.mp h with h | h
            · exact Or.inl h
            · simp only [List.mem_singleton] at h
              subst h
              exact Or.inr ⟨h1, List.mem_cons_self _ _⟩
          · exact Or.inr ⟨h3, List.mem_cons_of_mem nb h4⟩
        · rintro (h | ⟨h3, h4⟩)
          · exact Or.inl (List.mem_append_left _ h)
          · rcases List.mem_cons.mp h4 with rfl | h4
            · exact Or.inl (List.mem_append_right _ (by simp))
            · exact Or.inr ⟨h3, h4⟩

theorem nf_inner_nodup (g : Graph) (visited : List ℕ) :
    ∀ (nbs nf : List ℕ), nf.Nodup →
      (nbs.foldl (fun nf nb =>
        if nb ∈ visited then nf else if nb ∈ nf then nf else nf ++ [nb]) nf).Nodup := by
  intro nbs
  induction nbs with
  | nil => intro nf h; exact h
  | cons nb rest ih =>
    intro nf h
    rw [List.foldl_cons]
    by_cases h1 : nb ∈ visited
    · rw [if_pos h1]; exact ih nf h
    · rw [if_neg h1]
      by_cases h2 : nb ∈ nf
      · rw [if_pos h2]; exact ih nf h
      · rw [if_neg h2]
        refine ih _ (List.Nodup.append h (List.nodup_singleton nb) ?_)
        rw [List.disjoint_singleton]
        exact h2

theorem nf_outer_mem (g : Graph) (visited : List ℕ) :
    ∀ (fs nf0 : List ℕ) (x : ℕ),
      x ∈ fs.foldl (fun nf f =>
        (neighboringFaces g f).foldl (fun nf nb =>
          if nb ∈ visited then nf else if nb ∈ nf then nf else nf ++ [nb]) nf) nf0 ↔
      (x ∈ nf0 ∨ (x ∉ visited ∧ ∃ f ∈ fs, x ∈ neighboringFaces g f)) := by
  intro fs
  induction fs with
  | nil =>
    intro nf0 x
    simp
  | cons f rest ih =>
    intro nf0 x
    rw [List.foldl_cons, ih, nf_inner_mem g visited]
    constructor
    · rintro ((h | ⟨h1, h2⟩) | ⟨h1, f', hf', h2⟩)
      · exact Or.inl h
      · exact Or.inr ⟨h1, f, List.mem_cons_self f rest, h2⟩
      · exact Or.inr ⟨h1, f', List.mem_cons_of_mem f hf', h2⟩
    · rintro (h | ⟨h1, f', hf', h2⟩)
      · exact Or.inl (Or.inl h)
      · rcases List.mem_cons.mp hf' with rfl | hf'
        · exact Or.inl (Or.inr ⟨h1, h2⟩)
        · exact Or.inr ⟨h1, f', hf', h2⟩

theorem nextFrontierOf_mem {g : Graph} {visited frontier : List ℕ} {x : ℕ} :
    x ∈ nextFrontierOf g visited frontier ↔
      x ∉ visited ∧ ∃ f ∈ frontier, x ∈ neighboringFaces g f := by
  unfold nextFrontierOf
  rw [nf_outer_mem]
  simp

theorem nextFrontierOf_nodup (g : Graph) (visited frontier : List ℕ) :
    (nextFrontierOf g visited frontier).Nodup := by
  unfold nextFrontierOf
  suffices h : ∀ (fs nf : List ℕ), nf.Nodup →
      (fs.foldl (fun nf f =>
        (neighboringFaces g f).foldl (fun nf nb =>
          if nb ∈ visited then nf else if nb ∈ nf then nf else nf ++ [nb]) nf) nf).Nodup by
    exact h frontier [] List.nodup_nil
  intro fs
  induction fs with
  | nil => intro nf h; exact h
  | cons f rest ih =>
    intro nf h
    rw [List.foldl_cons]
    exact ih _ (nf_inner_nodup g visited _ _ h)

/-- Every collected neighbor is the face assignment of some half-edge's
twin. -/
theorem neighboringFaces_target {g : Graph} {fi : ℕ} :
    ∀ x ∈ neighboringFaces g fi, ∃ y, g.faceMap y = some x := by
  unfold neighboringFaces
  suffices hstep : ∀ (hs : List ℕ) (acc : List ℕ),
      (∀ x ∈ acc, ∃ y, g.faceMap y = some x) →
      ∀ x ∈ hs.foldl (fun acc h =>
        if g.faceMap h ≠ some fi then acc
        else
          match g.faceMap (twinH h) with
          | some j => if j = fi then acc else if j ∈ acc then acc else acc ++ [j]
          | none => acc) acc,
        ∃ y, g.faceMap y = some x by
    exact fun x hx => hstep _ [] (fun x hx => absurd hx (List.not_mem_nil x)) x hx
  intro hs
  induction hs with
  | nil => intro acc hacc x hx; exact hacc x hx
  | cons h rest ih =>
    intro acc hacc x hx
    rw [List.foldl_cons] at hx
    refine ih _ ?_ x hx
    intro z hz
    by_cases h1 : g.faceMap h ≠ some fi
    · rw [if_pos h1] at hz
      exact hacc z hz
    · rw [if_neg h1] at hz
      cases h2 : g.faceMap (twinH h) with
      | none =>
        rw [h2] at hz
        exact hacc z hz
      | some j =>
        rw [h2] at hz
        have hz' : z ∈ (if j = fi then acc else if j ∈ acc then acc
            else acc ++ [j]) := hz
        by_cases h3 : j = fi
        · rw [if_pos h3] at hz'
          exact hacc z hz'
        · rw [if_neg h3] at hz'
          by_cases h4 : j ∈ acc
          · rw [if_pos h4] at hz'
            exact hacc z hz'
          · rw [if_neg h4] at hz'
            rcases List.mem_append.mp hz' with hz'' | hz''
            · exact hacc z hz''
            · simp only [List.mem_singleton] at hz''
              subst hz''
              exact ⟨twinH h, h2⟩

theorem shellAux_succ (g : Graph) (m : ℕ) (v fr : List ℕ) :
    shellAux g (m + 1) v fr =
      if fr = [] then []
      else fr :: shellAux g m (v ++ fr) (nextFrontierOf g (v ++ fr) fr) := rfl

theorem shellAux_nil_of_eq {g : Graph} {m : ℕ} {v fr : List ℕ}
    (h : shellAux g (m + 1) v fr = []) : fr = [] := by
  rw [shellAux_succ] at h
  by_cases hfr : fr = []
  · exact hfr
  · rw [if_neg hfr] at h
    exact absurd h (List.cons_ne_nil _ _)

/-- The BFS loop satisfies its invariant at every fuel level. -/
theorem shellAux_spec (g : Graph) : ∀ (fuel : ℕ) (visited frontier : List ℕ),
    frontier.Nodup → (∀ x ∈ frontier, x ∉ visited) →
    ShellSpec g fuel visited frontier (shellAux g fuel visited frontier) := by
  intro fuel
  induction fuel with
  | zero =>
    intro visited frontier hnd hdis
    show ShellSpec g 0 visited frontier []
    unfold ShellSpec
    refine ⟨?_, ?_, ?_, ?_, ?_, ?_, ?_, ?_, ?_, ?_, ?_⟩
    · intro _ h0
      exact absurd h0 (by omega)
    · intro k hk
      simp at hk
    · exact List.nodup_nil
    · intro x hx
      simp [flattenL] at hx
    · intro x hx
      simp [flattenL] at hx
    · intro l hl
      cases hl
    · exact Nat.le_refl _
    · intro k hk
      simp at hk
    · intro k l hkl hl
      simp at hl
    · intro k hk
      simp at hk
    · intro _
      exact Or.inl rfl
  | succ m ih =>
    intro visited frontier hnd hdis
    by_cases hfr : frontier = []
    · rw [shellAux_succ, if_pos hfr]
      unfold ShellSpec
      refine ⟨?_, ?_, ?_, ?_, ?_, ?_, ?_, ?_, ?_, ?_, ?_⟩
      · intro h _
        exact absurd hfr h
      · intro k hk
        simp at hk
      · exact List.nodup_nil
      · intro x hx
        simp [flattenL] at hx
      · intro x hx
        simp [flattenL] at hx
      · intro l hl
        cases hl
      · exact Nat.le_refl _
      · intro k hk
        simp at hk
      · intro k l hkl hl
        simp at hl
      · intro k hk
        simp at hk
      · intro _
        exact Or.inl rfl
    · have hvis' : ∀ x ∈ nextFrontierOf g (visited ++ frontier) frontier,
          x ∉ visited ++ frontier := fun x hx => (nextFrontierOf_mem.mp hx).1
      have hnd' := nextFrontierOf_nodup g (visited ++ frontier) frontier
      have hstep := ih (visited ++ frontier)
        (nextFrontierOf g (visited ++ frontier) frontier) hnd' hvis'
      rw [shellAux_succ, if_neg hfr]
      revert hstep
      generalize hGL : shellAux g m (visited ++ frontier)
        (nextFrontierOf g (visited ++ frontier) frontier) = L'
      intro hstep
      unfold ShellSpec at hstep ⊢
      obtain ⟨i1, i2, i3, i4, i5, i6, i7, i8, i9, i10, i11⟩ := hstep
      have hflat : flattenL (frontier :: L') = frontier ++ flattenL L' :=
        flattenL_cons _ _
      refine ⟨?_, ?_, ?_, ?_, ?_, ?_, ?_, ?_, ?_, ?_, ?_⟩
      · intro _ _
        exact ⟨rfl, by simp⟩
      · intro k hk
        cases k with
        | zero =>
          have h0 : 0 < L'.length := by
            simp only [List.length_cons] at hk
            omega
          have hL'ne : L' ≠ [] := by
            intro hc
            rw [hc] at h0
            simp at h0
          have hm : 0 < m := by
            by_contra hm0
            have hmz : m = 0 := by omega
            subst hmz
            exact hL'ne (by rw [← hGL]; rfl)
          have hnfne : nextFrontierOf g (visited ++ frontier) frontier ≠ [] := by
            intro hc
            obtain ⟨m', rfl⟩ : ∃ m', m = m' + 1 := ⟨m - 1, by omega⟩
            apply hL'ne
            rw [← hGL, hc, shellAux_succ, if_pos rfl]
          obtain ⟨hhead, _⟩ := i1 hnfne hm
          show L'.getD 0 [] = _
          rw [hhead]
          have hA : visited ++ flattenL ((frontier :: L').take (0 + 1)) =
              visited ++ frontier := by
            rw [show (frontier :: L').take (0 + 1) = [frontier] from rfl, flattenL_cons]
            simp [flattenL]
          have hB : (frontier :: L').getD 0 [] = frontier := rfl
          rw [hA, hB]
        | succ k' =>
          have hk' : k' + 1 < L'.length := by
            simp only [List.length_cons] at hk
            omega
          show L'.getD (k' + 1) [] = _
          rw [i2 k' hk']
          have hA : visited ++ flattenL ((frontier :: L').take (k' + 1 + 1)) =
              (visited ++ frontier) ++ flattenL (L'.take (k' + 1)) := by
            rw [List.take_succ_cons, flattenL_cons, List.append_assoc]
          have hB : (frontier :: L').getD (k' + 1) [] = L'.getD k' [] := rfl
          rw [hA, hB]
      · rw [hflat]
        refine List.Nodup.append hnd i3 ?_
        rw [List.disjoint_left]
        intro x hx hx'
        exact i4 x hx' (List.mem_append_right visited hx)
      · rw [hflat]
        intro x hx
        rcases List.mem_append.mp hx with h | h
        · exact hdis x h
        · intro hc
          exact i4 x h (List.mem_append_left frontier hc)
      · rw [hflat]
        intro x hx
        rcases List.mem_append.mp hx with h | h
        · exact Or.inl h
        · rcases i5 x h with h2 | h2
          · obtain ⟨_, f, _, hnb⟩ := nextFrontierOf_mem.mp h2
            exact Or.inr (neighboringFaces_target x hnb)
          · exact Or.inr h2
      · intro l hl
        rcases List.mem_cons.mp hl with rfl | hl
        · exact hfr
        · exact i6 l hl
      · rw [hflat, List.length_append, List.length_cons]
        have hfl : 0 < frontier.length := List.length_pos.mpr hfr
        omega
      · intro k hk x hx
        rw [hflat]
        cases k with
        | zero => exact List.mem_append_left _ hx
        | succ k' =>
          refine List.mem_append_right _ (i8 k' ?_ x hx)
          simp only [List.length_cons] at hk
          omega
      · intro k l hkl hl x hx
        cases l with
        | zero => omega
        | succ l' =>
          cases k with
          | zero =>
            intro hc
            have hmem := i8 l' (by simp only [List.length_cons] at hl; omega) x hc
            exact i4 x hmem (List.mem_append_right visited hx)
          | succ k' =>
            exact i9 k' l' (by omega) (by simp only [List.length_cons] at hl; omega) x hx
      · intro k hk
        cases k with
        | zero => exact hnd
        | succ k' =>
          exact i10 k' (by simp only [List.length_cons] at hk; omega)
      · intro hlen
        right
        by_cases hL'0 : L' = []
        · subst hL'0
          obtain ⟨m', rfl⟩ : ∃ m', m = m' + 1 :=
            ⟨m - 1, by simp only [List.length_cons] at hlen; omega⟩
          exact shellAux_nil_of_eq hGL
        · rcases i11 (by simp only [List.length_cons] at hlen; omega) with hL'nil | hend
          · exact absurd hL'nil hL'0
          · have hlpos : 0 < L'.length := List.length_pos.mpr hL'0
            rw [show (frontier :: L').length - 1 = (L'.length - 1) + 1 from by
                simp only [List.length_cons]; omega,
              show (frontier :: L').getD ((L'.length - 1) + 1) [] =
                L'.getD (L'.length - 1) [] from rfl,
              hflat, ← List.append_assoc]
            exact hend

theorem mem_flattenL_take (L : List (List ℕ)) (k : ℕ) (x : ℕ) :
    x ∈ flattenL (L.take (k + 1)) ↔ ∃ j, j ≤ k ∧ x ∈ L.getD j [] := by
  rw [mem_flattenL_iff]
  constructor
  · rintro ⟨j, hj, hx⟩
    rw [List.length_take] at hj
    rw [getD_take_layers (by omega)] at hx
    exact ⟨j, by omega, hx⟩
  · rintro ⟨j, hj, hx⟩
    have hjL : j < L.length := by
      by_contra hc
      rw [List.getD_eq_default _ _ (by omega)] at hx
      cases hx
    refine ⟨j, ?_, ?_⟩
    · rw [List.length_take]
      omega
    · rw [getD_take_layers (by omega)]
      exact hx

/-- The BFS contract holds whenever face assignments target existing
faces (true of every built graph). -/
theorem shellSpecOf_of_range {g : Graph}
    (hrange : ∀ i x, g.faceMap x = some i → i < g.faces.length)
    {fi : ℕ} (hfi : fi < g.faces.length) : shellSpecOf g fi := by
  have hspec := shellAux_spec g (g.faces.length + 1) [] [fi]
    (List.nodup_singleton fi) (fun x _ => List.not_mem_nil x)
  unfold ShellSpec at hspec
  obtain ⟨i1, i2, i3, i4, i5, i6, i7, i8, i9, i10, i11⟩ := hspec
  have hsub : ∀ x ∈ flattenL (shellAux g (g.faces.length + 1) [] [fi]),
      x ∈ List.range g.faces.length := by
    intro x hx
    rw [List.mem_range]
    rcases i5 x hx with h | ⟨y, hy⟩
    · simp only [List.mem_singleton] at h
      exact h ▸ hfi
    · exact hrange x y hy
  have hlen : (shellAux g (g.faces.length + 1) [] [fi]).length <
      g.faces.length + 1 := by
    have hsp := List.subperm_of_subset i3 hsub
    have h1 := hsp.length_le
    rw [List.length_range] at h1
    omega
  have s1 : (shellAux g (g.faces.length + 1) [] [fi]).getD 0 [] = [fi] :=
    (i1 (List.cons_ne_nil fi []) (by omega)).1
  have s2 : ∀ k x, k < (shellAux g (g.faces.length + 1) [] [fi]).length →
      ∀ l, l < (shellAux g (g.faces.length + 1) [] [fi]).length →
      x ∈ (shellAux g (g.faces.length + 1) [] [fi]).getD k [] →
      x ∈ (shellAux g (g.faces.length + 1) [] [fi]).getD l [] → k = l := by
    intro k x hk l hl hxk hxl
    rcases Nat.lt_trichotomy k l with h | h | h
    · exact absurd hxl (i9 k l h hl x hxk)
    · exact h
    · exact absurd hxk (i9 l k h hk x hxl)
  have s4 : ∀ k x, k + 1 < (shellAux g (g.faces.length + 1) [] [fi]).length →
      (x ∈ (shellAux g (g.faces.length + 1) [] [fi]).getD (k + 1) [] ↔
        ((∃ y ∈ (shellAux g (g.faces.length + 1) [] [fi]).getD k [],
            x ∈ neighboringFaces g y) ∧
          ∀ j, j ≤ k → x ∉ (shellAux g (g.faces.length + 1) [] [fi]).getD j [])) := by
    intro k x hk
    rw [i2 k hk, nextFrontierOf_mem]
    constructor
    · rintro ⟨hnv, f, hf, hnb⟩
      refine ⟨⟨f, hf, hnb⟩, ?_⟩
      intro j hj hc
      exact hnv ((mem_flattenL_take _ _ _).mpr ⟨j, hj, hc⟩)
    · rintro ⟨⟨f, hf, hnb⟩, hnone⟩
      refine ⟨?_, f, hf, hnb⟩
      intro hc
      obtain ⟨j, hj, hx⟩ := (mem_flattenL_take _ k x).mp hc
      exact hnone j hj hx
  have s5 : [] ∉ shellAux g (g.faces.length + 1) [] [fi] := by
    intro hc
    exact i6 [] hc rfl
  have s6 : 0 < (shellAux g (g.faces.length + 1) [] [fi]).length →
      nextFrontierOf g (flattenL (shellAux g (g.faces.length + 1) [] [fi]))
        ((shellAux g (g.faces.length + 1) [] [fi]).getD
          ((shellAux g (g.faces.length + 1) [] [fi]).length - 1) []) = [] := by
    intro hpos
    rcases i11 hlen with hnil | hend
    · rw [hnil] at hpos
      simp at hpos
    · exact hend
  exact ⟨s1, s2, i10, s4, s5, s6⟩

/-- Face assignments of a built graph target existing faces. -/
theorem buildFaces_faceMap_lt {g : Graph}
    (hh : g.halfEdges = g.edges.flatMap (fun e => [2 * e.eid, 2 * e.eid + 1]))
    (hfresh : FreshMaps g) :
    ∀ i x, (buildFaces g).faceMap x = some i → i < (buildFaces g).faces.length := by
  intro i x hx
  exact (buildFaces_main hh hfresh).1.2.1 i x hx

/-- C7. For every face `f` of a built graph, `shellLayers` returns
layers with: layer 0 equal to `[f]`, every face in at most one layer,
layer `k+1` exactly the not-yet-seen neighbors (via twin half-edges) of
layer `k`, and iteration stopping when a layer would be empty.  Holds
for both construction paths. -/
theorem shellLayers_bfs :
    (∀ (data : SerializedG) (fi : ℕ), fi < (fromSerializedG data).faces.length →
      shellSpecOf (fromSerializedG data) fi) ∧
    (∀ (n : ℕ) (rng : List ℚ) (fi : ℕ), fi < (randomizedGraph n rng).faces.length →
      shellSpecOf (randomizedGraph n rng) fi) := by
  constructor
  · intro data fi hfi
    rw [fromSerializedG_def] at hfi ⊢
    exact shellSpecOf_of_range
      (buildFaces_faceMap_lt (halves_loadFromSerializedG data)
        (FreshMaps_loadFromSerializedG data)) hfi
  · intro n rng fi hfi
    rw [randomizedGraph_def] at hfi ⊢
    exact shellSpecOf_of_range
      (buildFaces_faceMap_lt (generateRandomGraph_props n rng).1.halves
        (FreshMaps_generate n rng)) hfi

set_option maxRecDepth 100000 in
set_option maxHeartbeats 2000000 in
theorem shellLayers_bfs_witness :
    0 < (fromSerializedG sqData).faces.length ∧
    (shellLayers (fromSerializedG sqData) 0).getD 0 [] = [0] := by
  have h0 : 0 < (fromSerializedG sqData).faces.length := by
    with_unfolding_all decide
  exact ⟨h0, (shellLayers_bfs.1 sqData 0 h0).1⟩

/-! ### The export round trip on arbitrary graphs -/
/-- Every index pair produced by `serialize` is in the valid range of
the exported vertex list. -/
theorem serializeG_edges_inRange (g : Graph) :
    ∀ p ∈ (serializeG g).edges, inRangeZ (serializeG g).vertices.length p = true := by
  intro p hp
  obtain ⟨e, _, hsome⟩ := List.mem_filterMap.mp hp
  cases h0 : idxOfVid g e.v0 with
  | none =>
    cases h1 : idxOfVid g e.v1 with
    | none =>
      rw [h0, h1] at hsome
      exact Option.noConfusion hsome
    | some i1 =>
      rw [h0, h1] at hsome
      exact Option.noConfusion hsome
  | some i0 =>
    cases h1 : idxOfVid g e.v1 with
    | none =>
      rw [h0, h1] at hsome
      exact Option.noConfusion hsome
    | some i1 =>
      rw [h0, h1] at hsome
      have hp' : p = ((i0 : ℤ), (i1 : ℤ)) := (Option.some.inj hsome).symm
      subst hp'
      have hb0 : i0 < g.vertices.length :=
        (List.findIdx?_eq_some_iff_findIdx_eq.mp h0).1
      have hb1 : i1 < g.vertices.length :=
        (List.findIdx?_eq_some_iff_findIdx_eq.mp h1).1
      show inRangeZ (g.vertices.map GVertex.pos).length ((i0 : ℤ), (i1 : ℤ)) = true
      unfold inRangeZ
      rw [List.length_map]
      simp only [Bool.and_eq_true, decide_eq_true_eq]
      omega

/-- C1 (amended).  The claim as written fails: exporting a randomized
graph, importing, and exporting again re-normalizes the coordinates, so
the round trip is not the identity on every graph.  What holds: the
round trip preserves the edge index-pairs exactly and replaces the
vertex coordinates by their canonical normalization; consequently it is
the identity precisely on already-normalized exports, in particular on
every deserialized graph. -/
theorem serialize_roundtrip_amended :
    (∀ (n : ℕ) (rng : List ℚ),
      serializeG (fromSerializedG (serializeG (randomizedGraph n rng))) =
        ⟨normalizePositions (serializeG (randomizedGraph n rng)).vertices,
          (serializeG (randomizedGraph n rng)).edges⟩) ∧
    (∀ (data : SerializedG),
      serializeG (fromSerializedG (serializeG (fromSerializedG data))) =
        serializeG (fromSerializedG data)) := by
  constructor
  · intro n rng
    rw [serialize_fromSerializedG]
    have hE : (serializeG (randomizedGraph n rng)).edges.filter
        (inRangeZ (serializeG (randomizedGraph n rng)).vertices.length) =
        (serializeG (randomizedGraph n rng)).edges :=
      List.filter_eq_self.mpr (fun p hp => serializeG_edges_inRange _ p hp)
    rw [hE]
  · intro data
    rw [serialize_fromSerializedG, serialize_fromSerializedG]
    have h1 : normalizePositions (normalizePositions data.vertices) =
        normalizePositions data.vertices := normalizePositions_idem data.vertices
    have h2 : ((data.edges.filter (inRangeZ data.vertices.length)).filter
        (inRangeZ (normalizePositions data.vertices).length)) =
        data.edges.filter (inRangeZ data.vertices.length) := by
      rw [normalizePositions_length, List.filter_filter]
      apply List.filter_congr
      intro x _
      exact Bool.and_self _
    simp only [h1, h2]

set_option maxRecDepth 100000 in
set_option maxHeartbeats 4000000 in
/-- The original C1 statement is false: on the randomized square graph
the exported coordinates `±1/2` come back as `±9/10` after one
export-import-export cycle. -/
theorem serialize_roundtrip_cex :
    serializeG (fromSerializedG (serializeG (randomizedGraph 4 squareRng))) ≠
      serializeG (randomizedGraph 4 squareRng) := by
  with_unfolding_all decide

/-! ### The sparse-pruning fixpoint: all remaining degrees are at least 2 -/
theorem map_removeFirstBy_comp {f : α → β} {p : β → Bool} :
    ∀ (l : List α),
      (removeFirstBy (fun x => p (f x)) l).map f = removeFirstBy p (l.map f) := by
  intro l
  induction l with
  | nil => rfl
  | cons a rest ih =>
    rw [List.map_cons, removeFirstBy_cons, removeFirstBy_cons]
    by_cases h : p (f a) = true
    · rw [if_pos h, if_pos h]
    · rw [if_neg h, if_neg h, List.map_cons, ih]

theorem removeEdgeById_vids (g : Graph) (eid : ℕ) :
    (removeEdgeById g eid).vertices.map GVertex.vid =
      g.vertices.map GVertex.vid := by
  unfold removeEdgeById
  split
  · exact removeEdge_vids g _
  · rfl

theorem fold_removeEdgeById_vids : ∀ (eids : List ℕ) (g : Graph),
    ((eids.foldl removeEdgeById g).vertices.map GVertex.vid) =
      g.vertices.map GVertex.vid := by
  intro eids
  induction eids with
  | nil => intro g; rfl
  | cons c rest ih =>
    intro g
    rw [List.foldl_cons, ih, removeEdgeById_vids]

theorem removeVertexAndEdges_vids {g : Graph} {c : ℕ}
    (h : c ∈ g.vertices.map GVertex.vid) :
    (removeVertexAndEdges g c).vertices.map GVertex.vid =
      removeFirstBy (fun x => x = c) (g.vertices.map GVertex.vid) := by
  unfold removeVertexAndEdges
  cases hlv : lookupVertex g c with
  | none =>
    exfalso
    obtain ⟨v, hv, hvc⟩ := exists_vid_iff.mpr h
    have := List.find?_eq_none.mp hlv v hv
    simp [hvc] at this
  | some v =>
    show (removeFirstBy (fun x => x.vid = c)
        (v.edges.foldl removeEdgeById g).vertices).map GVertex.vid = _
    rw [map_removeFirstBy_comp (f := GVertex.vid) (p := fun y => decide (y = c)),
      fold_removeEdgeById_vids]

theorem length_removeFirstBy_succ {p : α → Bool} :
    ∀ {l : List α}, (∃ x ∈ l, p x = true) →
      (removeFirstBy p l).length + 1 = l.length := by
  intro l
  induction l with
  | nil =>
    rintro ⟨x, hx, _⟩
    cases hx
  | cons a rest ih =>
    rintro ⟨x, hx, hpx⟩
    rw [removeFirstBy_cons]
    by_cases h : p a = true
    · rw [if_pos h]
      rfl
    · rw [if_neg h]
      simp only [List.length_cons]
      have hex : ∃ x ∈ rest, p x = true := by
        rcases List.mem_cons.mp hx with rfl | hxr
        · exact absurd hpx h
        · exact ⟨x, hxr, hpx⟩
      have := ih hex
      omega

theorem fold_removeVertexAndEdges_length :
    ∀ (cs : List ℕ) (g : Graph), cs.Nodup →
      (∀ c ∈ cs, c ∈ g.vertices.map GVertex.vid) →
      (cs.foldl removeVertexAndEdges g).vertices.length + cs.length =
        g.vertices.length := by
  intro cs
  induction cs with
  | nil => intro g _ _; simp
  | cons c rest ih =>
    intro g hnd hmem
    rw [List.foldl_cons]
    have hc : c ∈ g.vertices.map GVertex.vid := hmem c (List.mem_cons_self c rest)
    have hvids := removeVertexAndEdges_vids hc
    have hlen : (removeVertexAndEdges g c).vertices.length + 1 =
        g.vertices.length := by
      have h1 := congrArg List.length hvids
      rw [List.length_map] at h1
      have h2 := length_removeFirstBy_succ (p := fun x => decide (x = c))
        ⟨c, hc, by simp⟩
      have h3 : (g.vertices.map GVertex.vid).length = g.vertices.length :=
        List.length_map _ _
      omega
    have hrest : ∀ c' ∈ rest, c' ∈ (removeVertexAndEdges g c).vertices.map GVertex.vid := by
      intro c' hc'
      rw [hvids]
      refine mem_removeFirstBy_of_not_p (hmem c' (List.mem_cons_of_mem _ hc')) ?_
      simp only [decide_eq_false_iff_not]
      intro hcc
      exact (List.nodup_cons.mp hnd).1 (hcc ▸ hc')
    have h3 := ih (removeVertexAndEdges g c) (List.nodup_cons.mp hnd).2 hrest
    simp only [List.length_cons]
    omega

theorem sparseScanStep_shape (acc : Graph × List ℕ) (c : ℕ) :
    (sparseScanStep acc c = acc ∨ (sparseScanStep acc c).2 = acc.2 ++ [c]) ∧
    (sparseScanStep acc c).1.vertices.map GVertex.vid =
      acc.1.vertices.map GVertex.vid := by
  unfold sparseScanStep
  split
  · exact ⟨Or.inl rfl, rfl⟩
  · split
    · exact ⟨Or.inr rfl, rfl⟩
    · split
      · split
        · split
          · exact ⟨Or.inr rfl, removeEdge_vids _ _⟩
          · exact ⟨Or.inr rfl, rfl⟩
        · exact ⟨Or.inl rfl, rfl⟩
      · exact ⟨Or.inl rfl, rfl⟩

theorem sparseScan_shape : ∀ (vids : List ℕ) (acc : Graph × List ℕ),
    ∃ t, (vids.foldl sparseScanStep acc).2 = acc.2 ++ t ∧ t.Sublist vids ∧
      (vids.foldl sparseScanStep acc).1.vertices.map GVertex.vid =
        acc.1.vertices.map GVertex.vid := by
  intro vids
  induction vids with
  | nil => intro acc; exact ⟨[], by simp, List.Sublist.refl _, rfl⟩
  | cons c rest ih =>
    intro acc
    rw [List.foldl_cons]
    obtain ⟨t, ht, hsub, hvids⟩ := ih (sparseScanStep acc c)
    obtain ⟨hstep, hstepv⟩ := sparseScanStep_shape acc c
    rcases hstep with hid | happ
    · refine ⟨t, ?_, hsub.cons c, ?_⟩
      · rw [ht, hid]
      · rw [hvids, hid]
    · refine ⟨c :: t, ?_, hsub.cons₂ c, ?_⟩
      · rw [ht, happ, List.append_assoc]
        rfl
      · rw [hvids, hstepv]

theorem sparsePass_true_lt {g : Graph} (hg : GInv g)
    (h : (sparsePass g).2 = true) :
    (sparsePass g).1.vertices.length < g.vertices.length := by
  unfold sparsePass at h ⊢
  by_cases hnil : (sparseScan g).2 = []
  · rw [if_pos hnil] at h
    simp at h
  · rw [if_neg hnil] at h ⊢
    show ((sparseScan g).2.foldl removeVertexAndEdges (sparseScan g).1).vertices.length <
      g.vertices.length
    obtain ⟨t, ht, hsub, hvids⟩ := sparseScan_shape (g.vertices.map GVertex.vid) (g, [])
    have ht' : (sparseScan g).2 = t := by
      rw [show (sparseScan g).2 = ([] : List ℕ) ++ t from ht]
      rfl
    have hnd : (sparseScan g).2.Nodup := by
      rw [ht']
      exact hsub.nodup hg.vidsNodup
    have hmem : ∀ c ∈ (sparseScan g).2,
        c ∈ (sparseScan g).1.vertices.map GVertex.vid := by
      intro c hc
      show c ∈ ((g.vertices.map GVertex.vid).foldl sparseScanStep (g, [])).1.vertices.map GVertex.vid
      rw [hvids]
      rw [ht'] at hc
      exact hsub.subset hc
    have hlen := fold_removeVertexAndEdges_length (sparseScan g).2 (sparseScan g).1 hnd hmem
    have hslen : (sparseScan g).1.vertices.length = g.vertices.length := by
      have := congrArg List.length hvids
      simpa using this
    have hpos : 0 < (sparseScan g).2.length := List.length_pos.mpr hnil
    omega

theorem sparseScan_nil_eq {g : Graph} (h : (sparseScan g).2 = []) :
    (sparseScan g).1 = g := by
  have hinv := foldl_preserve_mem
    (P := fun acc : Graph × List ℕ => acc.2 = [] → acc.1 = g)
    sparseScanStep (g.vertices.map GVertex.vid)
    (fun acc c _ hP hnil => by
      rcases (sparseScanStep_shape acc c).1 with hid | happ
      · rw [hid]
        exact hP (by rw [← hid]; exact hnil)
      · rw [hnil] at happ
        exact absurd happ (by simp))
    (g, []) (fun _ => rfl)
  exact hinv h

theorem sparsePass_false_scan {g : Graph} (h : (sparsePass g).2 = false) :
    (sparseScan g).2 = [] := by
  unfold sparsePass at h
  by_cases hnil : (sparseScan g).2 = []
  · exact hnil
  · rw [if_neg hnil] at h
    simp at h

theorem sparsePass_false_eq {g : Graph} (h : (sparsePass g).2 = false) :
    (sparsePass g).1 = g := by
  have hnil := sparsePass_false_scan h
  unfold sparsePass
  rw [if_pos hnil]
  exact sparseScan_nil_eq hnil

theorem sparseLoop_fix : ∀ (fuel : ℕ) (g : Graph), GInv g →
    g.vertices.length < fuel → (sparsePass (sparseLoop fuel g)).2 = false := by
  intro fuel
  induction fuel with
  | zero =>
    intro g _ h
    exact absurd h (by omega)
  | succ m ih =>
    intro g hg hlt
    unfold sparseLoop
    by_cases hb : (sparsePass g).2 = true
    · rw [if_pos hb]
      refine ih _ (sparsePass_inv hg).1 ?_
      have := sparsePass_true_lt hg hb
      omega
    · rw [if_neg hb]
      have hfalse : (sparsePass g).2 = false := by
        cases hx : (sparsePass g).2
        · rfl
        · exact absurd hx hb
      rw [sparsePass_false_eq hfalse]
      exact hfalse

theorem sparseScanStep_append_of_lowdeg {acc : Graph × List ℕ} {c : ℕ}
    {v' : GVertex} (hv' : lookupVertex acc.1 c = some v')
    (hdeg : v'.edges.length < 2) :
    (sparseScanStep acc c).2 = acc.2 ++ [c] := by
  have hstep : sparseScanStep acc c =
      (if v'.edges.length = 0 then (acc.1, acc.2 ++ [c])
       else if v'.edges.length = 1 then
         match v'.edges.head? with
         | some eid =>
           match lookupEdge acc.1 eid with
           | some e => (removeEdge acc.1 e, acc.2 ++ [c])
           | none => (acc.1, acc.2 ++ [c])
         | none => acc
       else acc) := by
    unfold sparseScanStep
    rw [hv']
  cases he : v'.edges with
  | nil =>
    rw [hstep, he]
    simp
  | cons a t =>
    have ht : t = [] := by
      rw [he] at hdeg
      simp only [List.length_cons] at hdeg
      exact List.length_eq_zero.mp (by omega)
    subst ht
    rw [hstep, he]
    rw [if_neg (by simp), if_pos (by simp)]
    show (match lookupEdge acc.1 a with
      | some e => (removeEdge acc.1 e, acc.2 ++ [c])
      | none => (acc.1, acc.2 ++ [c])).2 = acc.2 ++ [c]
    split
    · rfl
    · rfl

theorem scan_fold_degrees : ∀ (vids : List ℕ) (acc : Graph × List ℕ),
    (vids.foldl sparseScanStep acc).2 = [] →
    acc.2 = [] ∧ (vids.foldl sparseScanStep acc).1 = acc.1 ∧
    ∀ c ∈ vids, ∀ v', lookupVertex acc.1 c = some v' → 2 ≤ v'.edges.length := by
  intro vids
  induction vids with
  | nil =>
    intro acc h
    exact ⟨h, rfl, fun c hc => absurd hc (List.not_mem_nil c)⟩
  | cons c rest ih =>
    intro acc h
    rw [List.foldl_cons] at h
    obtain ⟨h1, h2, h3⟩ := ih (sparseScanStep acc c) h
    rcases (sparseScanStep_shape acc c).1 with hid | happ
    · rw [hid] at h1 h2 h3
      refine ⟨h1, by rw [List.foldl_cons, hid]; exact h2, ?_⟩
      intro c' hc' v' hv'
      rcases List.mem_cons.mp hc' with rfl | hc'
      · by_contra hdeg
        have happ' := sparseScanStep_append_of_lowdeg hv' (by omega)
        have hstep2 : (sparseScanStep acc c').2 = acc.2 := congrArg Prod.snd hid
        rw [hstep2] at happ'
        have := congrArg List.length happ'
        simp at this
      · exact h3 c' hc' v' hv'
    · rw [happ] at h1
      exact absurd h1 (by simp)

theorem sparseScan_nil_degrees {g : Graph} (hg : GInv g)
    (h : (sparseScan g).2 = []) : ∀ v ∈ g.vertices, 2 ≤ v.edges.length := by
  obtain ⟨_, _, h3⟩ := scan_fold_degrees (g.vertices.map GVertex.vid) (g, []) h
  intro v hv
  have hc : v.vid ∈ g.vertices.map GVertex.vid := List.mem_map.mpr ⟨v, hv, rfl⟩
  cases hlv : lookupVertex g v.vid with
  | none =>
    exfalso
    have := List.find?_eq_none.mp hlv v hv
    simp at this
  | some w =>
    have hw : w = v :=
      vid_unique hg.vidsNodup (lookupVertex_mem hlv) hv (lookupVertex_vid hlv)
    have hd := h3 v.vid hc w hlv
    rw [hw] at hd
    exact hd

/-- C6: for a face whose boundary half-edges lie on the four edges of
the unit square with corners `(0,0),(1,0),(1,1),(0,1)`, the axis-aligned
`+x` ray-parity test reports `(0.5, 0.5)` inside (exactly one crossing,
with the right side) and `(2, 2)` outside (no crossings). -/
theorem pointIsInside_unit_square :
    pointIsInside unitSquareGraph unitSquareFace ((1 : ℚ)/2, (1 : ℚ)/2) = true ∧
    pointIsInside unitSquareGraph unitSquareFace ((2 : ℚ), (2 : ℚ)) = false := by
  constructor
  · with_unfolding_all decide
  · with_unfolding_all decide

theorem toC_re (d : Q2) : (toC d).re = (d.1 : ℝ) := rfl

theorem toC_im (d : Q2) : (toC d).im = (d.2 : ℝ) := rfl

theorem toC_eq_zero {d : Q2} : toC d = 0 ↔ d = ((0 : ℚ), (0 : ℚ)) := by
  rw [Complex.ext_iff, toC_re, toC_im]
  constructor
  · rintro ⟨h1, h2⟩
    have h1' : d.1 = 0 := by exact_mod_cast h1
    have h2' : d.2 = 0 := by exact_mod_cast h2
    exact Prod.ext h1' h2'
  · rintro rfl
    constructor <;> simp

theorem dirAngle_mem (d : Q2) : -Real.pi < dirAngle d ∧ dirAngle d ≤ Real.pi :=
  ⟨Complex.neg_pi_lt_arg _, Complex.arg_le_pi _⟩

theorem dirAngle_neg_iff (d : Q2) : dirAngle d < 0 ↔ d.2 < 0 := by
  unfold dirAngle
  rw [Complex.arg_neg_iff, toC_im]
  exact_mod_cast Iff.rfl

theorem dirAngle_eq_zero_iff (d : Q2) : dirAngle d = 0 ↔ 0 ≤ d.1 ∧ d.2 = 0 := by
  unfold dirAngle
  rw [Complex.arg_eq_zero_iff, toC_re, toC_im]
  constructor
  · rintro ⟨h1, h2⟩
    exact ⟨by exact_mod_cast h1, by exact_mod_cast h2⟩
  · rintro ⟨h1, h2⟩
    exact ⟨by exact_mod_cast h1, by exact_mod_cast h2⟩

theorem argClass_cases (d : Q2) :
    argClass d = 0 ∨ argClass d = 1 ∨ argClass d = 2 := by
  unfold argClass
  split_ifs <;> simp

theorem argClass0 (d : Q2) : argClass d = 0 ↔ dirAngle d < 0 := by
  unfold argClass
  split_ifs with h1 h2
  · exact iff_of_true rfl ((dirAngle_neg_iff d).mpr h1)
  · constructor
    · intro h; cases h
    · intro h
      exact absurd ((dirAngle_neg_iff d).mp h) h1
  · constructor
    · intro h; cases h
    · intro h
      exact absurd ((dirAngle_neg_iff d).mp h) h1

theorem argClass1 (d : Q2) : argClass d = 1 ↔ dirAngle d = 0 := by
  unfold argClass
  split_ifs with h1 h2
  · constructor
    · intro h; cases h
    · intro h
      exact absurd h1 (by rw [((dirAngle_eq_zero_iff d).mp h).2]; exact lt_irrefl 0)
  · exact ⟨fun _ => (dirAngle_eq_zero_iff d).mpr ⟨h2.2, h2.1⟩, fun _ => rfl⟩
  · constructor
    · intro h; cases h
    · intro h
      exact absurd ⟨((dirAngle_eq_zero_iff d).mp h).2, ((dirAngle_eq_zero_iff d).mp h).1⟩ h2

theorem argClass2 (d : Q2) : argClass d = 2 ↔ 0 < dirAngle d := by
  rcases lt_trichotomy (dirAngle d) 0 with h | h | h
  · refine iff_of_false ?_ (by linarith)
    have h0 := (argClass0 d).mpr h
    omega
  · refine iff_of_false ?_ (by linarith)
    have h1 := (argClass1 d).mpr h
    omega
  · refine iff_of_true ?_ h
    rcases argClass_cases d with h0 | h1 | h2
    · exact absurd ((argClass0 d).mp h0) (by linarith)
    · exact absurd ((argClass1 d).mp h1) (by linarith)
    · exact h2

theorem toC_ne_zero_of_arg_neg {u : Q2} (h : dirAngle u < 0) : toC u ≠ 0 := by
  intro hz
  unfold dirAngle at h
  rw [hz, Complex.arg_zero] at h
  exact lt_irrefl 0 h

theorem toC_ne_zero_of_arg_pos {u : Q2} (h : 0 < dirAngle u) : toC u ≠ 0 := by
  intro hz
  unfold dirAngle at h
  rw [hz, Complex.arg_zero] at h
  exact lt_irrefl 0 h

theorem abs_toC_pos {d : Q2} (h : toC d ≠ 0) : 0 < Complex.abs (toC d) :=
  Complex.abs.pos h

/-- Cross product in terms of the two `atan2` angles. -/
theorem cross_sin (u v : Q2) (hu : toC u ≠ 0) (hv : toC v ≠ 0) :
    ((vcross u v : ℚ) : ℝ) = Complex.abs (toC u) * Complex.abs (toC v) *
      Real.sin (dirAngle v - dirAngle u) := by
  have hAu : Complex.abs (toC u) ≠ 0 := (map_ne_zero Complex.abs).mpr hu
  have hAv : Complex.abs (toC v) ≠ 0 := (map_ne_zero Complex.abs).mpr hv
  unfold dirAngle
  rw [Real.sin_sub, Complex.sin_arg, Complex.cos_arg hu, Complex.cos_arg hv,
    Complex.sin_arg]
  rw [toC_re, toC_im, toC_re, toC_im]
  field_simp
  unfold vcross
  push_cast
  ring

/-- Dot product in terms of the two `atan2` angles. -/
theorem dot_cos (u v : Q2) (hu : toC u ≠ 0) (hv : toC v ≠ 0) :
    ((vdot u v : ℚ) : ℝ) = Complex.abs (toC u) * Complex.abs (toC v) *
      Real.cos (dirAngle v - dirAngle u) := by
  have hAu : Complex.abs (toC u) ≠ 0 := (map_ne_zero Complex.abs).mpr hu
  have hAv : Complex.abs (toC v) ≠ 0 := (map_ne_zero Complex.abs).mpr hv
  unfold dirAngle
  rw [Real.cos_sub, Complex.sin_arg, Complex.cos_arg hu, Complex.cos_arg hv,
    Complex.sin_arg]
  rw [toC_re, toC_im, toC_re, toC_im]
  field_simp
  unfold vdot
  push_cast
  ring

/-- Within an open angular half plane, the cross-product sign decides
the angle order. -/
theorem cross_nonneg_iff_le {u v : Q2} (hu : toC u ≠ 0) (hv : toC v ≠ 0)
    (hlt : dirAngle v - dirAngle u < Real.pi)
    (hgt : -Real.pi < dirAngle v - dirAngle u) :
    0 ≤ vcross u v ↔ dirAngle u ≤ dirAngle v := by
  have h := cross_sin u v hu hv
  have hR : 0 < Complex.abs (toC u) * Complex.abs (toC v) :=
    mul_pos (abs_toC_pos hu) (abs_toC_pos hv)
  constructor
  · intro hc
    by_contra hlt'
    push_neg at hlt'
    have hsin : Real.sin (dirAngle v - dirAngle u) < 0 :=
      Real.sin_neg_of_neg_of_neg_pi_lt (by linarith) hgt
    have hneg : ((vcross u v : ℚ) : ℝ) < 0 := by
      rw [h]
      exact mul_neg_of_pos_of_neg hR hsin
    have : (vcross u v : ℚ) < 0 := by exact_mod_cast hneg
    linarith
  · intro hle
    have hsin : 0 ≤ Real.sin (dirAngle v - dirAngle u) :=
      Real.sin_nonneg_of_nonneg_of_le_pi (by linarith) (le_of_lt hlt)
    have hge : (0 : ℝ) ≤ ((vcross u v : ℚ) : ℝ) := by
      rw [h]
      exact mul_nonneg (le_of_lt hR) hsin
    exact_mod_cast hge

/-- `argLE` decides the order of the `atan2` angles. -/
theorem argLE_iff (u v : Q2) : argLE u v = true ↔ dirAngle u ≤ dirAngle v := by
  unfold argLE
  by_cases hc : argClass u = argClass v
  · rw [if_pos hc]
    simp only [decide_eq_true_eq]
    rcases argClass_cases u with h0 | h1 | h2
    · have hu0 := (argClass0 u).mp h0
      have hv0 := (argClass0 v).mp (by rw [← hc]; exact h0)
      have hu := toC_ne_zero_of_arg_neg hu0
      have hv := toC_ne_zero_of_arg_neg hv0
      exact cross_nonneg_iff_le hu hv
        (by have := (dirAngle_mem u).1; linarith)
        (by have := (dirAngle_mem v).1; linarith)
    · have hu1 := (argClass1 u).mp h1
      have hv1 := (argClass1 v).mp (by rw [← hc]; exact h1)
      have hu2 : u.2 = 0 := ((dirAngle_eq_zero_iff u).mp hu1).2
      have hv2 : v.2 = 0 := ((dirAngle_eq_zero_iff v).mp hv1).2
      rw [hu1, hv1]
      unfold vcross
      rw [hu2, hv2]
      constructor
      · intro _; exact le_refl 0
      · intro _; nlinarith
    · have hu2' := (argClass2 u).mp h2
      have hv2' := (argClass2 v).mp (by rw [← hc]; exact h2)
      have hu := toC_ne_zero_of_arg_pos hu2'
      have hv := toC_ne_zero_of_arg_pos hv2'
      exact cross_nonneg_iff_le hu hv
        (by have := (dirAngle_mem v).2; linarith)
        (by have := (dirAngle_mem u).2; linarith)
  · rw [if_neg hc]
    simp only [decide_eq_true_eq]
    rcases argClass_cases u with h0u | h1u | h2u <;>
      rcases argClass_cases v with h0v | h1v | h2v
    · exact absurd (h0u.trans h0v.symm) hc
    · have ha := (argClass0 u).mp h0u
      have hb := (argClass1 v).mp h1v
      rw [h0u, h1v]
      exact iff_of_true (by omega) (by linarith)
    · have ha := (argClass0 u).mp h0u
      have hb := (argClass2 v).mp h2v
      rw [h0u, h2v]
      exact iff_of_true (by omega) (by linarith)
    · have ha := (argClass1 u).mp h1u
      have hb := (argClass0 v).mp h0v
      rw [h1u, h0v]
      exact iff_of_false (by omega) (by linarith)
    · exact absurd (h1u.trans h1v.symm) hc
    · have ha := (argClass1 u).mp h1u
      have hb := (argClass2 v).mp h2v
      rw [h1u, h2v]
      exact iff_of_true (by omega) (by linarith)
    · have ha := (argClass2 u).mp h2u
      have hb := (argClass0 v).mp h0v
      rw [h2u, h0v]
      exact iff_of_false (by omega) (by linarith)
    · have ha := (argClass2 u).mp h2u
      have hb := (argClass1 v).mp h1v
      rw [h2u, h1v]
      exact iff_of_false (by omega) (by linarith)
    · exact absurd (h2u.trans h2v.symm) hc

theorem dirAngle_repl (u : Q2) :
    dirAngle (if u = ((0 : ℚ), (0 : ℚ)) then ((1 : ℚ), (0 : ℚ)) else u) =
      dirAngle u := by
  split_ifs with h
  · rw [h]
    unfold dirAngle
    have h1 : toC ((1 : ℚ), (0 : ℚ)) = 1 := by
      rw [Complex.ext_iff]
      constructor <;> simp [toC]
    have h0 : toC ((0 : ℚ), (0 : ℚ)) = 0 := toC_eq_zero.mpr rfl
    rw [h1, h0, Complex.arg_one, Complex.arg_zero]
  · rfl

theorem toC_repl_ne (u : Q2) :
    toC (if u = ((0 : ℚ), (0 : ℚ)) then ((1 : ℚ), (0 : ℚ)) else u) ≠ 0 := by
  split_ifs with h
  · rw [show toC ((1 : ℚ), (0 : ℚ)) = 1 from by
      rw [Complex.ext_iff]; constructor <;> simp [toC]]
    exact one_ne_zero
  · exact fun hz => h (toC_eq_zero.mp hz)

/-- For nonzero vectors, the rational sign-and-tangent test is exactly
"the wrapped CCW gap between the `atan2` angles is `< π/6`". -/
theorem gap_core {u v : Q2} (hu : toC u ≠ 0) (hv : toC v ≠ 0) :
    (0 < vcross u v ∧ 0 < vdot u v ∧ 3 * vcross u v ^ 2 < vdot u v ^ 2) ↔
      ccwGapR (dirAngle u) (dirAngle v) < Real.pi / 6 := by
  have hpi := Real.pi_pos
  have hau := dirAngle_mem u
  have hav := dirAngle_mem v
  have hR : 0 < Complex.abs (toC u) * Complex.abs (toC v) :=
    mul_pos (abs_toC_pos hu) (abs_toC_pos hv)
  have hgb : 0 < ccwGapR (dirAngle u) (dirAngle v) ∧
      ccwGapR (dirAngle u) (dirAngle v) ≤ 2 * Real.pi := by
    unfold ccwGapR
    split_ifs with h
    · constructor <;> linarith
    · push_neg at h
      constructor <;> linarith
  have hsin : Real.sin (ccwGapR (dirAngle u) (dirAngle v)) =
      Real.sin (dirAngle v - dirAngle u) := by
    unfold ccwGapR
    split_ifs with h
    · exact Real.sin_add_two_pi _
    · rfl
  have hcos : Real.cos (ccwGapR (dirAngle u) (dirAngle v)) =
      Real.cos (dirAngle v - dirAngle u) := by
    unfold ccwGapR
    split_ifs with h
    · exact Real.cos_add_two_pi _
    · rfl
  have hcross : ((vcross u v : ℚ) : ℝ) =
      Complex.abs (toC u) * Complex.abs (toC v) *
        Real.sin (ccwGapR (dirAngle u) (dirAngle v)) := by
    rw [hsin]; exact cross_sin u v hu hv
  have hdot : ((vdot u v : ℚ) : ℝ) =
      Complex.abs (toC u) * Complex.abs (toC v) *
        Real.cos (ccwGapR (dirAngle u) (dirAngle v)) := by
    rw [hcos]; exact dot_cos u v hu hv
  set g := ccwGapR (dirAngle u) (dirAngle v) with hgdef
  set R := Complex.abs (toC u) * Complex.abs (toC v) with hRdef
  constructor
  · rintro ⟨h1, h2, h3⟩
    have h1' : (0 : ℝ) < R * Real.sin g := by
      rw [← hcross]; exact_mod_cast h1
    have h2' : (0 : ℝ) < R * Real.cos g := by
      rw [← hdot]; exact_mod_cast h2
    have hsing : 0 < Real.sin g := by nlinarith
    have hcosg : 0 < Real.cos g := by nlinarith
    have hgpi : g < Real.pi := by
      by_contra hge
      push_neg at hge
      have : Real.sin (g - 2 * Real.pi) ≤ 0 :=
        Real.sin_nonpos_of_nonnpos_of_neg_pi_le (by linarith [hgb.2]) (by linarith)
      have hs : Real.sin (g - 2 * Real.pi + 2 * Real.pi) = Real.sin (g - 2 * Real.pi) :=
        Real.sin_add_two_pi _
      rw [show g - 2 * Real.pi + 2 * Real.pi = g by ring] at hs
      linarith
    have hg2 : g < Real.pi / 2 := by
      by_contra hge
      push_neg at hge
      have : Real.cos g ≤ 0 :=
        Real.cos_nonpos_of_pi_div_two_le_of_le hge (by linarith)
      linarith
    have h3' : 3 * ((vcross u v : ℚ) : ℝ) ^ 2 < ((vdot u v : ℚ) : ℝ) ^ 2 := by
      exact_mod_cast h3
    rw [hcross, hdot] at h3'
    have hsq : 3 * Real.sin g ^ 2 < Real.cos g ^ 2 := by nlinarith [mul_pos hR hR]
    have hlin : Real.sqrt 3 * Real.sin g < Real.cos g := by
      have h33 : (Real.sqrt 3 * Real.sin g) ^ 2 < Real.cos g ^ 2 := by
        rw [mul_pow, Real.sq_sqrt (by norm_num : (0:ℝ) ≤ 3)]
        linarith
      exact lt_of_pow_lt_pow_left₀ 2 (le_of_lt hcosg) h33
    have hs6 : 0 < Real.sin (Real.pi / 6 - g) := by
      rw [Real.sin_sub, Real.sin_pi_div_six, Real.cos_pi_div_six]
      nlinarith
    by_contra hge
    push_neg at hge
    have hnp : Real.sin (Real.pi / 6 - g) ≤ 0 :=
      Real.sin_nonpos_of_nonnpos_of_neg_pi_le (by linarith) (by linarith)
    linarith
  · intro hlt
    have hsing : 0 < Real.sin g :=
      Real.sin_pos_of_pos_of_lt_pi hgb.1 (by linarith)
    have hcosg : 0 < Real.cos g :=
      Real.cos_pos_of_mem_Ioo ⟨by linarith, by linarith⟩
    have hs6 : 0 < Real.sin (Real.pi / 6 - g) :=
      Real.sin_pos_of_pos_of_lt_pi (by linarith) (by linarith)
    rw [Real.sin_sub, Real.sin_pi_div_six, Real.cos_pi_div_six] at hs6
    have hlin : Real.sqrt 3 * Real.sin g < Real.cos g := by nlinarith
    have hsq : 3 * Real.sin g ^ 2 < Real.cos g ^ 2 := by
      have h33 : (Real.sqrt 3 * Real.sin g) ^ 2 < Real.cos g ^ 2 :=
        pow_lt_pow_left₀ hlin
          (mul_nonneg (Real.sqrt_nonneg 3) (le_of_lt hsing)) (by norm_num)
      rw [mul_pow, Real.sq_sqrt (by norm_num : (0:ℝ) ≤ 3)] at h33
      linarith
    refine ⟨?_, ?_, ?_⟩
    · have : (0 : ℝ) < ((vcross u v : ℚ) : ℝ) := by
        rw [hcross]; exact mul_pos hR hsing
      exact_mod_cast this
    · have : (0 : ℝ) < ((vdot u v : ℚ) : ℝ) := by
        rw [hdot]; exact mul_pos hR hcosg
      exact_mod_cast this
    · have : 3 * ((vcross u v : ℚ) : ℝ) ^ 2 < ((vdot u v : ℚ) : ℝ) ^ 2 := by
        rw [hcross, hdot]
        nlinarith [mul_pos (mul_pos hR hR) (sub_pos.mpr hsq)]
      exact_mod_cast this

/-- `gapLtSixth` decides "the wrapped CCW gap from `u`'s angle to `v`'s
angle is `< π/6`", with zero vectors carrying angle `0` as `atan2` does. -/
theorem gapLtSixth_iff (u v : Q2) :
    gapLtSixth u v = true ↔ ccwGapR (dirAngle u) (dirAngle v) < Real.pi / 6 := by
  unfold gapLtSixth
  rw [← dirAngle_repl u, ← dirAngle_repl v]
  simp only [Bool.and_eq_true, decide_eq_true_eq]
  rw [show (((0 < vcross (if u = ((0:ℚ), (0:ℚ)) then ((1:ℚ), (0:ℚ)) else u)
      (if v = ((0:ℚ), (0:ℚ)) then ((1:ℚ), (0:ℚ)) else v)) ∧
      (0 < vdot (if u = ((0:ℚ), (0:ℚ)) then ((1:ℚ), (0:ℚ)) else u)
      (if v = ((0:ℚ), (0:ℚ)) then ((1:ℚ), (0:ℚ)) else v))) ∧
      (3 * vcross (if u = ((0:ℚ), (0:ℚ)) then ((1:ℚ), (0:ℚ)) else u)
        (if v = ((0:ℚ), (0:ℚ)) then ((1:ℚ), (0:ℚ)) else v) ^ 2 <
        vdot (if u = ((0:ℚ), (0:ℚ)) then ((1:ℚ), (0:ℚ)) else u)
        (if v = ((0:ℚ), (0:ℚ)) then ((1:ℚ), (0:ℚ)) else v) ^ 2)) ↔
      (0 < vcross (if u = ((0:ℚ), (0:ℚ)) then ((1:ℚ), (0:ℚ)) else u)
      (if v = ((0:ℚ), (0:ℚ)) then ((1:ℚ), (0:ℚ)) else v) ∧
      0 < vdot (if u = ((0:ℚ), (0:ℚ)) then ((1:ℚ), (0:ℚ)) else u)
      (if v = ((0:ℚ), (0:ℚ)) then ((1:ℚ), (0:ℚ)) else v) ∧
      3 * vcross (if u = ((0:ℚ), (0:ℚ)) then ((1:ℚ), (0:ℚ)) else u)
        (if v = ((0:ℚ), (0:ℚ)) then ((1:ℚ), (0:ℚ)) else v) ^ 2 <
        vdot (if u = ((0:ℚ), (0:ℚ)) then ((1:ℚ), (0:ℚ)) else u)
        (if v = ((0:ℚ), (0:ℚ)) then ((1:ℚ), (0:ℚ)) else v) ^ 2) from by tauto]
  exact gap_core (toC_repl_ne u) (toC_repl_ne v)

/-! ### Circular gap lists -/
theorem gapGE_refl (a : ℝ) : gapGE a a := by
  unfold gapGE ccwGapR
  rw [if_pos (by linarith)]
  have := Real.pi_pos
  linarith

theorem gapGE_merge {a b c : ℝ} (hab : a ≤ b) (hbc : b ≤ c)
    (h1 : gapGE a b) (h2 : gapGE b c) : gapGE a c := by
  unfold gapGE ccwGapR at h1 h2 ⊢
  have := Real.pi_pos
  split_ifs at h1 h2 ⊢ <;> linarith

theorem gapGE_shift {c a b : ℝ} (hab : a ≤ b) (hbc : b ≤ c)
    (h : gapGE c a) : gapGE c b := by
  unfold gapGE ccwGapR at h ⊢
  have := Real.pi_pos
  split_ifs at h ⊢ <;> linarith

theorem gapGE_shift2 {c a b : ℝ} (hab : a ≤ b) (hbc : b ≤ c)
    (h : gapGE c a) : gapGE b a := by
  unfold gapGE ccwGapR at h ⊢
  have := Real.pi_pos
  split_ifs at h ⊢ <;> linarith

theorem head_le_getLast {l : List ℝ} (hs : l.Pairwise (fun a b => a ≤ b))
    {x z : ℝ} (hx : x ∈ l.getLast?) (hz : z ∈ l.head?) : z ≤ x := by
  cases l with
  | nil => simp at hz
  | cons w s =>
    have hz' : z = w := by
      rw [List.head?_cons] at hz
      exact (Option.mem_some_iff.mp hz).symm
    subst hz'
    rcases List.mem_cons.mp (List.mem_of_mem_getLast? hx) with rfl | hmem
    · exact le_refl _
    · exact (List.pairwise_cons.mp hs).1 x hmem

/-- Deleting one element of a sorted circular list keeps every
circularly adjacent gap at least `π/6`: the two merged gaps only grow. -/
theorem GapCirc_delete {l₁ l₂ : List ℝ} {y : ℝ}
    (hs : (l₁ ++ y :: l₂).Pairwise (fun a b => a ≤ b))
    (hc : GapCirc (l₁ ++ y :: l₂)) : GapCirc (l₁ ++ l₂) := by
  obtain ⟨hch, hcirc⟩ := hc
  rw [List.chain'_append] at hch
  obtain ⟨hch1, hch2, hbr⟩ := hch
  obtain ⟨hy2, hch2'⟩ := List.chain'_cons'.mp hch2
  rw [List.pairwise_append] at hs
  obtain ⟨hs1, hs2, hs12⟩ := hs
  obtain ⟨hy_le, hs2'⟩ := List.pairwise_cons.mp hs2
  constructor
  · rw [List.chain'_append]
    refine ⟨hch1, hch2', ?_⟩
    intro x hx z hz
    exact gapGE_merge (hs12 x (List.mem_of_mem_getLast? hx) y (List.mem_cons_self y l₂))
      (hy_le z (List.mem_of_mem_head? hz))
      (hbr x hx y (by rw [List.head?_cons]; rfl))
      (hy2 z hz)
  · intro x hx z hz
    cases l₂ with
    | nil =>
      cases l₁ with
      | nil => simp at hx
      | cons a s =>
        have hxl1 : x ∈ (a :: s).getLast? := by simpa using hx
        have hzl1 : z ∈ (a :: s).head? := by simpa using hz
        have hold : gapGE y z := by
          refine hcirc y ?_ z ?_
          · rw [List.getLast?_append]
            simp
          · rw [List.head?_append, List.head?_cons]
            rw [List.head?_cons] at hzl1
            simpa using hzl1
        have hzx : z ≤ x := head_le_getLast hs1 hxl1 hzl1
        have hxy : x ≤ y :=
          hs12 x (List.mem_of_mem_getLast? hxl1) y (List.mem_cons_self y [])
        exact gapGE_shift2 hzx hxy hold
    | cons b t =>
      cases l₁ with
      | nil =>
        have hzb : z = b := by
          rw [List.nil_append, List.head?_cons] at hz
          exact (Option.mem_some_iff.mp hz).symm
        have hxbt : x ∈ (b :: t).getLast? := by simpa using hx
        have hold : gapGE x y := by
          refine hcirc x ?_ y ?_
          · rw [List.nil_append, List.getLast?_cons_cons]
            exact hxbt
          · rw [List.nil_append, List.head?_cons]; rfl
        have hyz : y ≤ b := hy_le b (List.mem_cons_self b t)
        have hzx : b ≤ x := head_le_getLast hs2' hxbt (by rw [List.head?_cons]; rfl)
        rw [hzb]
        exact gapGE_shift hyz hzx hold
      | cons a s =>
        refine hcirc x ?_ z ?_
        · rw [List.getLast?_append] at hx ⊢
          rw [List.getLast?_cons_cons]
          exact hx
        · rw [List.head?_append, List.head?_cons] at hz ⊢
          simpa using hz

theorem getLast?_eq_getD {l : List ℝ} (h : 0 < l.length) :
    l.getLast? = some (l.getD (l.length - 1) 0) := by
  rw [List.getLast?_eq_getElem?, List.getElem?_eq_getElem (by omega),
    List.getD_eq_getElem l 0 (by omega)]

theorem head?_eq_getD {l : List ℝ} (h : 0 < l.length) :
    l.head? = some (l.getD 0 0) := by
  rw [List.head?_eq_getElem?, List.getElem?_eq_getElem h, List.getD_eq_getElem l 0 h]

/-- The circular-gap property in indexed form, over `getD`. -/
theorem GapCirc_iff_indexed (l : List ℝ) :
    GapCirc l ↔ ∀ i, i < l.length →
      gapGE (l.getD i 0) (l.getD ((i + 1) % l.length) 0) := by
  constructor
  · rintro ⟨hch, hcirc⟩ i hi
    by_cases hi1 : i + 1 < l.length
    · rw [Nat.mod_eq_of_lt hi1]
      rw [List.getD_eq_getElem l 0 hi, List.getD_eq_getElem l 0 hi1]
      have := List.chain'_iff_get.mp hch i (by omega)
      simpa using this
    · have hieq : i + 1 = l.length := by omega
      have hmod : (i + 1) % l.length = 0 := by rw [hieq, Nat.mod_self]
      have hlen : 0 < l.length := by omega
      rw [hmod, show i = l.length - 1 from by omega]
      exact hcirc _ (by rw [getLast?_eq_getD hlen]; rfl) _ (by rw [head?_eq_getD hlen]; rfl)
  · intro h
    constructor
    · rw [List.chain'_iff_get]
      intro i hi
      have hi' : i < l.length := by omega
      have hi1 : i + 1 < l.length := by omega
      have h' := h i hi'
      rw [Nat.mod_eq_of_lt hi1, List.getD_eq_getElem l 0 hi',
        List.getD_eq_getElem l 0 hi1] at h'
      simpa using h'
    · intro x hx z hz
      cases hl : l with
      | nil => subst hl; simp at hx
      | cons w s =>
        have hlen : 0 < l.length := by rw [hl]; simp
        rw [getLast?_eq_getD hlen] at hx
        rw [head?_eq_getD hlen] at hz
        have hxe : x = l.getD (l.length - 1) 0 := (Option.mem_some_iff.mp hx).symm
        have hze : z = l.getD 0 0 := (Option.mem_some_iff.mp hz).symm
        have h' := h (l.length - 1) (by omega)
        rw [show (l.length - 1 + 1) % l.length = 0 from by
          rw [show l.length - 1 + 1 = l.length from by omega, Nat.mod_self]] at h'
        rw [hxe, hze]
        exact h'

/-! ### Sortedness of the stable insertion sort -/
theorem insertOrd_pairwise {le : α → α → Bool}
    (htot : ∀ a b, le a b = true ∨ le b a = true)
    (htrans : ∀ a b c, le a b = true → le b c = true → le a c = true)
    (x : α) : ∀ {l : List α}, l.Pairwise (fun a b => le a b = true) →
      (insertOrd le x l).Pairwise (fun a b => le a b = true) := by
  intro l
  induction l with
  | nil =>
    intro _
    unfold insertOrd
    exact List.pairwise_singleton _ x
  | cons y ys ih =>
    intro hp
    obtain ⟨hy, hp'⟩ := List.pairwise_cons.mp hp
    unfold insertOrd
    by_cases h : le y x = true
    · rw [if_pos h, List.pairwise_cons]
      refine ⟨?_, ih hp'⟩
      intro b hb
      have hmem : b ∈ x :: ys := (insertOrd_perm le x ys).mem_iff.mp hb
      rcases List.mem_cons.mp hmem with rfl | hbys
      · exact h
      · exact hy b hbys
    · rw [if_neg (by simpa using h), List.pairwise_cons]
      have hxy : le x y = true := (htot x y).resolve_right h
      refine ⟨?_, hp⟩
      intro b hb
      rcases List.mem_cons.mp hb with rfl | hbys
      · exact hxy
      · exact htrans x y b hxy (hy b hbys)

theorem insertSort_fold_pairwise {le : α → α → Bool}
    (htot : ∀ a b, le a b = true ∨ le b a = true)
    (htrans : ∀ a b c, le a b = true → le b c = true → le a c = true) :
    ∀ (l acc : List α), acc.Pairwise (fun a b => le a b = true) →
      (l.foldl (fun acc x => insertOrd le x acc) acc).Pairwise
        (fun a b => le a b = true) := by
  intro l
  induction l with
  | nil => intro acc h; exact h
  | cons x xs ih =>
    intro acc h
    rw [List.foldl_cons]
    exact ih _ (insertOrd_pairwise htot htrans x h)

theorem insertSort_pairwise {le : α → α → Bool}
    (htot : ∀ a b, le a b = true ∨ le b a = true)
    (htrans : ∀ a b c, le a b = true → le b c = true → le a c = true)
    (l : List α) :
    (insertSort le l).Pairwise (fun a b => le a b = true) :=
  insertSort_fold_pairwise htot htrans l [] List.Pairwise.nil

/-! ### Stability of directions under edge removal -/
theorem find?_removeFirstBy {p q : α → Bool} (h : ∀ x, q x = true → p x = false) :
    ∀ l : List α, (removeFirstBy q l).find? p = l.find? p := by
  intro l
  induction l with
  | nil => rfl
  | cons x xs ih =>
    rw [removeFirstBy_cons]
    by_cases hq : q x = true
    · rw [if_pos hq, List.find?_cons_of_neg _ (by rw [h x hq]; simp)]
    · rw [if_neg hq]
      cases hp : p x with
      | true => rw [List.find?_cons_of_pos _ hp, List.find?_cons_of_pos _ hp]
      | false =>
        rw [List.find?_cons_of_neg _ (by simp [hp]),
          List.find?_cons_of_neg _ (by simp [hp])]
        exact ih

theorem lookupEdge_removeEdge_ne {g : Graph} {e : GEdge} {eid : ℕ}
    (hne : eid ≠ e.eid) :
    lookupEdge (removeEdge g e) eid = lookupEdge g eid := by
  show (removeFirstBy (fun x => x.eid = e.eid) g.edges).find? (fun x => x.eid = eid) =
    g.edges.find? (fun x => x.eid = eid)
  apply find?_removeFirstBy
  intro x hx
  simp only [decide_eq_true_eq] at hx
  simp [hx, hne.symm]

theorem removeFirstBy_id_of_not_mem {l : List ℕ} {a : ℕ} (h : a ∉ l) :
    removeFirstBy (fun x => x = a) l = l := by
  induction l with
  | nil => rfl
  | cons x xs ih =>
    rw [removeFirstBy_cons]
    have hxa : x ≠ a := fun hc => h (hc ▸ List.mem_cons_self x xs)
    rw [if_neg (by simpa using hxa)]
    rw [ih (fun hc => h (List.mem_cons_of_mem x hc))]

theorem removeFirstBy_split {p : α → Bool} :
    ∀ {l : List α}, (∃ x ∈ l, p x = true) →
      ∃ l₁ y l₂, l = l₁ ++ y :: l₂ ∧ p y = true ∧
        removeFirstBy p l = l₁ ++ l₂ := by
  intro l
  induction l with
  | nil => rintro ⟨x, hx, _⟩; cases hx
  | cons a rest ih =>
    rintro ⟨x, hx, hpx⟩
    by_cases hpa : p a = true
    · exact ⟨[], a, rest, rfl, hpa, by rw [removeFirstBy_cons, if_pos hpa]; rfl⟩
    · have hex : ∃ x ∈ rest, p x = true := by
        rcases List.mem_cons.mp hx with rfl | hxr
        · exact absurd hpx hpa
        · exact ⟨x, hxr, hpx⟩
      obtain ⟨l₁, y, l₂, heq, hpy, hrm⟩ := ih hex
      exact ⟨a :: l₁, y, l₂, by rw [heq]; rfl, hpy,
        by rw [removeFirstBy_cons, if_neg hpa, hrm]; rfl⟩

/-- After `removeEdge`, every vertex record is its old self with the
removed edge id struck from the incident list. -/
theorem removeEdge_vertex_rfb {g : Graph} (hg : GInv g) (e : GEdge)
    (hU : ∀ e' ∈ g.edges, e'.eid = e.eid → e' = e) :
    ∀ v' ∈ (removeEdge g e).vertices, ∃ v ∈ g.vertices,
      v'.vid = v.vid ∧ v'.pos = v.pos ∧
      v'.edges = removeFirstBy (fun x => x = e.eid) v.edges := by
  intro v' hv'
  obtain ⟨v1, hv1, hv1e⟩ := mem_removeEdgeFromVertex hv'
  obtain ⟨v, hv, hve⟩ := mem_removeEdgeFromVertex hv1
  have hvnd := hg.vEdgesNodup v hv
  have hv1vid : v1.vid = v.vid := by
    rw [hve]; by_cases h : v.vid = e.v0 <;> simp [h]
  have hv1pos : v1.pos = v.pos := by
    rw [hve]; by_cases h : v.vid = e.v0 <;> simp [h]
  refine ⟨v, hv, ?_, ?_, ?_⟩
  · rw [hv1e]
    by_cases h : v1.vid = e.v1
    · rw [if_pos h]; exact hv1vid
    · rw [if_neg h]; exact hv1vid
  · rw [hv1e]
    by_cases h : v1.vid = e.v1
    · rw [if_pos h]; exact hv1pos
    · rw [if_neg h]; exact hv1pos
  · by_cases h0 : v.vid = e.v0
    · have hv1edges : v1.edges = removeFirstBy (fun x => x = e.eid) v.edges := by
        rw [hve, if_pos h0]
      by_cases h1 : v1.vid = e.v1
      · rw [hv1e, if_pos h1]
        show removeFirstBy (fun x => x = e.eid) v1.edges = _
        rw [hv1edges]
        have hnm : e.eid ∉ removeFirstBy (fun x => x = e.eid) v.edges :=
          not_mem_removeFirstBy_self hvnd
        rw [removeFirstBy_id_of_not_mem hnm]
      · rw [hv1e, if_neg h1]
        exact hv1edges
    · have hv1eq : v1 = v := by rw [hve, if_neg h0]
      by_cases h1 : v1.vid = e.v1
      · rw [hv1e, if_pos h1]
        show removeFirstBy (fun x => x = e.eid) v1.edges = _
        rw [hv1eq]
      · have hnotmem : e.eid ∉ v.edges := by
          intro hc
          obtain ⟨e1, he1, he1id, he1end⟩ := hg.fwd v hv e.eid hc
          have he1e : e1 = e := hU e1 he1 he1id
          rw [he1e] at he1end
          rcases he1end with h | h
          · exact h0 h.symm
          · exact h1 (by rw [hv1eq]; exact h.symm)
        rw [hv1e, if_neg h1, hv1eq, removeFirstBy_id_of_not_mem hnotmem]

theorem edgeDirFrom_congr {g g' : Graph} {v v' : GVertex} {er : GEdge}
    (hvid : v'.vid = v.vid) (hpos : v'.pos = v.pos)
    (hp0 : posOf g' er.v0 = posOf g er.v0) (hp1 : posOf g' er.v1 = posOf g er.v1) :
    edgeDirFrom g' v' er = edgeDirFrom g v er := by
  unfold edgeDirFrom
  rw [hvid, hpos]
  by_cases h : er.v0 = v.vid
  · rw [if_pos h]
    show vsub (posOf g' er.v1) v.pos = vsub (posOf g er.v1) v.pos
    rw [hp1]
  · rw [if_neg h]
    show vsub (posOf g' er.v0) v.pos = vsub (posOf g er.v0) v.pos
    rw [hp0]

/-- Directions of the surviving incident edges are unchanged by a
removal. -/
theorem angListOf_removeEdge {g : Graph} {e : GEdge} {v' v : GVertex}
    (hvid : v'.vid = v.vid) (hpos : v'.pos = v.pos)
    (hne : ∀ eid ∈ v'.edges, eid ≠ e.eid) :
    angListOf (removeEdge g e) v' =
      v'.edges.map (fun eid => dirAngle (edgeDirId g v eid)) := by
  unfold angListOf
  apply List.map_congr_left
  intro eid hmem
  congr 1
  unfold edgeDirId
  rw [lookupEdge_removeEdge_ne (hne eid hmem)]
  cases hle : lookupEdge g eid with
  | none => rfl
  | some er =>
    exact edgeDirFrom_congr hvid hpos (posOf_removeEdge g e er.v0)
      (posOf_removeEdge g e er.v1)

theorem VSorted_removeEdge {g : Graph} (hg : GInv g) (e : GEdge)
    (hU : ∀ e' ∈ g.edges, e'.eid = e.eid → e' = e)
    (hvs : VSorted g) : VSorted (removeEdge g e) := by
  intro v' hv'
  obtain ⟨v, hv, hvid, hpos, hedges⟩ := removeEdge_vertex_rfb hg e hU v' hv'
  have hvnd := hg.vEdgesNodup v hv
  have hne : ∀ eid ∈ v'.edges, eid ≠ e.eid := by
    intro eid hmem hc
    rw [hedges] at hmem
    rw [hc] at hmem
    exact not_mem_removeFirstBy_self hvnd hmem
  rw [angListOf_removeEdge hvid hpos hne]
  have hsub : v'.edges.Sublist v.edges := by
    rw [hedges]; exact removeFirstBy_sublist _ _
  have hp := hvs v hv
  unfold angListOf at hp
  exact List.Pairwise.sublist (hsub.map _) hp

theorem VGaps_removeEdge {g : Graph} (hg : GInv g) (e : GEdge)
    (hU : ∀ e' ∈ g.edges, e'.eid = e.eid → e' = e)
    (hvs : VSorted g) (hvg : VGaps g) : VGaps (removeEdge g e) := by
  intro v' hv'
  obtain ⟨v, hv, hvid, hpos, hedges⟩ := removeEdge_vertex_rfb hg e hU v' hv'
  have hvnd := hg.vEdgesNodup v hv
  have hne : ∀ eid ∈ v'.edges, eid ≠ e.eid := by
    intro eid hmem hc
    rw [hedges] at hmem
    rw [hc] at hmem
    exact not_mem_removeFirstBy_self hvnd hmem
  rw [angListOf_removeEdge hvid hpos hne]
  have hp := hvs v hv
  have hgap := hvg v hv
  by_cases hmem : e.eid ∈ v.edges
  · obtain ⟨l₁, y, l₂, heq, hpy, hrm⟩ :=
      removeFirstBy_split (p := fun x => decide (x = e.eid)) ⟨e.eid, hmem, by simp⟩
    have hrm' : v'.edges = l₁ ++ l₂ := by
      rw [hedges]
      exact hrm
    rw [hrm', List.map_append]
    unfold angListOf at hp hgap
    rw [heq, List.map_append, List.map_cons] at hp hgap
    exact GapCirc_delete hp hgap
  · have hid : v'.edges = v.edges := by
      rw [hedges, removeFirstBy_id_of_not_mem hmem]
    rw [hid]
    exact hgap

/-! ### The small-angle fix point -/
/-- Case analysis of one pair step that records, in the removal case,
that a record with the removed id is present in the current edge list. -/
theorem smallAngleStep_removal_facts {vid : ℕ} {snap : List GEdge}
    {acc : Graph × Bool} {i : ℕ} (hg : GInv acc.1) (hi : i < snap.length) :
    smallAngleStep vid snap acc i = acc ∨
    ∃ eR ∈ snap, smallAngleStep vid snap acc i = (removeEdge acc.1 eR, true) ∧
      ∃ x ∈ acc.1.edges, x.eid = eR.eid := by
  unfold smallAngleStep
  split
  · left; rfl
  · rename_i v hlv
    have hvmem : v ∈ acc.1.vertices := lookupVertex_mem hlv
    split
    · rename_i hcond
      split
      · left; rfl
      · split
        · right
          refine ⟨_, ?_, rfl, ?_⟩
          · split
            · exact getD_mem_of_lt hi _
            · exact getD_mem_of_lt (Nat.mod_lt _ (by omega)) _
          · split
            · obtain ⟨e1, he1, he1id, _⟩ := hg.fwd v hvmem _ hcond.1
              exact ⟨e1, he1, he1id⟩
            · obtain ⟨e1, he1, he1id, _⟩ := hg.fwd v hvmem _ hcond.2
              exact ⟨e1, he1, he1id⟩
        · left; rfl
    · left; rfl

theorem smallAngleStep_flag (vid : ℕ) (snap : List GEdge) (acc : Graph × Bool)
    (i : ℕ) :
    smallAngleStep vid snap acc i = acc ∨ (smallAngleStep vid snap acc i).2 = true := by
  rcases smallAngleStep_cases vid snap acc i with h | ⟨eR, _, h⟩
  · left; exact h
  · right; rw [h]

theorem smallAngleVertexStep_flag (acc : Graph × Bool) (vid : ℕ) :
    smallAngleVertexStep acc vid = acc ∨ (smallAngleVertexStep acc vid).2 = true := by
  unfold smallAngleVertexStep
  split
  · left; rfl
  · rename_i v hlv
    split
    · left; rfl
    · exact foldl_preserve_mem
        (P := fun x : Graph × Bool => x = acc ∨ x.2 = true)
        (smallAngleStep vid (v.edges.filterMap (lookupEdge acc.1)))
        (List.range (v.edges.filterMap (lookupEdge acc.1)).length)
        (fun x c _ hP => by
          rcases smallAngleStep_flag vid (v.edges.filterMap (lookupEdge acc.1)) x c with
            he | ht
          · rw [he]; exact hP
          · exact Or.inr ht)
        acc (Or.inl rfl)

/-- A flag-monotone fold that ends with the flag down never moved. -/
theorem flagFold_false {f : Graph × Bool → ℕ → Graph × Bool}
    (hf : ∀ acc c, f acc c = acc ∨ (f acc c).2 = true) :
    ∀ (l : List ℕ) (acc : Graph × Bool), (l.foldl f acc).2 = false →
      l.foldl f acc = acc ∧ ∀ c ∈ l, f acc c = acc := by
  intro l
  induction l with
  | nil =>
    intro acc h
    exact ⟨rfl, fun c hc => absurd hc (List.not_mem_nil c)⟩
  | cons c rest ih =>
    intro acc h
    rw [List.foldl_cons] at h ⊢
    have hstep : f acc c = acc := by
      rcases hf acc c with he | ht
      · exact he
      · exfalso
        have hmono : ∀ (m : List ℕ) (x : Graph × Bool), x.2 = true →
            (m.foldl f x).2 = true := by
          intro m
          induction m with
          | nil => intro x hx; exact hx
          | cons d rest' ih' =>
            intro x hx
            rw [List.foldl_cons]
            refine ih' _ ?_
            rcases hf x d with he' | ht'
            · rw [he']; exact hx
            · exact ht'
        rw [hmono rest (f acc c) ht] at h
        cases h
    rw [hstep] at h
    obtain ⟨h1, h2⟩ := ih acc h
    refine ⟨by rw [hstep]; exact h1, ?_⟩
    intro c' hc'
    rcases List.mem_cons.mp hc' with rfl | hc'
    · exact hstep
    · exact h2 c' hc'

theorem smallAnglePass_false_eq {g : Graph} (h : (smallAnglePass g).2 = false) :
    (smallAnglePass g).1 = g := by
  unfold smallAnglePass at h ⊢
  have := (flagFold_false smallAngleVertexStep_flag _ _ h).1
  rw [this]

/-- One pair step: invariant, edge subset, sortedness, and the
length measure. -/
theorem saStep_all {mid : Graph} (hmid : GInv mid) {vid : ℕ}
    {snap : List GEdge} (hsnap : ∀ e ∈ snap, e ∈ mid.edges) {acc : Graph × Bool}
    {i : ℕ} (hi : i < snap.length) (hg : GInv acc.1)
    (hsub : ∀ e ∈ acc.1.edges, e ∈ mid.edges) (hvs : VSorted acc.1) :
    GInv (smallAngleStep vid snap acc i).1 ∧
    (∀ e ∈ (smallAngleStep vid snap acc i).1.edges, e ∈ mid.edges) ∧
    VSorted (smallAngleStep vid snap acc i).1 ∧
    (smallAngleStep vid snap acc i).1.edges.length ≤ acc.1.edges.length ∧
    ((smallAngleStep vid snap acc i).2 = true →
      acc.2 = true ∨
        (smallAngleStep vid snap acc i).1.edges.length < acc.1.edges.length) := by
  rcases smallAngleStep_removal_facts hg hi with h | ⟨eR, heRsnap, h, x, hx, hxid⟩
  · rw [h]
    exact ⟨hg, hsub, hvs, le_refl _, fun ht => Or.inl ht⟩
  · rw [h]
    have heRmid : eR ∈ mid.edges := hsnap _ heRsnap
    have hU : ∀ e' ∈ acc.1.edges, e'.eid = eR.eid → e' = eR := fun e' he' heq =>
      eid_unique hmid.eidsNodup (hsub e' he') heRmid heq
    have hlen := length_removeFirstBy_succ
      (p := fun y : GEdge => decide (y.eid = eR.eid)) ⟨x, hx, by simp [hxid]⟩
    refine ⟨GInv_removeEdge hg eR hU,
      fun e he => hsub e (mem_of_mem_removeFirstBy he),
      VSorted_removeEdge hg eR hU hvs, ?_, fun _ => Or.inr ?_⟩
    · show (removeFirstBy (fun y => y.eid = eR.eid) acc.1.edges).length ≤ _
      omega
    · show (removeFirstBy (fun y => y.eid = eR.eid) acc.1.edges).length < _
      omega

theorem saInner_all {mid : Graph} (hmid : GInv mid) {vid : ℕ}
    {snap : List GEdge} (hsnap : ∀ e ∈ snap, e ∈ mid.edges) :
    ∀ (idxs : List ℕ), (∀ j ∈ idxs, j < snap.length) → ∀ (acc : Graph × Bool),
      GInv acc.1 → (∀ e ∈ acc.1.edges, e ∈ mid.edges) → VSorted acc.1 →
      GInv (idxs.foldl (smallAngleStep vid snap) acc).1 ∧
      (∀ e ∈ (idxs.foldl (smallAngleStep vid snap) acc).1.edges, e ∈ mid.edges) ∧
      VSorted (idxs.foldl (smallAngleStep vid snap) acc).1 ∧
      (idxs.foldl (smallAngleStep vid snap) acc).1.edges.length ≤ acc.1.edges.length ∧
      ((idxs.foldl (smallAngleStep vid snap) acc).2 = true →
        acc.2 = true ∨
          (idxs.foldl (smallAngleStep vid snap) acc).1.edges.length <
            acc.1.edges.length) := by
  intro idxs
  induction idxs with
  | nil =>
    intro _ acc hg hsub hvs
    exact ⟨hg, hsub, hvs, le_refl _, fun ht => Or.inl ht⟩
  | cons j rest ih =>
    intro hjs acc hg hsub hvs
    rw [List.foldl_cons]
    obtain ⟨h1, h2, h3, h4, h5⟩ :=
      saStep_all hmid hsnap (hjs j (List.mem_cons_self j rest)) hg hsub hvs
    obtain ⟨a1, a2, a3, a4, a5⟩ :=
      ih (fun x hx => hjs x (List.mem_cons_of_mem j hx)) _ h1 h2 h3
    refine ⟨a1, a2, a3, le_trans a4 h4, ?_⟩
    intro ht
    rcases a5 ht with hflag | hlt
    · rcases h5 hflag with hflag' | hlt'
      · exact Or.inl hflag'
      · exact Or.inr (by omega)
    · exact Or.inr (by omega)

theorem saVertex_all {acc : Graph × Bool} (hg : GInv acc.1) (hvs : VSorted acc.1)
    (vid : ℕ) :
    GInv (smallAngleVertexStep acc vid).1 ∧
    (∀ e ∈ (smallAngleVertexStep acc vid).1.edges, e ∈ acc.1.edges) ∧
    VSorted (smallAngleVertexStep acc vid).1 ∧
    (smallAngleVertexStep acc vid).1.edges.length ≤ acc.1.edges.length ∧
    ((smallAngleVertexStep acc vid).2 = true →
      acc.2 = true ∨
        (smallAngleVertexStep acc vid).1.edges.length < acc.1.edges.length) := by
  unfold smallAngleVertexStep
  split
  · exact ⟨hg, fun e he => he, hvs, le_refl _, fun ht => Or.inl ht⟩
  · rename_i v hlv
    split
    · exact ⟨hg, fun e he => he, hvs, le_refl _, fun ht => Or.inl ht⟩
    · exact saInner_all hg mem_filterMap_lookupEdge
        (List.range (v.edges.filterMap (lookupEdge acc.1)).length)
        (fun j hj => List.mem_range.mp hj) acc hg (fun e he => he) hvs

theorem saPass_fold_all :
    ∀ (vids : List ℕ) (acc : Graph × Bool) (g0 : Graph),
      GInv acc.1 → (∀ e ∈ acc.1.edges, e ∈ g0.edges) → VSorted acc.1 →
      acc.1.edges.length ≤ g0.edges.length →
      (acc.2 = true → acc.1.edges.length < g0.edges.length) →
      GInv (vids.foldl smallAngleVertexStep acc).1 ∧
      (∀ e ∈ (vids.foldl smallAngleVertexStep acc).1.edges, e ∈ g0.edges) ∧
      VSorted (vids.foldl smallAngleVertexStep acc).1 ∧
      (vids.foldl smallAngleVertexStep acc).1.edges.length ≤ g0.edges.length ∧
      ((vids.foldl smallAngleVertexStep acc).2 = true →
        (vids.foldl smallAngleVertexStep acc).1.edges.length < g0.edges.length) := by
  intro vids
  induction vids with
  | nil =>
    intro acc g0 hg hsub hvs hle hflag
    exact ⟨hg, hsub, hvs, hle, hflag⟩
  | cons c rest ih =>
    intro acc g0 hg hsub hvs hle hflag
    rw [List.foldl_cons]
    obtain ⟨h1, h2, h3, h4, h5⟩ := saVertex_all hg hvs c
    refine ih _ g0 h1 (fun e he => hsub e (h2 e he)) h3 (by omega) ?_
    intro ht
    rcases h5 ht with hflag' | hlt
    · have := hflag hflag'
      omega
    · omega

theorem smallAnglePass_all {g0 : Graph} (hg : GInv g0) (hvs : VSorted g0) :
    GInv (smallAnglePass g0).1 ∧
    (∀ e ∈ (smallAnglePass g0).1.edges, e ∈ g0.edges) ∧
    VSorted (smallAnglePass g0).1 ∧
    ((smallAnglePass g0).2 = true →
      (smallAnglePass g0).1.edges.length < g0.edges.length) := by
  obtain ⟨h1, h2, h3, _, h5⟩ := saPass_fold_all (g0.vertices.map GVertex.vid)
    (g0, false) g0 hg (fun _ he => he) hvs (le_refl _) (fun h => by cases h)
  exact ⟨h1, h2, h3, h5⟩

theorem smallAngleLoop_sorted : ∀ (fuel : ℕ) {g : Graph}, GInv g → VSorted g →
    GInv (smallAngleLoop fuel g) ∧ VSorted (smallAngleLoop fuel g) := by
  intro fuel
  induction fuel with
  | zero =>
    intro g hg hvs
    exact ⟨hg, hvs⟩
  | succ m ih =>
    intro g hg hvs
    obtain ⟨h1, _, h3, _⟩ := smallAnglePass_all hg hvs
    unfold smallAngleLoop
    by_cases hb : (smallAnglePass g).2 = true
    · rw [if_pos hb]
      exact ih h1 h3
    · rw [if_neg hb]
      exact ⟨h1, h3⟩

/-- The fuel `edges.length + 1` suffices: the loop reaches the true
fix point of the pass. -/
theorem smallAngleLoop_fix : ∀ (fuel : ℕ) (g : Graph), GInv g → VSorted g →
    g.edges.length < fuel → (smallAnglePass (smallAngleLoop fuel g)).2 = false := by
  intro fuel
  induction fuel with
  | zero =>
    intro g _ _ h
    exact absurd h (by omega)
  | succ m ih =>
    intro g hg hvs hlt
    unfold smallAngleLoop
    by_cases hb : (smallAnglePass g).2 = true
    · rw [if_pos hb]
      obtain ⟨h1, _, h3, h5⟩ := smallAnglePass_all hg hvs
      refine ih _ h1 h3 ?_
      have := h5 hb
      omega
    · rw [if_neg hb]
      have hfalse : (smallAnglePass g).2 = false := by
        cases hx : (smallAnglePass g).2
        · rfl
        · exact absurd hx hb
      rw [smallAnglePass_false_eq hfalse]
      exact hfalse

/-! ### Extracting the gap property at the fix point -/
theorem filterMap_all_some {f : α → Option β} (da : α) (db : β) :
    ∀ {l : List α}, (∀ x ∈ l, ∃ y, f x = some y) →
      (l.filterMap f).length = l.length ∧
      ∀ i, i < l.length → f (l.getD i da) = some ((l.filterMap f).getD i db) := by
  intro l
  induction l with
  | nil =>
    intro _
    exact ⟨rfl, fun i hi => absurd hi (by simp)⟩
  | cons x xs ih =>
    intro h
    obtain ⟨y, hy⟩ := h x (List.mem_cons_self x xs)
    obtain ⟨ih1, ih2⟩ := ih (fun z hz => h z (List.mem_cons_of_mem x hz))
    rw [List.filterMap_cons, hy]
    refine ⟨by simp [ih1], ?_⟩
    intro i hi
    cases i with
    | zero => simpa using hy
    | succ n =>
      have := ih2 n (by simpa using hi)
      simpa using this

theorem lookupEdge_of_incident {g : Graph} (hg : GInv g) {v : GVertex}
    (hv : v ∈ g.vertices) {eid : ℕ} (hmem : eid ∈ v.edges) :
    ∃ e, lookupEdge g eid = some e := by
  obtain ⟨e1, he1, he1id, _⟩ := hg.fwd v hv eid hmem
  cases hle : lookupEdge g eid with
  | none =>
    have := List.find?_eq_none.mp hle e1 he1
    simp [he1id] at this
  | some e' => exact ⟨e', rfl⟩

theorem lookupVertex_self {g : Graph} (hg : GInv g) {v : GVertex}
    (hv : v ∈ g.vertices) : lookupVertex g v.vid = some v := by
  cases h : lookupVertex g v.vid with
  | none =>
    have := List.find?_eq_none.mp h v hv
    simp at this
  | some w =>
    rw [vid_unique hg.vidsNodup (lookupVertex_mem h) hv (lookupVertex_vid h)]

/-- At a pass fix point, no circularly adjacent pair at any vertex of
degree at least 2 passes the removal test. -/
theorem smallAnglePass_false_gaps {g : Graph} (hg : GInv g)
    (hfalse : (smallAnglePass g).2 = false) :
    ∀ v ∈ g.vertices, 2 ≤ v.edges.length → ∀ i, i < v.edges.length →
      gapLtSixth (edgeDirId g v (v.edges.getD i 0))
        (edgeDirId g v (v.edges.getD ((i + 1) % v.edges.length) 0)) = false := by
  intro v hv hdeg i hi
  unfold smallAnglePass at hfalse
  obtain ⟨hall, heach⟩ := flagFold_false smallAngleVertexStep_flag _ _ hfalse
  have hvidmem : v.vid ∈ g.vertices.map GVertex.vid := List.mem_map.mpr ⟨v, hv, rfl⟩
  have hstep := heach v.vid hvidmem
  have hlv : lookupVertex g v.vid = some v := lookupVertex_self hg hv
  unfold smallAngleVertexStep at hstep
  simp only [hlv] at hstep
  rw [if_neg (by omega)] at hstep
  obtain ⟨hslen, hsget⟩ := filterMap_all_some 0 (⟨0, 0, 0⟩ : GEdge)
    (f := lookupEdge g) (l := v.edges)
    (fun eid hmem => lookupEdge_of_incident hg hv hmem)
  have hflaginner :
      ((List.range (v.edges.filterMap (lookupEdge g)).length).foldl
        (smallAngleStep v.vid (v.edges.filterMap (lookupEdge g))) (g, false)).2 =
        false := by
    rw [hstep]
  obtain ⟨_, hinner⟩ :=
    flagFold_false (smallAngleStep_flag v.vid (v.edges.filterMap (lookupEdge g)))
      _ _ hflaginner
  have hstepi := hinner i (List.mem_range.mpr (by omega))
  have hi1 : (i + 1) % v.edges.length < v.edges.length := Nat.mod_lt _ (by omega)
  have hEA := hsget i hi
  have hEB := hsget ((i + 1) % v.edges.length) hi1
  have heidA : ((v.edges.filterMap (lookupEdge g)).getD i ⟨0, 0, 0⟩).eid =
      v.edges.getD i 0 := lookupEdge_eid hEA
  have heidB : ((v.edges.filterMap (lookupEdge g)).getD
      ((i + 1) % v.edges.length) ⟨0, 0, 0⟩).eid =
      v.edges.getD ((i + 1) % v.edges.length) 0 := lookupEdge_eid hEB
  have hmodeq : (i + 1) % (v.edges.filterMap (lookupEdge g)).length =
      (i + 1) % v.edges.length := by rw [hslen]
  have hne : v.edges.getD i 0 ≠ v.edges.getD ((i + 1) % v.edges.length) 0 := by
    have hnd := hg.vEdgesNodup v hv
    have hidx : i ≠ (i + 1) % v.edges.length := by
      rcases Nat.lt_or_ge (i + 1) v.edges.length with h | h
      · rw [Nat.mod_eq_of_lt h]
        omega
      · have hee : i + 1 = v.edges.length := by omega
        rw [hee, Nat.mod_self]
        omega
    intro hc
    rw [List.getD_eq_getElem _ _ hi, List.getD_eq_getElem _ _ hi1] at hc
    exact hidx ((List.Nodup.getElem_inj_iff hnd).mp hc)
  unfold smallAngleStep at hstepi
  simp only [hlv] at hstepi
  rw [hmodeq] at hstepi
  rw [if_pos ⟨by rw [heidA]; exact getD_mem_of_lt hi 0,
    by rw [heidB]; exact getD_mem_of_lt hi1 0⟩] at hstepi
  rw [if_neg (by rw [heidA, heidB]; exact hne)] at hstepi
  by_cases hgap : gapLtSixth
      (edgeDirFrom g v ((v.edges.filterMap (lookupEdge g)).getD i ⟨0, 0, 0⟩))
      (edgeDirFrom g v ((v.edges.filterMap (lookupEdge g)).getD
        ((i + 1) % v.edges.length) ⟨0, 0, 0⟩)) = true
  · rw [if_pos hgap] at hstepi
    have : (true : Bool) = false := congrArg Prod.snd hstepi
    cases this
  · have hA : edgeDirId g v (v.edges.getD i 0) =
        edgeDirFrom g v ((v.edges.filterMap (lookupEdge g)).getD i ⟨0, 0, 0⟩) := by
      unfold edgeDirId
      rw [hEA]
    have hB : edgeDirId g v (v.edges.getD ((i + 1) % v.edges.length) 0) =
        edgeDirFrom g v ((v.edges.filterMap (lookupEdge g)).getD
          ((i + 1) % v.edges.length) ⟨0, 0, 0⟩) := by
      unfold edgeDirId
      rw [hEB]
    rw [hA, hB]
    cases hx : gapLtSixth
        (edgeDirFrom g v ((v.edges.filterMap (lookupEdge g)).getD i ⟨0, 0, 0⟩))
        (edgeDirFrom g v ((v.edges.filterMap (lookupEdge g)).getD
          ((i + 1) % v.edges.length) ⟨0, 0, 0⟩))
    · rfl
    · exact absurd hx hgap

/-- At a pass fix point, every vertex satisfies the circular `π/6` gap
property (degree ≤ 1 vertices trivially: their single wrapped gap is
`2π`). -/
theorem VGaps_of_pass_false {g : Graph} (hg : GInv g)
    (hfalse : (smallAnglePass g).2 = false) : VGaps g := by
  intro v hv
  rw [GapCirc_iff_indexed]
  have hlen : (angListOf g v).length = v.edges.length := List.length_map _ _
  intro i hi
  rw [hlen] at hi
  have hA : (angListOf g v).getD i 0 =
      dirAngle (edgeDirId g v (v.edges.getD i 0)) := by
    rw [List.getD_eq_getElem _ _ (by rw [hlen]; exact hi),
      List.getD_eq_getElem _ _ hi]
    exact List.getElem_map _
  have hi1 : (i + 1) % v.edges.length < v.edges.length :=
    Nat.mod_lt _ (by omega)
  have hB : (angListOf g v).getD ((i + 1) % (angListOf g v).length) 0 =
      dirAngle (edgeDirId g v (v.edges.getD ((i + 1) % v.edges.length) 0)) := by
    rw [hlen]
    rw [List.getD_eq_getElem _ _ (by rw [hlen]; exact hi1),
      List.getD_eq_getElem _ _ hi1]
    exact List.getElem_map _
  rw [hA, hB]
  by_cases hdeg : 2 ≤ v.edges.length
  · have hgap := smallAnglePass_false_gaps hg hfalse v hv hdeg i hi
    unfold gapGE
    by_contra hc
    push_neg at hc
    have := (gapLtSixth_iff _ _).mpr hc
    rw [hgap] at this
    cases this
  · have hlen1 : v.edges.length = 1 := by omega
    have hmod : (i + 1) % v.edges.length = i := by
      have hi0 : i = 0 := by omega
      rw [hlen1, hi0]
    rw [hmod]
    exact gapGE_refl _

/-! ### Sortedness established by the CCW sort -/
theorem lookupEdge_sortAllCCW (g : Graph) (eid : ℕ) :
    lookupEdge (sortAllCCW g) eid = lookupEdge g eid := rfl

theorem edgeDirId_sortAllCCW {g : Graph} {v' v : GVertex}
    (hvid : v'.vid = v.vid) (hpos : v'.pos = v.pos) (eid : ℕ) :
    edgeDirId (sortAllCCW g) v' eid = edgeDirId g v eid := by
  unfold edgeDirId
  rw [lookupEdge_sortAllCCW]
  cases hle : lookupEdge g eid with
  | none => rfl
  | some er =>
    exact edgeDirFrom_congr hvid hpos (posOf_sortAllCCW g er.v0)
      (posOf_sortAllCCW g er.v1)

set_option maxHeartbeats 1600000 in
theorem VSorted_sortAllCCW (g : Graph) : VSorted (sortAllCCW g) := by
  intro v' hv'
  have hv'' : v' ∈ g.vertices.map (fun v =>
      { v with edges := insertSort (fun a b => argLE (edgeDirId g v a) (edgeDirId g v b)) v.edges }) := hv'
  obtain ⟨v, hv, hfv⟩ := List.mem_map.mp hv''
  have hvid : v'.vid = v.vid := by rw [← hfv]
  have hpos : v'.pos = v.pos := by rw [← hfv]
  have hedges : v'.edges = insertSort (fun a b => argLE (edgeDirId g v a) (edgeDirId g v b)) v.edges := by
    rw [← hfv]
  unfold angListOf
  have hcong : ∀ eid ∈ v'.edges,
      dirAngle (edgeDirId (sortAllCCW g) v' eid) =
        dirAngle (edgeDirId g v eid) := by
    intro eid _
    rw [edgeDirId_sortAllCCW hvid hpos]
  rw [List.map_congr_left hcong, hedges]
  rw [List.pairwise_map]
  have hsorted := @insertSort_pairwise ℕ
    (fun a b => argLE (edgeDirId g v a) (edgeDirId g v b))
    (fun a b => by
      rcases le_total (dirAngle (edgeDirId g v a)) (dirAngle (edgeDirId g v b)) with
        h | h
      · exact Or.inl ((argLE_iff _ _).mpr h)
      · exact Or.inr ((argLE_iff _ _).mpr h))
    (fun a b c hab hbc =>
      (argLE_iff _ _).mpr (le_trans ((argLE_iff _ _).mp hab) ((argLE_iff _ _).mp hbc)))
    v.edges
  exact hsorted.imp (fun h => (argLE_iff _ _).mp h)

/-! ### The sparse phase preserves sortedness and the gap property -/
theorem sparseScanStep_va {acc : Graph × List ℕ} (hg : GInv acc.1)
    (hvs : VSorted acc.1) (hvg : VGaps acc.1) (c : ℕ) :
    VSorted (sparseScanStep acc c).1 ∧ VGaps (sparseScanStep acc c).1 := by
  unfold sparseScanStep
  split
  · exact ⟨hvs, hvg⟩
  · split
    · exact ⟨hvs, hvg⟩
    · split
      · split
        · split
          · rename_i e hle
            have hU : ∀ e' ∈ acc.1.edges, e'.eid = e.eid → e' = e := fun e' he' h =>
              eid_unique hg.eidsNodup he' (lookupEdge_mem hle) h
            exact ⟨VSorted_removeEdge hg e hU hvs, VGaps_removeEdge hg e hU hvs hvg⟩
          · exact ⟨hvs, hvg⟩
        · exact ⟨hvs, hvg⟩
      · exact ⟨hvs, hvg⟩

theorem sparseScan_fold_va :
    ∀ (vids : List ℕ) (acc : Graph × List ℕ),
      GInv acc.1 → VSorted acc.1 → VGaps acc.1 →
      VSorted (vids.foldl sparseScanStep acc).1 ∧
      VGaps (vids.foldl sparseScanStep acc).1 := by
  intro vids
  induction vids with
  | nil =>
    intro acc _ hvs hvg
    exact ⟨hvs, hvg⟩
  | cons c rest ih =>
    intro acc hg hvs hvg
    rw [List.foldl_cons]
    obtain ⟨h1, h2⟩ := sparseScanStep_va hg hvs hvg c
    exact ih _ (sparseScanStep_inv hg c).1 h1 h2

theorem GInv_removeEdgeById {g : Graph} (hg : GInv g) (eid : ℕ) :
    GInv (removeEdgeById g eid) := by
  unfold removeEdgeById
  cases hle : lookupEdge g eid with
  | none => exact hg
  | some e =>
    exact GInv_removeEdge hg e (fun e' he' h =>
      eid_unique hg.eidsNodup he' (lookupEdge_mem hle) h)

theorem removeEdgeById_va {g : Graph} (hg : GInv g) (hvs : VSorted g)
    (hvg : VGaps g) (eid : ℕ) :
    VSorted (removeEdgeById g eid) ∧ VGaps (removeEdgeById g eid) := by
  unfold removeEdgeById
  cases hle : lookupEdge g eid with
  | none => exact ⟨hvs, hvg⟩
  | some e =>
    have hU : ∀ e' ∈ g.edges, e'.eid = e.eid → e' = e := fun e' he' h =>
      eid_unique hg.eidsNodup he' (lookupEdge_mem hle) h
    exact ⟨VSorted_removeEdge hg e hU hvs, VGaps_removeEdge hg e hU hvs hvg⟩

theorem removeEdgesFold_va : ∀ (eids : List ℕ) (g : Graph),
    GInv g → VSorted g → VGaps g →
    VSorted (eids.foldl removeEdgeById g) ∧ VGaps (eids.foldl removeEdgeById g) := by
  intro eids
  induction eids with
  | nil =>
    intro g _ hvs hvg
    exact ⟨hvs, hvg⟩
  | cons c rest ih =>
    intro g hg hvs hvg
    rw [List.foldl_cons]
    obtain ⟨h1, h2⟩ := removeEdgeById_va hg hvs hvg c
    exact ih _ (GInv_removeEdgeById hg c) h1 h2

theorem lookupVertex_splice {g : Graph} {c u : ℕ} (hne : u ≠ c) :
    lookupVertex { g with vertices := removeFirstBy (fun x => x.vid = c) g.vertices } u =
      lookupVertex g u := by
  show (removeFirstBy (fun x => x.vid = c) g.vertices).find? (fun v => v.vid = u) =
    g.vertices.find? (fun v => v.vid = u)
  apply find?_removeFirstBy
  intro x hx
  simp only [decide_eq_true_eq] at hx
  simp only [hx, decide_eq_false_iff_not]
  exact fun h => hne h.symm

theorem posOf_splice {g : Graph} {c u : ℕ} (hne : u ≠ c) :
    posOf { g with vertices := removeFirstBy (fun x => x.vid = c) g.vertices } u =
      posOf g u := by
  unfold posOf
  rw [lookupVertex_splice hne]

/-- Splicing out a vertex that no surviving edge references keeps every
surviving vertex's angle list unchanged. -/
theorem splice_va {g : Graph} (c : ℕ)
    (hnoref : ∀ e ∈ g.edges, e.v0 ≠ c ∧ e.v1 ≠ c)
    (hvs : VSorted g) (hvg : VGaps g) :
    VSorted { g with vertices := removeFirstBy (fun x => x.vid = c) g.vertices } ∧
    VGaps { g with vertices := removeFirstBy (fun x => x.vid = c) g.vertices } := by
  have hang : ∀ v' ∈ removeFirstBy (fun x => x.vid = c) g.vertices,
      angListOf { g with vertices := removeFirstBy (fun x => x.vid = c) g.vertices } v' =
        angListOf g v' := by
    intro v' _
    unfold angListOf
    apply List.map_congr_left
    intro eid _
    congr 1
    unfold edgeDirId
    show (match lookupEdge g eid with
      | some e => edgeDirFrom { g with
          vertices := removeFirstBy (fun x => x.vid = c) g.vertices } v' e
      | none => ((0 : ℚ), (0 : ℚ))) = _
    cases hle : lookupEdge g eid with
    | none => rfl
    | some er =>
      obtain ⟨h0, h1⟩ := hnoref er (lookupEdge_mem hle)
      exact edgeDirFrom_congr rfl rfl (posOf_splice h0) (posOf_splice h1)
  constructor
  · intro v' hv'
    rw [hang v' hv']
    exact hvs v' (mem_of_mem_removeFirstBy hv')
  · intro v' hv'
    rw [hang v' hv']
    exact hvg v' (mem_of_mem_removeFirstBy hv')

theorem removeVertexAndEdges_va {g : Graph} (hg : GInv g) (hvs : VSorted g)
    (hvg : VGaps g) (c : ℕ) :
    VSorted (removeVertexAndEdges g c) ∧ VGaps (removeVertexAndEdges g c) := by
  unfold removeVertexAndEdges
  cases hlv : lookupVertex g c with
  | none => exact ⟨hvs, hvg⟩
  | some v =>
    obtain ⟨a1, a2, a3, a4, a5⟩ := removeEdgesFold_inv v.edges g hg
    obtain ⟨f1, f2⟩ := removeEdgesFold_va v.edges g hg hvs hvg
    have hnotref : ∀ e' ∈ (v.edges.foldl removeEdgeById g).edges,
        e'.v0 ≠ c ∧ e'.v1 ≠ c := by
      intro e' he'
      have hlink := a1.link e' he'
      constructor
      · intro hc
        obtain ⟨⟨w, hw, hwvid, hwmem⟩, _⟩ := hlink
        obtain ⟨v0, hv0, hvid0, hsub0⟩ := a4 w hw
        have hveq : v0 = v := vid_unique hg.vidsNodup hv0 (lookupVertex_mem hlv)
          (by rw [← hvid0, hwvid, hc, ← lookupVertex_vid hlv])
        rw [hveq] at hsub0
        exact a5 e'.eid (hsub0.subset hwmem) e' he' rfl
      · intro hc
        obtain ⟨_, ⟨w, hw, hwvid, hwmem⟩⟩ := hlink
        obtain ⟨v0, hv0, hvid0, hsub0⟩ := a4 w hw
        have hveq : v0 = v := vid_unique hg.vidsNodup hv0 (lookupVertex_mem hlv)
          (by rw [← hvid0, hwvid, hc, ← lookupVertex_vid hlv])
        rw [hveq] at hsub0
        exact a5 e'.eid (hsub0.subset hwmem) e' he' rfl
    exact splice_va c hnotref f1 f2

theorem rVAE_fold_va : ∀ (cs : List ℕ) (g : Graph),
    GInv g → VSorted g → VGaps g →
    VSorted (cs.foldl removeVertexAndEdges g) ∧
    VGaps (cs.foldl removeVertexAndEdges g) := by
  intro cs
  induction cs with
  | nil =>
    intro g _ hvs hvg
    exact ⟨hvs, hvg⟩
  | cons c rest ih =>
    intro g hg hvs hvg
    rw [List.foldl_cons]
    obtain ⟨h1, h2⟩ := removeVertexAndEdges_va hg hvs hvg c
    exact ih _ (removeVertexAndEdges_inv hg c).1 h1 h2

theorem sparsePass_va {g0 : Graph} (hg : GInv g0) (hvs : VSorted g0)
    (hvg : VGaps g0) :
    VSorted (sparsePass g0).1 ∧ VGaps (sparsePass g0).1 := by
  obtain ⟨s1, s2⟩ := sparseScan_fold_va (g0.vertices.map GVertex.vid) (g0, []) hg hvs hvg
  obtain ⟨i1, _, _⟩ := sparseScan_inv hg
  unfold sparsePass
  by_cases hnil : (sparseScan g0).2 = []
  · rw [if_pos hnil]
    exact ⟨s1, s2⟩
  · rw [if_neg hnil]
    exact rVAE_fold_va _ _ i1 s1 s2

theorem sparseLoop_va : ∀ (fuel : ℕ) {g : Graph},
    GInv g → VSorted g → VGaps g →
    VSorted (sparseLoop fuel g) ∧ VGaps (sparseLoop fuel g) := by
  intro fuel
  induction fuel with
  | zero =>
    intro g _ hvs hvg
    exact ⟨hvs, hvg⟩
  | succ m ih =>
    intro g hg hvs hvg
    obtain ⟨h1, h2⟩ := sparsePass_va hg hvs hvg
    obtain ⟨i1, _, _⟩ := sparsePass_inv hg
    unfold sparseLoop
    by_cases hb : (sparsePass g).2 = true
    · rw [if_pos hb]
      exact ih i1 h1 h2
    · rw [if_neg hb]
      exact ⟨h1, h2⟩

/-! ### Assembly: degrees, sortedness and gaps of the generated graph -/
theorem angListOf_buildFaces (g : Graph) (v : GVertex) :
    angListOf (buildFaces g) v = angListOf g v := rfl

/-- The generated graph (before face building) satisfies the pruning
post-conditions: minimum degree 2, angle-sorted incident lists, and all
wrapped circular gaps at least `π/6`. -/
theorem generate_pruned (n : ℕ) (rng : List ℚ) :
    (∀ v ∈ (generateRandomGraph n rng).vertices, 2 ≤ v.edges.length) ∧
    VSorted (generateRandomGraph n rng) ∧ VGaps (generateRandomGraph n rng) := by
  obtain ⟨hg2, hnc2, hd2⟩ := createEdges_inv (GInv_addRandom n rng)
    ((addRandomVertices_shape n emptyGraph rng).2.2.1)
    (addRandomVertices emptyGraph rng n).2
  have hg3 := GInv_sortAllCCW hg2
  have hvs3 := VSorted_sortAllCCW (createEdges (addRandomVertices emptyGraph rng n).1
    (addRandomVertices emptyGraph rng n).2).1
  obtain ⟨hg4, hvs4⟩ := smallAngleLoop_sorted
    ((sortAllCCW (createEdges (addRandomVertices emptyGraph rng n).1
      (addRandomVertices emptyGraph rng n).2).1).edges.length + 1) hg3 hvs3
  have hafix := smallAngleLoop_fix
    ((sortAllCCW (createEdges (addRandomVertices emptyGraph rng n).1
      (addRandomVertices emptyGraph rng n).2).1).edges.length + 1)
    (sortAllCCW (createEdges (addRandomVertices emptyGraph rng n).1
      (addRandomVertices emptyGraph rng n).2).1) hg3 hvs3 (by omega)
  have hvg4 := VGaps_of_pass_false hg4 hafix
  obtain ⟨hg5, _, _⟩ := sparseLoop_inv
    ((smallAngleLoop
      ((sortAllCCW (createEdges (addRandomVertices emptyGraph rng n).1
        (addRandomVertices emptyGraph rng n).2).1).edges.length + 1)
      (sortAllCCW (createEdges (addRandomVertices emptyGraph rng n).1
        (addRandomVertices emptyGraph rng n).2).1)).vertices.length + 1) hg4
  obtain ⟨hvs5, hvg5⟩ := sparseLoop_va
    ((smallAngleLoop
      ((sortAllCCW (createEdges (addRandomVertices emptyGraph rng n).1
        (addRandomVertices emptyGraph rng n).2).1).edges.length + 1)
      (sortAllCCW (createEdges (addRandomVertices emptyGraph rng n).1
        (addRandomVertices emptyGraph rng n).2).1)).vertices.length + 1) hg4 hvs4 hvg4
  have hsfix := sparseLoop_fix
    ((smallAngleLoop
      ((sortAllCCW (createEdges (addRandomVertices emptyGraph rng n).1
        (addRandomVertices emptyGraph rng n).2).1).edges.length + 1)
      (sortAllCCW (createEdges (addRandomVertices emptyGraph rng n).1
        (addRandomVertices emptyGraph rng n).2).1)).vertices.length + 1)
    (smallAngleLoop
      ((sortAllCCW (createEdges (addRandomVertices emptyGraph rng n).1
        (addRandomVertices emptyGraph rng n).2).1).edges.length + 1)
      (sortAllCCW (createEdges (addRandomVertices emptyGraph rng n).1
        (addRandomVertices emptyGraph rng n).2).1)) hg4 (by omega)
  exact ⟨sparseScan_nil_degrees hg5 (sparsePass_false_scan hsfix), hvs5, hvg5⟩

/-- C3 (amended): after randomized generation completes (both pruning
loops at their fix points), every remaining vertex has degree at least
2, its incident edges are sorted by `atan2` direction angle, and for
every circularly adjacent pair of incident edges the wrapped CCW gap —
computed as the source computes it, sending an angle difference `≤ 0` to
itself plus `2π` — is at least `π/6`.  The claim as frozen is false for
the subtended-angle reading: two incident edges with equal direction
angles survive both pruning loops (their wrapped gap is `2π`), yet the
angle they subtend is `0 < π/6`; see the counterexample. -/
theorem randomized_pruned_degrees_and_gaps (n : ℕ) (rng : List ℚ) :
    ∀ v ∈ (randomizedGraph n rng).vertices,
      2 ≤ v.edges.length ∧
      (angListOf (randomizedGraph n rng) v).Pairwise (fun a b => a ≤ b) ∧
      ∀ i, i < v.edges.length →
        Real.pi / 6 ≤ ccwGapR ((angListOf (randomizedGraph n rng) v).getD i 0)
          ((angListOf (randomizedGraph n rng) v).getD
            ((i + 1) % v.edges.length) 0) := by
  intro v hv
  obtain ⟨hdeg, hvs, hvg⟩ := generate_pruned n rng
  rw [randomizedGraph_def, buildFaces_vertices] at hv
  refine ⟨hdeg v hv, ?_, ?_⟩
  · rw [randomizedGraph_def, angListOf_buildFaces]
    exact hvs v hv
  · intro i hi
    rw [randomizedGraph_def, angListOf_buildFaces]
    have hlen : (angListOf (generateRandomGraph n rng) v).length = v.edges.length :=
      List.length_map _ _
    have hcirc := (GapCirc_iff_indexed _).mp (hvg v hv) i (by rw [hlen]; exact hi)
    rw [hlen] at hcirc
    exact hcirc

set_option maxRecDepth 100000 in
set_option maxHeartbeats 2000000 in
theorem randomized_pruned_degrees_and_gaps_witness :
    ∃ v ∈ (randomizedGraph 4 squareRng).vertices,
      2 ≤ v.edges.length ∧
      (angListOf (randomizedGraph 4 squareRng) v).Pairwise (fun a b => a ≤ b) ∧
      ∀ i, i < v.edges.length →
        Real.pi / 6 ≤ ccwGapR ((angListOf (randomizedGraph 4 squareRng) v).getD i 0)
          ((angListOf (randomizedGraph 4 squareRng) v).getD
            ((i + 1) % v.edges.length) 0) := by
  have hmem : (⟨0, ((-1 : ℚ)/2, (-1 : ℚ)/2), [4, 0, 1]⟩ : GVertex) ∈
      (randomizedGraph 4 squareRng).vertices := by
    rw [randomizedGraph_def, buildFaces_vertices]
    with_unfolding_all decide
  exact ⟨_, hmem, randomized_pruned_degrees_and_gaps 4 squareRng _ hmem⟩

set_option maxRecDepth 100000 in
set_option maxHeartbeats 2000000 in
/-- C3, counterexample to the claim as written: in a completed randomized
generation, a remaining vertex has two distinct angularly adjacent
incident edges (consecutive in its CCW-sorted incident list) whose
directions subtend an angle of `0`, strictly less than `π/6` — both
edges leave the vertex along the positive x-axis. -/
theorem randomized_small_angle_cex :
    ∃ v ∈ (randomizedGraph 3 colRng).vertices, ∃ i, i < v.edges.length ∧
      v.edges.getD i 0 ≠ v.edges.getD ((i + 1) % v.edges.length) 0 ∧
      |dirAngle (edgeDirId (randomizedGraph 3 colRng) v (v.edges.getD i 0)) -
        dirAngle (edgeDirId (randomizedGraph 3 colRng) v
          (v.edges.getD ((i + 1) % v.edges.length) 0))| < Real.pi / 6 := by
  have hmem : (⟨0, ((-9 : ℚ)/10, 0), [0, 2]⟩ : GVertex) ∈
      (randomizedGraph 3 colRng).vertices := by
    rw [randomizedGraph_def, buildFaces_vertices]
    with_unfolding_all decide
  have hd1 : edgeDirId (randomizedGraph 3 colRng)
      ⟨0, ((-9 : ℚ)/10, 0), [0, 2]⟩ 0 = ((27 : ℚ)/20, (0 : ℚ)) := by
    with_unfolding_all rfl
  have hd2 : edgeDirId (randomizedGraph 3 colRng)
      ⟨0, ((-9 : ℚ)/10, 0), [0, 2]⟩ 2 = ((9 : ℚ)/10, (0 : ℚ)) := by
    with_unfolding_all rfl
  refine ⟨⟨0, ((-9 : ℚ)/10, 0), [0, 2]⟩, hmem, 0, by decide, by decide, ?_⟩
  have e1 : (⟨0, ((-9 : ℚ)/10, 0), [0, 2]⟩ : GVertex).edges.getD 0 0 = 0 := rfl
  have e2 : (⟨0, ((-9 : ℚ)/10, 0), [0, 2]⟩ : GVertex).edges.getD
      ((0 + 1) % (⟨0, ((-9 : ℚ)/10, 0), [0, 2]⟩ : GVertex).edges.length) 0 = 2 := rfl
  rw [e1, e2, hd1, hd2]
  have h1 : dirAngle ((27 : ℚ)/20, (0 : ℚ)) = 0 :=
    (dirAngle_eq_zero_iff _).mpr ⟨by norm_num, rfl⟩
  have h2 : dirAngle ((9 : ℚ)/10, (0 : ℚ)) = 0 :=
    (dirAngle_eq_zero_iff _).mpr ⟨by norm_num, rfl⟩
  rw [h1, h2, sub_self, abs_zero]
  linarith [Real.pi_pos]

end Higharc
